import Mathlib

/-!
# neuralnet: the numerical core of `neural_net.cpp`

Shallow embedding of `neural_net` (constructor, `feed_forward`,
`get_delta_weights_and_biases`, `propagate_batch`, `train`) together with the
fragment of Eigen and `std::vector` those functions use.

Conventions of the embedding.

* `float` is an arbitrary scalar type `α` carrying the arithmetic operations the
  code applies (`+ - * /`, unary minus, `0`, `1`, the conversion from `unsigned`)
  and a function `exp`.  Positive results are stated over a field (real-number
  arithmetic, no rounding); results about division by zero are stated over `flt`,
  which adds a NaN element.
* `Eigen::VectorXf` is `vector`, `Eigen::MatrixXf` is `matrix` with its
  column-major coefficient array.  An Eigen expression whose operand sizes do
  not match (a failed `eigen_assert`) is `Fault.dimension`; an access past the
  end of a `std::vector` is `Fault.index`; an archive that ends early or holds
  an item of the wrong kind is `Fault.stream`.
* `unsigned` values are natural numbers reduced modulo `2^32` wherever the code
  computes with them, `size_t` values modulo `2^64`.
* Loops that C++ cannot bound (`train`) are given fuel.
-/

namespace nnlib

/-! ## Faults -/

/-- Abnormal terminations of the C++ program that the embedding tracks. -/
inductive Fault where
  | dimension
  | index
  | stream
deriving DecidableEq, Repr

/-- Outcome of a computation of the library. -/
abbrev Res (β : Type) : Type := Except Fault β

/-- Checked `std::vector::operator[]`: reading index `i` of `xs`. -/
def at_index {β : Type} (xs : List β) (i : Nat) : Res β :=
  match xs[i]? with
  | some x => Except.ok x
  | none => Except.error Fault.index

/-- Checked `std::vector::back()`. -/
def back {β : Type} (xs : List β) : Res β :=
  match xs.getLast? with
  | some x => Except.ok x
  | none => Except.error Fault.index

/-- Checked in-place update `xs[i] = x`. -/
def set_index {β : Type} (xs : List β) (i : Nat) (x : β) : Res (List β) :=
  if i < xs.length then Except.ok (xs.set i x) else Except.error Fault.index

/-! ## Eigen vectors and matrices -/

/-- Dynamic column vector `Eigen::VectorXf`. -/
structure vector (α : Type) where
  data : List α
deriving DecidableEq, Repr

/-- Dynamic matrix `Eigen::MatrixXf`; `data` is the coefficient array in
column-major order, so coefficient `(i, j)` is `data[i + j * rows]`. -/
structure matrix (α : Type) where
  rows : Nat
  cols : Nat
  data : List α
deriving DecidableEq, Repr

instance {α : Type} : Inhabited (vector α) := ⟨⟨[]⟩⟩

instance {α : Type} : Inhabited (matrix α) := ⟨⟨0, 0, []⟩⟩

section ops

variable {α : Type} [Add α] [Sub α] [Mul α] [Div α] [Neg α] [Zero α] [One α] [NatCast α]

namespace vector

/-- Number of coefficients, `rows()` of a column vector. -/
def size (v : vector α) : Nat := v.data.length

/-- Coefficient `v[i]` (zero past the end; only read in range). -/
def coeff (v : vector α) (i : Nat) : α := v.data.getD i 0

/-- The vector `vector::Zero(n)`. -/
def zeros (n : Nat) : vector α := ⟨List.replicate n 0⟩

/-- Coefficient-wise image, `unaryExpr`. -/
def unaryExpr (v : vector α) (f : α → α) : vector α := ⟨v.data.map f⟩

/-- Coefficient-wise sum of two vectors. -/
def plus (u v : vector α) : vector α := ⟨List.zipWith (fun x y => x + y) u.data v.data⟩

/-- Coefficient-wise difference of two vectors. -/
def minus (u v : vector α) : vector α := ⟨List.zipWith (fun x y => x - y) u.data v.data⟩

/-- Coefficient-wise (Hadamard) product of two vectors. -/
def hadamard (u v : vector α) : vector α := ⟨List.zipWith (fun x y => x * y) u.data v.data⟩

/-- Product with a scalar on the right, `v * s`. -/
def scale (v : vector α) (s : α) : vector α := ⟨v.data.map (fun x => x * s)⟩

/-- Quotient by a scalar, `v / s`. -/
def divide (v : vector α) (s : α) : vector α := ⟨v.data.map (fun x => x / s)⟩

/-- Sum of the squares of the coefficients, `squaredNorm()`. -/
def squaredNorm (v : vector α) : α := (v.data.map (fun x => x * x)).sum

/-- Eigen `u + v`: asserts equal sizes. -/
def add (u v : vector α) : Res (vector α) :=
  if u.size = v.size then Except.ok (u.plus v) else Except.error Fault.dimension

/-- Eigen `u - v`: asserts equal sizes. -/
def sub (u v : vector α) : Res (vector α) :=
  if u.size = v.size then Except.ok (u.minus v) else Except.error Fault.dimension

/-- Eigen `u.cwiseProduct(v)`: asserts equal sizes. -/
def cwiseProduct (u v : vector α) : Res (vector α) :=
  if u.size = v.size then Except.ok (u.hadamard v) else Except.error Fault.dimension

end vector

namespace matrix

/-- Coefficient `(i, j)` of the column-major array (zero past the end). -/
def coeff (m : matrix α) (i j : Nat) : α := m.data.getD (i + j * m.rows) 0

/-- The matrix `matrix::Zero(r, c)`. -/
def zeros (r c : Nat) : matrix α := ⟨r, c, List.replicate (r * c) 0⟩

/-- The storage invariant of Eigen: the array has `rows * cols` coefficients. -/
def wf (m : matrix α) : Prop := m.data.length = m.rows * m.cols

instance (m : matrix α) : Decidable m.wf :=
  inferInstanceAs (Decidable (m.data.length = m.rows * m.cols))

/-- Matrix-vector product `m · v`: row `i` is `Σ_k m(i,k) · v[k]`. -/
def apply (m : matrix α) (v : vector α) : vector α :=
  ⟨(List.range m.rows).map (fun i =>
      ((List.range m.cols).map (fun k => m.coeff i k * v.coeff k)).sum)⟩

/-- The transposed matrix: coefficient `(i, j)` of the result is `m(j, i)`. -/
def transpose (m : matrix α) : matrix α :=
  ⟨m.cols, m.rows,
    (List.range m.rows).flatMap (fun j => (List.range m.cols).map (fun i => m.coeff j i))⟩

/-- Coefficient-wise sum of two matrices. -/
def plus (a b : matrix α) : matrix α :=
  ⟨a.rows, a.cols, List.zipWith (fun x y => x + y) a.data b.data⟩

/-- Coefficient-wise difference of two matrices. -/
def minus (a b : matrix α) : matrix α :=
  ⟨a.rows, a.cols, List.zipWith (fun x y => x - y) a.data b.data⟩

/-- Product with a scalar on the right, `m * s`. -/
def scale (m : matrix α) (s : α) : matrix α := ⟨m.rows, m.cols, m.data.map (fun x => x * s)⟩

/-- Quotient by a scalar, `m / s`. -/
def divide (m : matrix α) (s : α) : matrix α := ⟨m.rows, m.cols, m.data.map (fun x => x / s)⟩

/-- Eigen `m * v` for a vector `v`: asserts `m.cols() == v.rows()`. -/
def mul_vec (m : matrix α) (v : vector α) : Res (vector α) :=
  if m.cols = v.size then Except.ok (m.apply v) else Except.error Fault.dimension

/-- Eigen `a + b` and `a += b`: assert equal shapes. -/
def add (a b : matrix α) : Res (matrix α) :=
  if a.rows = b.rows ∧ a.cols = b.cols then Except.ok (a.plus b)
  else Except.error Fault.dimension

/-- Eigen `a - b` and `a -= b`: assert equal shapes. -/
def sub (a b : matrix α) : Res (matrix α) :=
  if a.rows = b.rows ∧ a.cols = b.cols then Except.ok (a.minus b)
  else Except.error Fault.dimension

end matrix

/-- Outer product `u * v.transpose()`: the `u.size × v.size` matrix with
coefficient `(i, j)` equal to `u[i] * v[j]` (the inner dimension is always 1). -/
def vector.outer (u v : vector α) : matrix α :=
  ⟨u.size, v.size, v.data.flatMap (fun y => u.data.map (fun x => x * y))⟩

/-! ## The network -/

/-- Input and corresponding correct output vector (`struct instance`). -/
structure Instance (α : Type) where
  input : vector α
  output : vector α
deriving DecidableEq, Repr

instance {α : Type} : Inhabited (Instance α) := ⟨⟨default, default⟩⟩

/-- The type `data_set`. -/
abbrev data_set (α : Type) : Type := List (Instance α)

/-- The data members of `class neural_net`. -/
structure neural_net (α : Type) where
  m_weights : List (matrix α)
  m_biases : List (vector α)
  m_topology : List Nat
deriving DecidableEq, Repr

/-- The activation `neural_net::sigmoid`. -/
def sigmoid (exp : α → α) (x : α) : α := 1 / (1 + exp (-x))

/-- The derivative `neural_net::d_sigmoid`. -/
def d_sigmoid (exp : α → α) (x : α) : α :=
  let sig_x := sigmoid exp x
  sig_x * (1 - sig_x)

/-- One iteration of the loop of `neural_net::feed_forward`. -/
def feed_forward_step (exp : α → α) (nn : neural_net α) (output : vector α) (l : Nat) :
    Res (vector α) := do
  let w ← at_index nn.m_weights l
  let wx ← w.mul_vec output
  let b ← at_index nn.m_biases l
  let z ← wx.add b
  pure (z.unaryExpr (sigmoid exp))

/-- The method `neural_net::feed_forward`. -/
def feed_forward (exp : α → α) (nn : neural_net α) (input : vector α) : Res (vector α) :=
  (List.range nn.m_weights.length).foldlM (feed_forward_step exp nn) input


/-! ### Backpropagation -/

/-- Locals of the forward loop of `get_delta_weights_and_biases`:
`outputs` (the activations `a`), `sums` (the weighted sums `z`) and `output`. -/
structure forward_state (α : Type) where
  outputs : List (vector α)
  sums : List (vector α)
  output : vector α
deriving DecidableEq, Repr

/-- One iteration of the forward loop of `get_delta_weights_and_biases`. -/
def forward_step (exp : α → α) (nn : neural_net α) (st : forward_state α) (l : Nat) :
    Res (forward_state α) := do
  let w ← at_index nn.m_weights l
  let wx ← w.mul_vec st.output
  let b ← at_index nn.m_biases l
  let z ← wx.add b
  let a := z.unaryExpr (sigmoid exp)
  pure ⟨st.outputs ++ [a], st.sums ++ [z], a⟩

/-- Locals of the backward loop of `get_delta_weights_and_biases`. -/
structure backward_state (α : Type) where
  d_weights : List (matrix α)
  d_biases : List (vector α)
  err_prev : vector α
deriving DecidableEq, Repr

/-- One iteration of the backward loop of `get_delta_weights_and_biases`
(loop variable `l`, running downwards). -/
def backward_step (exp : α → α) (nn : neural_net α) (outputs sums : List (vector α))
    (learning_rate : α) (st : backward_state α) (l : Nat) : Res (backward_state α) := do
  let w ← at_index nn.m_weights (l + 1)
  let wt_err ← w.transpose.mul_vec st.err_prev
  let z ← at_index sums l
  let error ← wt_err.cwiseProduct (z.unaryExpr (d_sigmoid exp))
  let gradient_b := error
  let a ← at_index outputs l
  let gradient_w := error.outer a
  let delta_w := gradient_w.scale learning_rate
  let delta_b := gradient_b.scale learning_rate
  pure ⟨st.d_weights ++ [delta_w], st.d_biases ++ [delta_b], error⟩

/-- The method `neural_net::get_delta_weights_and_biases`.  The backward loop
runs `l` from `index_of_last_layer - 1` down to `0`; the index
`outputs.size() - 2` is computed in `size_t`, so with fewer than two elements
it wraps around to a position past the end. -/
def get_delta_weights_and_biases (exp : α → α) (nn : neural_net α)
    (input desired_output : vector α) (learning_rate : α) :
    Res (List (matrix α) × List (vector α)) := do
  let fwd ← (List.range nn.m_weights.length).foldlM (forward_step exp nn) ⟨[input], [], input⟩
  let diff ← fwd.output.sub desired_output
  let z_last ← back fwd.sums
  let err_prev ← diff.cwiseProduct (z_last.unaryExpr (d_sigmoid exp))
  let gradient_b := err_prev
  let a_prev ←
    if 2 ≤ fwd.outputs.length then at_index fwd.outputs (fwd.outputs.length - 2)
    else Except.error Fault.index
  let gradient_w := err_prev.outer a_prev
  let delta_w := gradient_w.scale learning_rate
  let delta_b := gradient_b.scale learning_rate
  let bwd ← (List.range (nn.m_weights.length - 1)).reverse.foldlM
    (backward_step exp nn fwd.outputs fwd.sums learning_rate) ⟨[delta_w], [delta_b], err_prev⟩
  pure (bwd.d_weights.reverse, bwd.d_biases.reverse)

/-! ### Mini-batch update -/

/-- One iteration of the loop of `propagate_batch` that fills the sums with
zero matrices and vectors of the sizes of the layers. -/
def zero_sums_step (nn : neural_net α) (st : List (matrix α) × List (vector α)) (i : Nat) :
    Res (List (matrix α) × List (vector α)) := do
  let w ← at_index nn.m_weights i
  let b ← at_index nn.m_biases i
  pure (st.1 ++ [matrix.zeros w.rows w.cols], st.2 ++ [vector.zeros b.size])

/-- The value of `batch_size` after the adjustment at the head of
`propagate_batch`: `start_index + batch_size` is an `unsigned` sum, and
`training_set.size() - start_index - 1` is computed in `size_t` and stored in an
`unsigned`. -/
def clipped_batch_size (size start_index batch_size : Nat) : Nat :=
  if (start_index + batch_size) % 2 ^ 32 > size then
    ((size + 2 ^ 64 - start_index - 1) % 2 ^ 64) % 2 ^ 32
  else batch_size

/-- The values the loop variable `i` of `propagate_batch` takes, for the
adjusted `batch_size`: from `start_index` while `i < start_index + batch_size`
(an `unsigned` sum). -/
def batch_indices (start_index batch_size : Nat) : List Nat :=
  List.range' start_index ((start_index + batch_size) % 2 ^ 32 - start_index)

/-- One iteration of the inner loop of `propagate_batch`, adding the changes
of layer `l` to the sums. -/
def accumulate_step (d_wb : List (matrix α) × List (vector α))
    (st : List (matrix α) × List (vector α)) (l : Nat) :
    Res (List (matrix α) × List (vector α)) := do
  let sw ← at_index st.1 l
  let dw ← at_index d_wb.1 l
  let sw_new ← sw.add dw
  let summed_delta_weights ← set_index st.1 l sw_new
  let sb ← at_index st.2 l
  let db ← at_index d_wb.2 l
  let sb_new ← sb.add db
  let summed_delta_biases ← set_index st.2 l sb_new
  pure (summed_delta_weights, summed_delta_biases)

/-- One iteration of the loop of `propagate_batch` over the in-out pairs. -/
def instance_step (exp : α → α) (nn : neural_net α) (training_set : data_set α)
    (learning_rate : α) (st : List (matrix α) × List (vector α)) (i : Nat) :
    Res (List (matrix α) × List (vector α)) := do
  let p ← at_index training_set i
  let d_wb ← get_delta_weights_and_biases exp nn p.input p.output learning_rate
  (List.range nn.m_weights.length).foldlM (accumulate_step d_wb) st

/-- Locals and members written by the last loop of `propagate_batch`. -/
structure update_state (α : Type) where
  net : neural_net α
  summed_delta_weights : List (matrix α)
  summed_delta_biases : List (vector α)
deriving DecidableEq, Repr

/-- One iteration of the last loop of `propagate_batch`: average the summed
changes of layer `l` and apply them. -/
def update_step (batch_size : Nat) (st : update_state α) (l : Nat) : Res (update_state α) := do
  let sb ← at_index st.summed_delta_biases l
  let sb_avg := sb.divide (batch_size : α)
  let summed_delta_biases ← set_index st.summed_delta_biases l sb_avg
  let sw ← at_index st.summed_delta_weights l
  let sw_avg := sw.divide (batch_size : α)
  let summed_delta_weights ← set_index st.summed_delta_weights l sw_avg
  let b ← at_index st.net.m_biases l
  let b_new ← b.sub sb_avg
  let m_biases ← set_index st.net.m_biases l b_new
  let w ← at_index st.net.m_weights l
  let w_new ← w.sub sw_avg
  let m_weights ← set_index st.net.m_weights l w_new
  pure ⟨⟨m_weights, m_biases, st.net.m_topology⟩, summed_delta_weights, summed_delta_biases⟩

/-- The method `neural_net::propagate_batch`; the result is the network after
the call. -/
def propagate_batch (exp : α → α) (nn : neural_net α) (training_set : data_set α)
    (start_index batch_size : Nat) (learning_rate : α) : Res (neural_net α) := do
  let sums ← (List.range nn.m_weights.length).foldlM (zero_sums_step nn) ([], [])
  let batch_size := clipped_batch_size training_set.length start_index batch_size
  let sums ← (batch_indices start_index batch_size).foldlM
    (instance_step exp nn training_set learning_rate) sums
  let st ← (List.range nn.m_weights.length).foldlM (update_step batch_size) ⟨nn, sums.1, sums.2⟩
  pure st.net

/-! ### Training loop -/

/-- The inner loop of `neural_net::train` from start index `i` on, with fuel:
`none` when the fuel runs out before the loop condition fails.  The increment
`i += batch_size` is an `unsigned` sum. -/
def train_batches (exp : α → α) (training_set : data_set α) (batch_size : Nat)
    (learning_rate : α) : Nat → Nat → neural_net α → Option (Res (neural_net α))
  | 0, i, nn => if i < training_set.length then none else some (Except.ok nn)
  | fuel + 1, i, nn =>
    if i < training_set.length then
      match propagate_batch exp nn training_set i batch_size learning_rate with
      | Except.error e => some (Except.error e)
      | Except.ok nn1 =>
        train_batches exp training_set batch_size learning_rate fuel
          ((i + batch_size) % 2 ^ 32) nn1
    else some (Except.ok nn)

/-- The method `neural_net::train`: `epochs` passes of the inner loop, each
with `fuel` iterations at its disposal. -/
def train (exp : α → α) (fuel : Nat) (training_set : data_set α) (batch_size : Nat)
    (learning_rate : α) : Nat → neural_net α → Option (Res (neural_net α))
  | 0, nn => some (Except.ok nn)
  | epochs + 1, nn =>
    match train_batches exp training_set batch_size learning_rate fuel 0 nn with
    | none => none
    | some (Except.error e) => some (Except.error e)
    | some (Except.ok nn1) => train exp fuel training_set batch_size learning_rate epochs nn1

end ops

/-! ### Construction -/

/-- Eigen `vector::Random(n)`: `n` draws of the generator `g`, from position
`pos` on; also returns the position after the draws. -/
def vector.Random {α : Type} (g : Nat → α) (pos n : Nat) : vector α × Nat :=
  (⟨(List.range n).map (fun k => g (pos + k))⟩, pos + n)

/-- Eigen `matrix::Random(r, c)`: `r * c` draws of the generator `g`, from
position `pos` on; also returns the position after the draws. -/
def matrix.Random {α : Type} (g : Nat → α) (pos r c : Nat) : matrix α × Nat :=
  (⟨r, c, (List.range (r * c)).map (fun k => g (pos + k))⟩, pos + r * c)

/-- Members under construction and the position of the random generator. -/
structure ctor_state (α : Type) where
  m_weights : List (matrix α)
  m_biases : List (vector α)
  pos : Nat

/-- One iteration of the loop of the constructor `neural_net::neural_net`. -/
def ctor_step {α : Type} (g : Nat → α) (topology : List Nat) (st : ctor_state α) (l : Nat) :
    Res (ctor_state α) := do
  let n ← at_index topology l
  let b := vector.Random g st.pos n
  let m ← at_index topology (l - 1)
  let w := matrix.Random g b.2 n m
  pure ⟨st.m_weights ++ [w.1], st.m_biases ++ [b.1], w.2⟩

/-- The constructor `neural_net::neural_net(topology)`, drawing the random
coefficients from the generator `g` starting at position `pos`; `l` runs from
`1` while `l < topology.size()`. -/
def neural_net.ctor {α : Type} (g : Nat → α) (pos : Nat) (topology : List Nat) :
    Res (neural_net α) := do
  let st ← (List.range' 1 (topology.length - 1)).foldlM (ctor_step g topology) ⟨[], [], pos⟩
  pure ⟨st.m_weights, st.m_biases, topology⟩

/-- The accessor `get_topology`. -/
def neural_net.get_topology {α : Type} (nn : neural_net α) : List Nat := nn.m_topology

/-- The accessor `get_weights`. -/
def neural_net.get_weights {α : Type} (nn : neural_net α) : List (matrix α) := nn.m_weights

/-- The accessor `get_biases`. -/
def neural_net.get_biases {α : Type} (nn : neural_net α) : List (vector α) := nn.m_biases

/-! ## Scalars with NaN -/

/-- A scalar of `α` or the IEEE value NaN.  Arithmetic is that of `α` on
values, NaN is absorbing, and a quotient by zero is NaN (the quotients by zero
that the library can execute are `0 / 0`; infinities are not represented). -/
inductive flt (α : Type) where
  | val (x : α)
  | nan
deriving DecidableEq, Repr

instance {α : Type} [Add α] : Add (flt α) :=
  ⟨fun a b => match a, b with
    | flt.val x, flt.val y => flt.val (x + y)
    | _, _ => flt.nan⟩

instance {α : Type} [Sub α] : Sub (flt α) :=
  ⟨fun a b => match a, b with
    | flt.val x, flt.val y => flt.val (x - y)
    | _, _ => flt.nan⟩

instance {α : Type} [Mul α] : Mul (flt α) :=
  ⟨fun a b => match a, b with
    | flt.val x, flt.val y => flt.val (x * y)
    | _, _ => flt.nan⟩

instance {α : Type} [Div α] [Zero α] [DecidableEq α] : Div (flt α) :=
  ⟨fun a b => match a, b with
    | flt.val x, flt.val y => if y = 0 then flt.nan else flt.val (x / y)
    | _, _ => flt.nan⟩

instance {α : Type} [Neg α] : Neg (flt α) :=
  ⟨fun a => match a with
    | flt.val x => flt.val (-x)
    | flt.nan => flt.nan⟩

instance {α : Type} [Zero α] : Zero (flt α) := ⟨flt.val 0⟩

instance {α : Type} [One α] : One (flt α) := ⟨flt.val 1⟩

instance {α : Type} [NatCast α] : NatCast (flt α) := ⟨fun n => flt.val (n : α)⟩

/-! ## The specification's data model and formulas -/

section spec

variable {α : Type}

/-- The invariant of the parameter store: one weight matrix and one bias vector
per layer transition, of the shapes given by adjacent topology entries. -/
def well_shaped (nn : neural_net α) : Prop :=
  nn.m_weights.length + 1 = nn.m_topology.length ∧
  nn.m_biases.length + 1 = nn.m_topology.length ∧
  ∀ l, l < nn.m_weights.length →
    (nn.m_weights.getD l default).rows = nn.m_topology.getD (l + 1) 0 ∧
    (nn.m_weights.getD l default).cols = nn.m_topology.getD l 0 ∧
    (nn.m_weights.getD l default).data.length =
      (nn.m_weights.getD l default).rows * (nn.m_weights.getD l default).cols ∧
    (nn.m_biases.getD l default).size = nn.m_topology.getD (l + 1) 0

instance (nn : neural_net α) : Decidable (well_shaped nn) := by
  unfold well_shaped
  exact inferInstance

/-- The weight matrix `W[l]` of the specification, layers numbered from 1. -/
def spec_W (nn : neural_net α) (l : Nat) : matrix α := nn.m_weights.getD (l - 1) default

/-- The bias vector `b[l]` of the specification, layers numbered from 1. -/
def spec_b (nn : neural_net α) (l : Nat) : vector α := nn.m_biases.getD (l - 1) default

/-- The activations of the specification: `a[0] = input` and
`a[l] = sigmoid(W[l]·a[l-1] + b[l])` coefficient-wise. -/
def spec_a [Add α] [Mul α] [Div α] [Neg α] [Zero α] [One α] (exp : α → α) (nn : neural_net α)
    (input : vector α) : Nat → vector α
  | 0 => input
  | l + 1 =>
    (((spec_W nn (l + 1)).apply (spec_a exp nn input l)).plus (spec_b nn (l + 1))).unaryExpr
      (sigmoid exp)

/-- The pre-activations of the specification: `z[l] = W[l]·a[l-1] + b[l]`. -/
def spec_z [Add α] [Mul α] [Div α] [Neg α] [Zero α] [One α] (exp : α → α) (nn : neural_net α)
    (input : vector α) (l : Nat) : vector α :=
  ((spec_W nn l).apply (spec_a exp nn input (l - 1))).plus (spec_b nn l)

/-- The layer errors of the specification, counted down from the output
layer: entry `j` is `delta[L - j]` for a network of `L` weight layers, so entry
`0` is `(a[L] - desired_output) ⊙ sigmoid'(z[L])` and entry `j + 1` is
`(W[L-j]^T · delta[L-j]) ⊙ sigmoid'(z[L-j-1])`. -/
def delta_down [Add α] [Sub α] [Mul α] [Div α] [Neg α] [Zero α] [One α] (exp : α → α)
    (nn : neural_net α) (input desired_output : vector α) : Nat → vector α
  | 0 =>
    ((spec_a exp nn input nn.m_weights.length).minus desired_output).hadamard
      ((spec_z exp nn input nn.m_weights.length).unaryExpr (d_sigmoid exp))
  | j + 1 =>
    ((spec_W nn (nn.m_weights.length - j)).transpose.apply
        (delta_down exp nn input desired_output j)).hadamard
      ((spec_z exp nn input (nn.m_weights.length - j - 1)).unaryExpr (d_sigmoid exp))

/-- The layer error `delta[l]` of the specification, layers numbered from 1. -/
def spec_delta [Add α] [Sub α] [Mul α] [Div α] [Neg α] [Zero α] [One α] (exp : α → α)
    (nn : neural_net α) (input desired_output : vector α) (l : Nat) : vector α :=
  delta_down exp nn input desired_output (nn.m_weights.length - l)

/-- The scaled weight gradient of weight layer `l` (numbered from 0) for the
instance `p`, in the form the code computes it: `(delta[l+1] · a[l]^T) * lr`. -/
def spec_grad_W [Add α] [Sub α] [Mul α] [Div α] [Neg α] [Zero α] [One α] (exp : α → α)
    (nn : neural_net α) (learning_rate : α) (p : Instance α) (l : Nat) : matrix α :=
  ((spec_delta exp nn p.input p.output (l + 1)).outer (spec_a exp nn p.input l)).scale
    learning_rate

/-- The scaled bias gradient of weight layer `l` (numbered from 0) for the
instance `p`, in the form the code computes it: `delta[l+1] * lr`. -/
def spec_grad_b [Add α] [Sub α] [Mul α] [Div α] [Neg α] [Zero α] [One α] (exp : α → α)
    (nn : neural_net α) (learning_rate : α) (p : Instance α) (l : Nat) : vector α :=
  (spec_delta exp nn p.input p.output (l + 1)).scale learning_rate

/-- The instances of a data set fit the network: inputs of length
`topology[0]`, outputs of length `topology[last]`. -/
def valid_data_set (nn : neural_net α) (training_set : data_set α) : Prop :=
  ∀ p ∈ training_set, p.input.size = nn.m_topology.getD 0 0 ∧
    p.output.size = nn.m_topology.getD (nn.m_topology.length - 1) 0

instance (nn : neural_net α) (training_set : data_set α) :
    Decidable (valid_data_set nn training_set) := by
  unfold valid_data_set
  exact inferInstance

/-- The start indices of one pass over a data set of `size` instances in
batches of `batch_size ≥ 1`: `0, batch_size, 2·batch_size, ...` below `size`;
there are `⌈size / batch_size⌉` of them. -/
def batch_starts (size batch_size : Nat) : List Nat :=
  (List.range ((size + batch_size - 1) / batch_size)).map (fun m => m * batch_size)

/-- The start indices of the batches of `epochs` passes, in the order of the
calls. -/
def schedule (size batch_size epochs : Nat) : List Nat :=
  (List.replicate epochs (batch_starts size batch_size)).flatten

/-- The sum of a list of matrices of shape `r × c`, accumulated from the zero
matrix in list order. -/
def matrix.sum [Add α] [Zero α] (r c : Nat) (ms : List (matrix α)) : matrix α :=
  ms.foldl matrix.plus (matrix.zeros r c)

/-- The sum of a list of vectors of size `n`, accumulated from the zero vector
in list order. -/
def vector.sum [Add α] [Zero α] (n : Nat) (vs : List (vector α)) : vector α :=
  vs.foldl vector.plus (vector.zeros n)

/-- Product with a scalar on the left, `s · v`. -/
def vector.smul [Mul α] (s : α) (v : vector α) : vector α := ⟨v.data.map (fun x => s * x)⟩

/-- Product with a scalar on the left, `s · m`. -/
def matrix.smul [Mul α] (s : α) (m : matrix α) : matrix α :=
  ⟨m.rows, m.cols, m.data.map (fun x => s * x)⟩

end spec

/-! ## Diagnostics, the forward trace and the command `feed` -/

section more_ops

variable {α : Type} [Add α] [Sub α] [Mul α] [Div α] [Neg α] [Zero α] [One α] [NatCast α]

/-- One iteration of the loop of `neural_net::mean_squared_error`. -/
def mean_squared_error_step (exp : α → α) (nn : neural_net α) (error_sum : α)
    (in_out_pair : Instance α) : Res α := do
  let out ← feed_forward exp nn in_out_pair.input
  let error ← in_out_pair.output.sub out
  pure (error_sum + error.squaredNorm)

/-- The method `neural_net::mean_squared_error`.  The product
`test_set.size() * 2` is a `size_t`; it cannot wrap, a data set in memory having
far fewer than `2^63` instances. -/
def mean_squared_error (exp : α → α) (nn : neural_net α) (test_set : data_set α) : Res α := do
  let error_sum ← test_set.foldlM (mean_squared_error_step exp nn) 0
  pure (error_sum / ((test_set.length * 2 : Nat) : α))

/-- The forward loop of `get_delta_weights_and_biases` on its own: the locals
`outputs`, `sums` and `output` when the loop is left. -/
def forward_trace (exp : α → α) (nn : neural_net α) (input : vector α) :
    Res (forward_state α) :=
  (List.range nn.m_weights.length).foldlM (forward_step exp nn) ⟨[input], [], input⟩

/-- The part of `get_delta_weights_and_biases` after the forward loop, as a
function of the locals the loop leaves. -/
def gradients_from_trace (exp : α → α) (nn : neural_net α) (desired_output : vector α)
    (learning_rate : α) (fwd : forward_state α) : Res (List (matrix α) × List (vector α)) := do
  let diff ← fwd.output.sub desired_output
  let z_last ← back fwd.sums
  let err_prev ← diff.cwiseProduct (z_last.unaryExpr (d_sigmoid exp))
  let gradient_b := err_prev
  let a_prev ←
    if 2 ≤ fwd.outputs.length then at_index fwd.outputs (fwd.outputs.length - 2)
    else Except.error Fault.index
  let gradient_w := err_prev.outer a_prev
  let delta_w := gradient_w.scale learning_rate
  let delta_b := gradient_b.scale learning_rate
  let bwd ← (List.range (nn.m_weights.length - 1)).reverse.foldlM
    (backward_step exp nn fwd.outputs fwd.sums learning_rate) ⟨[delta_w], [delta_b], err_prev⟩
  pure (bwd.d_weights.reverse, bwd.d_biases.reverse)

/-- How the command `feed` of `main.cpp` ends once the network is deserialised
and the input vector parsed: `exit(1)` after the message about the size, or the
output vector printed. -/
inductive feed_outcome (α : Type) where
  | exit_1
  | printed (output_vector : vector α)
deriving DecidableEq, Repr

/-- The function `feed` of `main.cpp` from the size check on;
`get_topology().front()` is an access into the topology. -/
def feed (exp : α → α) (nn : neural_net α) (input_vector : vector α) : Res (feed_outcome α) := do
  let front ← at_index nn.get_topology 0
  if input_vector.size ≠ front then pure feed_outcome.exit_1
  else do
    let output_vector ← feed_forward exp nn input_vector
    pure (feed_outcome.printed output_vector)

end more_ops

/-- A vector over `flt` without NaN coefficient.  Two IEEE vectors can only
compare equal when neither holds a NaN. -/
def vector.finite {α : Type} (v : vector (flt α)) : Prop :=
  ∀ x ∈ v.data, x ≠ flt.nan

instance {α : Type} [DecidableEq α] (v : vector (flt α)) : Decidable v.finite := by
  unfold vector.finite
  exact inferInstance

/-- Running `k` on the network an earlier training run returned; an earlier
run that did not end, or ended in a fault, stays what it is. -/
def train_seq {α : Type} (r : Option (Res (neural_net α)))
    (k : neural_net α → Option (Res (neural_net α))) : Option (Res (neural_net α)) :=
  match r with
  | some (Except.ok nn) => k nn
  | some (Except.error e) => some (Except.error e)
  | none => none

/-- One epoch of `train`, on the outcome of the epochs before: the inner loop
from start index 0. -/
def train_pass {α : Type} [Add α] [Sub α] [Mul α] [Div α] [Neg α] [Zero α] [One α] [NatCast α]
    (exp : α → α) (fuel : Nat) (training_set : data_set α) (batch_size : Nat)
    (learning_rate : α) (r : Option (Res (neural_net α))) : Option (Res (neural_net α)) :=
  train_seq r (train_batches exp training_set batch_size learning_rate fuel 0)

/-- The shape invariant of the specification, for a given topology: the
network holds that topology, `len(topology) - 1` weight matrices and bias
vectors, weight matrix `l` of shape `(topology[l+1], topology[l])` and bias
vector `l` of length `topology[l+1]`. -/
def has_shape {α : Type} (nn : neural_net α) (topology : List Nat) : Prop :=
  nn.get_topology = topology ∧
  nn.get_weights.length = topology.length - 1 ∧
  nn.get_biases.length = topology.length - 1 ∧
  ∀ l, l < topology.length - 1 →
    (nn.get_weights.getD l default).rows = topology.getD (l + 1) 0 ∧
    (nn.get_weights.getD l default).cols = topology.getD l 0 ∧
    (nn.get_biases.getD l default).size = topology.getD (l + 1) 0

/-! ## Serialisation -/

section serialisation

variable {α β : Type}

/-- An item of a boost archive: an integer (`Eigen::Index`, element count,
`unsigned`) or a scalar. -/
inductive token (α : Type) where
  | int (n : Nat)
  | scalar (x : α)
deriving DecidableEq, Repr

/-- The content of a boost archive, in the order written; the header and the
class bookkeeping of boost are left out. -/
abbrev archive (α : Type) : Type := List (token α)

/-- Loading a value from the front of an archive: the value and the rest of
the archive. -/
abbrev reader (α β : Type) : Type := archive α → Res (β × archive α)

/-- The function `save` of `eigen_serialization.h` on a matrix: `rows`, `cols`,
then `coeff(i, j)` for `j` over the columns and, inside, `i` over the rows. -/
def matrix.save [Zero α] (m : matrix α) : archive α :=
  [token.int m.rows, token.int m.cols] ++
    (List.range m.cols).flatMap (fun j =>
      (List.range m.rows).map (fun i => token.scalar (m.coeff i j)))

/-- The function `save` of `eigen_serialization.h` on a column vector, for
which `rows()` is the size and `cols()` is 1. -/
def vector.save [Zero α] (v : vector α) : archive α :=
  [token.int v.size, token.int 1] ++
    (List.range 1).flatMap (fun j =>
      (List.range v.size).map (fun i => token.scalar (v.coeff (i + j * v.size))))

/-- Saving a `std::vector`: the element count, then the elements. -/
def save_collection (save : β → archive α) (xs : List β) : archive α :=
  token.int xs.length :: xs.flatMap save

/-- The archive `operator<<` of `neural_net`: biases, weights, topology. -/
def write_net [Zero α] (n : neural_net α) : archive α :=
  save_collection vector.save n.m_biases ++
    (save_collection matrix.save n.m_weights ++
      save_collection (fun k => [token.int k]) n.m_topology)

/-- Loading one integer. -/
def read_int : reader α Nat
  | token.int n :: rest => Except.ok (n, rest)
  | _ => Except.error Fault.stream

/-- Loading `make_array(data(), size())`: `n` scalars, the raw coefficient
array. -/
def read_scalars : Nat → reader α (List α)
  | 0, ar => Except.ok ([], ar)
  | n + 1, token.scalar x :: rest =>
    match read_scalars n rest with
    | Except.ok (xs, rest1) => Except.ok (x :: xs, rest1)
    | Except.error e => Except.error e
  | _ + 1, _ => Except.error Fault.stream

/-- The function `load` of `eigen_serialization.h` into a matrix: `rows`,
`cols`, a `resize(rows, cols)`, then the raw array of `rows * cols` scalars. -/
def matrix.load : reader α (matrix α) := fun ar => do
  let r ← read_int ar
  let c ← read_int r.2
  let d ← read_scalars (r.1 * c.1) c.2
  pure (⟨r.1, c.1, d.1⟩, d.2)

/-- The function `load` of `eigen_serialization.h` into a column vector:
`resize(rows, cols)` asserts `cols == 1`. -/
def vector.load : reader α (vector α) := fun ar => do
  let r ← read_int ar
  let c ← read_int r.2
  if c.1 ≠ 1 then Except.error Fault.dimension
  else do
    let d ← read_scalars (r.1 * c.1) c.2
    pure (⟨d.1⟩, d.2)

/-- Loading `count` elements of a `std::vector`. -/
def load_items (load : reader α β) : Nat → reader α (List β)
  | 0, ar => Except.ok ([], ar)
  | n + 1, ar =>
    match load ar with
    | Except.error e => Except.error e
    | Except.ok (x, rest) =>
      match load_items load n rest with
      | Except.error e => Except.error e
      | Except.ok (xs, rest1) => Except.ok (x :: xs, rest1)

/-- Loading a `std::vector`: the element count, then the elements. -/
def load_collection (load : reader α β) : reader α (List β) := fun ar => do
  let count ← read_int ar
  load_items load count.1 count.2

/-- The archive `operator>>` of `neural_net`, into the default-constructed
network of `deserialize`: biases, weights, topology. -/
def read_net : reader α (neural_net α) := fun ar => do
  let biases ← load_collection vector.load ar
  let weights ← load_collection matrix.load biases.2
  let topology ← load_collection read_int weights.2
  pure (⟨weights.1, biases.1, topology.1⟩, topology.2)

end serialisation

/-! ## Sample data -/

/-- A network of topology `[2, 1, 2]` over the rationals. -/
def sample_net : neural_net ℚ :=
  ⟨[⟨1, 2, [2, 3]⟩, ⟨2, 1, [1, -1]⟩], [⟨[0]⟩, ⟨[1, 2]⟩], [2, 1, 2]⟩

/-- A stand-in for the exponential on the rationals. -/
def sample_exp (x : ℚ) : ℚ := 1 + x * x

/-- Three instances for `sample_net`. -/
def sample_set : data_set ℚ :=
  [⟨⟨[1, 1]⟩, ⟨[0, 1]⟩⟩, ⟨⟨[1, 2]⟩, ⟨[1, 0]⟩⟩, ⟨⟨[0, 3]⟩, ⟨[1, 1]⟩⟩]

/-- A network of topology `[1, 1]` over the rationals with NaN: weight `2`,
bias `0`. -/
def sample_flt_net : neural_net (flt ℚ) :=
  ⟨[⟨1, 1, [flt.val 2]⟩], [⟨[flt.val 0]⟩], [1, 1]⟩

/-- The network of topology `[1, 1]` all of whose parameters are NaN. -/
def nan_net : neural_net (flt ℚ) :=
  ⟨[⟨1, 1, [flt.nan]⟩], [⟨[flt.nan]⟩], [1, 1]⟩

/-- Three instances for `sample_flt_net`. -/
def sample_flt_set : data_set (flt ℚ) :=
  [⟨⟨[flt.val 1]⟩, ⟨[flt.val 0]⟩⟩, ⟨⟨[flt.val 1]⟩, ⟨[flt.val 1]⟩⟩, ⟨⟨[flt.val 0]⟩, ⟨[flt.val 1]⟩⟩]

/-- Five instances for `sample_flt_net`. -/
def sample_flt_set5 : data_set (flt ℚ) :=
  [⟨⟨[flt.val 1]⟩, ⟨[flt.val 0]⟩⟩, ⟨⟨[flt.val 1]⟩, ⟨[flt.val 1]⟩⟩, ⟨⟨[flt.val 0]⟩, ⟨[flt.val 1]⟩⟩,
    ⟨⟨[flt.val 2]⟩, ⟨[flt.val 0]⟩⟩, ⟨⟨[flt.val 3]⟩, ⟨[flt.val 1]⟩⟩]

/-- A stand-in for the exponential on the rationals with NaN. -/
def sample_flt_exp (x : flt ℚ) : flt ℚ := x * x + 1

/-- The network of topology `[1, 1]` with weight `1` and bias `0`, over any
scalar type. -/
def unit_net (α : Type) [Zero α] [One α] : neural_net α :=
  ⟨[⟨1, 1, [1]⟩], [⟨[0]⟩], [1, 1]⟩

/-- A generator of rational coefficients standing in for `rand()`. -/
def sample_gen (k : Nat) : ℚ := 1 / ((k : ℚ) + 1)

/-- The data set `sample_set` with another last instance. -/
def sample_set_alt : data_set ℚ :=
  [⟨⟨[1, 1]⟩, ⟨[0, 1]⟩⟩, ⟨⟨[1, 2]⟩, ⟨[1, 0]⟩⟩, ⟨⟨[5, 7]⟩, ⟨[0, 0]⟩⟩]

/-- A data set on which `unit_net ℚ` with `sample_exp` has no error: the
input 1 gives the output 1/3. -/
def fitted_set : data_set ℚ := [⟨⟨[1]⟩, ⟨[1 / 3]⟩⟩]

/-! ## Basic facts about faults, indexing and loops -/

section basics

variable {β γ : Type}

@[simp] theorem ok_bind (x : β) (f : β → Res γ) : (Except.ok x >>= f) = f x := rfl

@[simp] theorem error_bind (e : Fault) (f : β → Res γ) :
    ((Except.error e : Res β) >>= f) = Except.error e := rfl

@[simp] theorem pure_eq_ok (x : β) : (pure x : Res β) = Except.ok x := rfl

theorem at_index_ok [Inhabited β] (xs : List β) (i : Nat) (h : i < xs.length) :
    at_index xs i = Except.ok (xs.getD i default) := by
  simp [at_index, List.getElem?_eq_getElem h, List.getD_eq_getElem _ _ h]

theorem at_index_ok_get (xs : List β) (i : Nat) (h : i < xs.length) :
    at_index xs i = Except.ok (xs.get ⟨i, h⟩) := by
  simp [at_index, List.getElem?_eq_getElem h]

theorem at_index_fault (xs : List β) (i : Nat) (h : xs.length ≤ i) :
    at_index xs i = Except.error Fault.index := by
  simp [at_index, List.getElem?_eq_none h]

theorem set_index_ok (xs : List β) (i : Nat) (x : β) (h : i < xs.length) :
    set_index xs i x = Except.ok (xs.set i x) := by
  simp [set_index, h]

/-- Loop rule: an invariant indexed by the iteration count that every
iteration re-establishes holds after the loop, and the loop does not fault. -/
theorem foldlM_invariant {σ ι : Type} (f : σ → ι → Res σ) (xs : List ι) :
    ∀ (P : Nat → σ → Prop) (s0 : σ), P 0 s0 →
      (∀ (k : Nat) (hk : k < xs.length) (s : σ), P k s →
        ∃ s1, f s (xs.get ⟨k, hk⟩) = Except.ok s1 ∧ P (k + 1) s1) →
      ∃ s, xs.foldlM f s0 = Except.ok s ∧ P xs.length s := by
  induction xs with
  | nil =>
    intro P s0 h0 _
    exact ⟨s0, rfl, h0⟩
  | cons x xs ih =>
    intro P s0 h0 hstep
    obtain ⟨s1, hs1, hP1⟩ := hstep 0 (by simp) s0 h0
    simp only [List.get_eq_getElem, List.getElem_cons_zero] at hs1
    obtain ⟨s, hs, hP⟩ := ih (fun k s => P (k + 1) s) s1 hP1 (by
      intro k hk s hPk
      have := hstep (k + 1) (by simpa using hk) s hPk
      simpa using this)
    refine ⟨s, ?_, by simpa using hP⟩
    simp [List.foldlM_cons, hs1, hs]

/-- Loop rule for `for (l = 0; l < n; l++)`. -/
theorem range_loop {σ : Type} (f : σ → Nat → Res σ) (n : Nat) (P : Nat → σ → Prop) (s0 : σ)
    (h0 : P 0 s0)
    (hstep : ∀ (k : Nat), k < n → ∀ s, P k s → ∃ s1, f s k = Except.ok s1 ∧ P (k + 1) s1) :
    ∃ s, (List.range n).foldlM f s0 = Except.ok s ∧ P n s := by
  have := foldlM_invariant f (List.range n) P s0 h0 (by
    intro k hk s hP
    have hk2 : k < n := by simpa using hk
    simpa using hstep k hk2 s hP)
  simpa using this

theorem range_map_succ (n : Nat) (g : Nat → β) :
    (List.range (n + 1)).map g = (List.range n).map g ++ [g n] := by
  simp [List.range_succ]

theorem getD_range_map [Inhabited β] (n i : Nat) (g : Nat → β) (h : i < n) :
    ((List.range n).map g).getD i default = g i := by
  rw [List.getD_eq_getElem _ _ (by simpa using h)]
  simp

end basics

/-! ## Sizes of vector and matrix expressions -/

section sizes

variable {α : Type}

@[simp] theorem vector.size_unaryExpr (v : vector α) (f : α → α) :
    (v.unaryExpr f).size = v.size := by
  simp [vector.unaryExpr, vector.size]

@[simp] theorem vector.size_plus [Add α] (u v : vector α) :
    (u.plus v).size = min u.size v.size := by
  simp [vector.plus, vector.size]

@[simp] theorem vector.size_minus [Sub α] (u v : vector α) :
    (u.minus v).size = min u.size v.size := by
  simp [vector.minus, vector.size]

@[simp] theorem vector.size_hadamard [Mul α] (u v : vector α) :
    (u.hadamard v).size = min u.size v.size := by
  simp [vector.hadamard, vector.size]

@[simp] theorem vector.size_scale [Mul α] (v : vector α) (s : α) : (v.scale s).size = v.size := by
  simp [vector.scale, vector.size]

@[simp] theorem matrix.size_apply [Add α] [Mul α] [Zero α] (m : matrix α) (v : vector α) :
    (m.apply v).size = m.rows := by
  simp [matrix.apply, vector.size]

@[simp] theorem matrix.rows_transpose [Zero α] (m : matrix α) : m.transpose.rows = m.cols := rfl

@[simp] theorem matrix.cols_transpose [Zero α] (m : matrix α) : m.transpose.cols = m.rows := rfl

theorem spec_W_rows (nn : neural_net α) (hws : well_shaped nn) (k : Nat)
    (hk : k < nn.m_weights.length) :
    (spec_W nn (k + 1)).rows = nn.m_topology.getD (k + 1) 0 :=
  (hws.2.2 k hk).1

theorem spec_W_cols (nn : neural_net α) (hws : well_shaped nn) (k : Nat)
    (hk : k < nn.m_weights.length) :
    (spec_W nn (k + 1)).cols = nn.m_topology.getD k 0 :=
  (hws.2.2 k hk).2.1

theorem spec_b_size (nn : neural_net α) (hws : well_shaped nn) (k : Nat)
    (hk : k < nn.m_weights.length) :
    (spec_b nn (k + 1)).size = nn.m_topology.getD (k + 1) 0 :=
  (hws.2.2 k hk).2.2.2

/-- The weighted sum of one layer, as both loops compute it, succeeds on an
operand of the right size and is the specification's `W·v + b`. -/
theorem layer_sum_ok [Add α] [Mul α] [Zero α] (nn : neural_net α) (hws : well_shaped nn) (k : Nat)
    (hk : k < nn.m_weights.length) (v : vector α) (hv : v.size = nn.m_topology.getD k 0) :
    at_index nn.m_weights k = Except.ok (spec_W nn (k + 1)) ∧
    (spec_W nn (k + 1)).mul_vec v = Except.ok ((spec_W nn (k + 1)).apply v) ∧
    at_index nn.m_biases k = Except.ok (spec_b nn (k + 1)) ∧
    ((spec_W nn (k + 1)).apply v).add (spec_b nn (k + 1)) =
      Except.ok (((spec_W nn (k + 1)).apply v).plus (spec_b nn (k + 1))) := by
  have hkb : k < nn.m_biases.length := by have := hws.1; have := hws.2.1; omega
  refine ⟨at_index_ok _ _ hk, ?_, at_index_ok _ _ hkb, ?_⟩
  · simp only [matrix.mul_vec, spec_W_cols nn hws k hk, hv, if_true]
  · simp only [vector.add, matrix.size_apply, spec_W_rows nn hws k hk, spec_b_size nn hws k hk,
      if_true]

end sizes

/-! ## The forward pass -/

section forward

variable {α : Type} [Add α] [Mul α] [Div α] [Neg α] [Zero α] [One α]

theorem spec_a_size (exp : α → α) (nn : neural_net α) (input : vector α)
    (hws : well_shaped nn) (hin : input.size = nn.m_topology.getD 0 0) :
    ∀ l, l ≤ nn.m_weights.length → (spec_a exp nn input l).size = nn.m_topology.getD l 0 := by
  intro l
  induction l with
  | zero => intro _; simpa only [spec_a] using hin
  | succ l _ =>
    intro hl
    simp only [spec_a, vector.size_unaryExpr, vector.size_plus, matrix.size_apply,
      spec_W_rows nn hws l hl, spec_b_size nn hws l hl, Nat.min_self]

theorem spec_z_size (exp : α → α) (nn : neural_net α) (input : vector α)
    (hws : well_shaped nn) (l : Nat) (h1 : 1 ≤ l) (hl : l ≤ nn.m_weights.length) :
    (spec_z exp nn input l).size = nn.m_topology.getD l 0 := by
  obtain ⟨k, rfl⟩ : ∃ k, l = k + 1 := ⟨l - 1, by omega⟩
  simp only [spec_z, vector.size_plus, matrix.size_apply,
    spec_W_rows nn hws k hl, spec_b_size nn hws k hl, Nat.min_self]

theorem spec_a_succ (exp : α → α) (nn : neural_net α) (input : vector α) (l : Nat) :
    spec_a exp nn input (l + 1) = (spec_z exp nn input (l + 1)).unaryExpr (sigmoid exp) := by
  simp only [spec_a, spec_z, Nat.add_sub_cancel]

theorem feed_forward_step_ok (exp : α → α) (nn : neural_net α) (hws : well_shaped nn) (k : Nat)
    (hk : k < nn.m_weights.length) (v : vector α) (hv : v.size = nn.m_topology.getD k 0) :
    feed_forward_step exp nn v k =
      Except.ok ((((spec_W nn (k + 1)).apply v).plus (spec_b nn (k + 1))).unaryExpr
        (sigmoid exp)) := by
  obtain ⟨h1, h2, h3, h4⟩ := layer_sum_ok nn hws k hk v hv
  simp [feed_forward_step, h1, h2, h3, h4]

theorem feed_forward_ok (exp : α → α) (nn : neural_net α) (input : vector α)
    (hws : well_shaped nn) (hin : input.size = nn.m_topology.getD 0 0) :
    feed_forward exp nn input = Except.ok (spec_a exp nn input nn.m_weights.length) := by
  obtain ⟨s, hs, hP⟩ := range_loop (feed_forward_step exp nn) nn.m_weights.length
    (fun k s => s = spec_a exp nn input k) input rfl (by
      intro k hk s hP
      subst hP
      refine ⟨_, feed_forward_step_ok exp nn hws k hk _
        (spec_a_size exp nn input hws hin k (Nat.le_of_lt hk)), ?_⟩
      simp [spec_a])
  rw [feed_forward, hs, hP]

/-- The forward loop of `get_delta_weights_and_biases` retains the
specification's activations and pre-activations. -/
theorem forward_loop_ok (exp : α → α) (nn : neural_net α) (input : vector α)
    (hws : well_shaped nn) (hin : input.size = nn.m_topology.getD 0 0) :
    (List.range nn.m_weights.length).foldlM (forward_step exp nn) ⟨[input], [], input⟩ =
      Except.ok ⟨(List.range (nn.m_weights.length + 1)).map (spec_a exp nn input),
        (List.range nn.m_weights.length).map (fun j => spec_z exp nn input (j + 1)),
        spec_a exp nn input nn.m_weights.length⟩ := by
  obtain ⟨s, hs, hP⟩ := range_loop (forward_step exp nn) nn.m_weights.length
    (fun k s => s = ⟨(List.range (k + 1)).map (spec_a exp nn input),
        (List.range k).map (fun j => spec_z exp nn input (j + 1)), spec_a exp nn input k⟩)
    ⟨[input], [], input⟩ rfl (by
      intro k hk s hP
      subst hP
      obtain ⟨h1, h2, h3, h4⟩ := layer_sum_ok nn hws k hk (spec_a exp nn input k)
        (spec_a_size exp nn input hws hin k (Nat.le_of_lt hk))
      refine ⟨_, by simp only [forward_step, h1, h2, h3, h4, ok_bind, pure_eq_ok]; rfl, ?_⟩
      simp only [range_map_succ _ (spec_a exp nn input),
        range_map_succ _ (fun j => spec_z exp nn input (j + 1)), spec_a_succ]
      simp [spec_z])
  rw [hs, hP]

end forward

/-! ## Backpropagation -/

section backward

variable {α : Type} [Add α] [Sub α] [Mul α] [Div α] [Neg α] [Zero α] [One α]

theorem reverse_range_map {β : Type} (n : Nat) (F : Nat → β) :
    ((List.range n).map F).reverse = (List.range n).map (fun k => F (n - 1 - k)) := by
  apply List.ext_getElem
  · simp
  · intro i h1 h2
    simp only [List.length_reverse, List.length_map, List.length_range] at h1
    simp [List.getElem_reverse]

theorem delta_down_size (exp : α → α) (nn : neural_net α) (input desired_output : vector α)
    (hws : well_shaped nn) (hL : 1 ≤ nn.m_weights.length)
    (hin : input.size = nn.m_topology.getD 0 0)
    (hout : desired_output.size = nn.m_topology.getD nn.m_weights.length 0) :
    ∀ j, j + 1 ≤ nn.m_weights.length →
      (delta_down exp nn input desired_output j).size =
        nn.m_topology.getD (nn.m_weights.length - j) 0 := by
  intro j
  induction j with
  | zero =>
    intro _
    simp only [delta_down, vector.size_hadamard, vector.size_minus, vector.size_unaryExpr,
      spec_a_size exp nn input hws hin _ (Nat.le_refl _), hout,
      spec_z_size exp nn input hws _ hL (Nat.le_refl _), Nat.min_self, Nat.sub_zero]
  | succ j _ =>
    intro hj
    obtain ⟨k, hk⟩ : ∃ k, nn.m_weights.length - j = k + 1 + 1 := ⟨nn.m_weights.length - j - 2, by omega⟩
    have hk1 : nn.m_weights.length - j - 1 = k + 1 := by omega
    have hk2 : nn.m_weights.length - (j + 1) = k + 1 := by omega
    simp only [delta_down, vector.size_hadamard, vector.size_unaryExpr, matrix.size_apply,
      matrix.rows_transpose, hk, hk2, Nat.add_sub_cancel, spec_W_cols nn hws (k + 1) (by omega),
      spec_z_size exp nn input hws (k + 1) (by omega) (by omega), Nat.min_self]

/-- One iteration of the backward loop, started from the error of the layer
above, produces the scaled gradients and the error of layer `l + 1`. -/
theorem backward_step_ok (exp : α → α) (nn : neural_net α) (input desired_output : vector α)
    (learning_rate : α) (hws : well_shaped nn) (hL : 1 ≤ nn.m_weights.length)
    (hin : input.size = nn.m_topology.getD 0 0)
    (hout : desired_output.size = nn.m_topology.getD nn.m_weights.length 0)
    (k : Nat) (hk : k + 1 < nn.m_weights.length) (dws : List (matrix α)) (dbs : List (vector α)) :
    backward_step exp nn
        ((List.range (nn.m_weights.length + 1)).map (spec_a exp nn input))
        ((List.range nn.m_weights.length).map (fun j => spec_z exp nn input (j + 1)))
        learning_rate ⟨dws, dbs, delta_down exp nn input desired_output k⟩
        (nn.m_weights.length - 2 - k) =
      Except.ok ⟨dws ++ [((delta_down exp nn input desired_output (k + 1)).outer
            (spec_a exp nn input (nn.m_weights.length - 2 - k))).scale learning_rate],
        dbs ++ [(delta_down exp nn input desired_output (k + 1)).scale learning_rate],
        delta_down exp nn input desired_output (k + 1)⟩ := by
  obtain ⟨l, hl⟩ : ∃ l, nn.m_weights.length - 2 - k = l := ⟨_, rfl⟩
  have e1 : nn.m_weights.length - k = l + 1 + 1 := by omega
  have e2 : nn.m_weights.length - k - 1 = l + 1 := by omega
  have hsz := delta_down_size exp nn input desired_output hws hL hin hout k (by omega)
  have hw : at_index nn.m_weights (l + 1) = Except.ok (spec_W nn (l + 1 + 1)) :=
    at_index_ok _ _ (by omega)
  have hz : at_index ((List.range nn.m_weights.length).map
      (fun j => spec_z exp nn input (j + 1))) l = Except.ok (spec_z exp nn input (l + 1)) := by
    rw [at_index_ok _ _ (by simp; omega), getD_range_map _ _ _ (by omega)]
  have ha : at_index ((List.range (nn.m_weights.length + 1)).map (spec_a exp nn input)) l =
      Except.ok (spec_a exp nn input l) := by
    rw [at_index_ok _ _ (by simp; omega), getD_range_map _ _ _ (by omega)]
  have hmul : (spec_W nn (l + 1 + 1)).transpose.mul_vec
      (delta_down exp nn input desired_output k) =
      Except.ok ((spec_W nn (l + 1 + 1)).transpose.apply
        (delta_down exp nn input desired_output k)) := by
    simp only [matrix.mul_vec, matrix.cols_transpose, hsz, e1,
      spec_W_rows nn hws (l + 1) (by omega), if_true]
  have hcw : ((spec_W nn (l + 1 + 1)).transpose.apply
        (delta_down exp nn input desired_output k)).cwiseProduct
        ((spec_z exp nn input (l + 1)).unaryExpr (d_sigmoid exp)) =
      Except.ok (((spec_W nn (l + 1 + 1)).transpose.apply
        (delta_down exp nn input desired_output k)).hadamard
        ((spec_z exp nn input (l + 1)).unaryExpr (d_sigmoid exp))) := by
    simp only [vector.cwiseProduct, matrix.size_apply, matrix.rows_transpose,
      vector.size_unaryExpr, spec_W_cols nn hws (l + 1) (by omega),
      spec_z_size exp nn input hws (l + 1) (by omega) (by omega), if_true]
  rw [hl]
  simp only [backward_step, hw, hmul, hz, hcw, ha, ok_bind, pure_eq_ok, delta_down, e1,
    Nat.add_sub_cancel]

/-- The backward loop of `get_delta_weights_and_biases`, started after the
output layer has been handled. -/
theorem backward_loop_ok (exp : α → α) (nn : neural_net α) (input desired_output : vector α)
    (learning_rate : α) (hws : well_shaped nn) (hL : 1 ≤ nn.m_weights.length)
    (hin : input.size = nn.m_topology.getD 0 0)
    (hout : desired_output.size = nn.m_topology.getD nn.m_weights.length 0) :
    (List.range (nn.m_weights.length - 1)).reverse.foldlM
        (backward_step exp nn
          ((List.range (nn.m_weights.length + 1)).map (spec_a exp nn input))
          ((List.range nn.m_weights.length).map (fun j => spec_z exp nn input (j + 1)))
          learning_rate)
        ⟨[((delta_down exp nn input desired_output 0).outer
            (spec_a exp nn input (nn.m_weights.length - 1))).scale learning_rate],
          [(delta_down exp nn input desired_output 0).scale learning_rate],
          delta_down exp nn input desired_output 0⟩ =
      Except.ok ⟨(List.range nn.m_weights.length).map (fun j =>
            ((delta_down exp nn input desired_output j).outer
              (spec_a exp nn input (nn.m_weights.length - 1 - j))).scale learning_rate),
          (List.range nn.m_weights.length).map (fun j =>
            (delta_down exp nn input desired_output j).scale learning_rate),
          delta_down exp nn input desired_output (nn.m_weights.length - 1)⟩ := by
  obtain ⟨s, hs, hP⟩ := foldlM_invariant
    (backward_step exp nn
      ((List.range (nn.m_weights.length + 1)).map (spec_a exp nn input))
      ((List.range nn.m_weights.length).map (fun j => spec_z exp nn input (j + 1)))
      learning_rate)
    (List.range (nn.m_weights.length - 1)).reverse
    (fun k s => s = ⟨(List.range (k + 1)).map (fun j =>
            ((delta_down exp nn input desired_output j).outer
              (spec_a exp nn input (nn.m_weights.length - 1 - j))).scale learning_rate),
          (List.range (k + 1)).map (fun j =>
            (delta_down exp nn input desired_output j).scale learning_rate),
          delta_down exp nn input desired_output k⟩)
    ⟨[((delta_down exp nn input desired_output 0).outer
        (spec_a exp nn input (nn.m_weights.length - 1))).scale learning_rate],
      [(delta_down exp nn input desired_output 0).scale learning_rate],
      delta_down exp nn input desired_output 0⟩ rfl (by
      intro k hk s hP
      subst hP
      have hk1 : k + 1 < nn.m_weights.length := by
        simp only [List.length_reverse, List.length_range] at hk
        omega
      have hget : (List.range (nn.m_weights.length - 1)).reverse.get ⟨k, hk⟩ =
          nn.m_weights.length - 2 - k := by
        simp only [List.get_eq_getElem, List.getElem_reverse, List.getElem_range,
          List.length_range]
        omega
      rw [hget]
      refine ⟨_, backward_step_ok exp nn input desired_output learning_rate hws hL hin hout
        k hk1 _ _, ?_⟩
      have e : nn.m_weights.length - 2 - k = nn.m_weights.length - 1 - (k + 1) := by omega
      beta_reduce
      rw [range_map_succ (k + 1), range_map_succ (k + 1), e])
  rw [hs, hP]
  have e : (List.range (nn.m_weights.length - 1)).reverse.length + 1 = nn.m_weights.length := by
    simp only [List.length_reverse, List.length_range]
    omega
  have e2 : (List.range (nn.m_weights.length - 1)).reverse.length = nn.m_weights.length - 1 := by
    simp only [List.length_reverse, List.length_range]
  rw [e, e2]

/-- The function `get_delta_weights_and_biases` on a well-shaped network: it
does not fault, and returns the scaled gradients of the specification, first
layer first. -/
theorem get_delta_ok (exp : α → α) (nn : neural_net α) (input desired_output : vector α)
    (learning_rate : α) (hws : well_shaped nn) (hL : 1 ≤ nn.m_weights.length)
    (hin : input.size = nn.m_topology.getD 0 0)
    (hout : desired_output.size = nn.m_topology.getD nn.m_weights.length 0) :
    get_delta_weights_and_biases exp nn input desired_output learning_rate =
      Except.ok
        ((List.range nn.m_weights.length).map (fun k =>
            ((spec_delta exp nn input desired_output (k + 1)).outer
              (spec_a exp nn input k)).scale learning_rate),
          (List.range nn.m_weights.length).map (fun k =>
            (spec_delta exp nn input desired_output (k + 1)).scale learning_rate)) := by
  have hsub : (spec_a exp nn input nn.m_weights.length).sub desired_output =
      Except.ok ((spec_a exp nn input nn.m_weights.length).minus desired_output) := by
    simp only [vector.sub, spec_a_size exp nn input hws hin _ (Nat.le_refl _), hout, if_true]
  have hback : back ((List.range nn.m_weights.length).map
      (fun j => spec_z exp nn input (j + 1))) =
      Except.ok (spec_z exp nn input nn.m_weights.length) := by
    obtain ⟨n, hn⟩ : ∃ n, nn.m_weights.length = n + 1 := ⟨nn.m_weights.length - 1, by omega⟩
    rw [hn, range_map_succ]
    simp [back]
  have hcw : ((spec_a exp nn input nn.m_weights.length).minus desired_output).cwiseProduct
      ((spec_z exp nn input nn.m_weights.length).unaryExpr (d_sigmoid exp)) =
      Except.ok (delta_down exp nn input desired_output 0) := by
    simp only [vector.cwiseProduct, vector.size_minus, vector.size_unaryExpr,
      spec_a_size exp nn input hws hin _ (Nat.le_refl _), hout,
      spec_z_size exp nn input hws _ hL (Nat.le_refl _), Nat.min_self, if_true, delta_down]
  have hlen : 2 ≤ ((List.range (nn.m_weights.length + 1)).map (spec_a exp nn input)).length := by
    simp only [List.length_map, List.length_range]
    omega
  have hprev : at_index ((List.range (nn.m_weights.length + 1)).map (spec_a exp nn input))
      (((List.range (nn.m_weights.length + 1)).map (spec_a exp nn input)).length - 2) =
      Except.ok (spec_a exp nn input (nn.m_weights.length - 1)) := by
    have e : ((List.range (nn.m_weights.length + 1)).map (spec_a exp nn input)).length - 2 =
        nn.m_weights.length - 1 := by
      simp only [List.length_map, List.length_range]
      omega
    rw [e, at_index_ok _ _ (by simp only [List.length_map, List.length_range]; omega),
      getD_range_map _ _ _ (by omega)]
  simp only [get_delta_weights_and_biases, forward_loop_ok exp nn input hws hin, ok_bind, hsub,
    hback, hcw, hlen, if_true, hprev,
    backward_loop_ok exp nn input desired_output learning_rate hws hL hin hout, pure_eq_ok,
    reverse_range_map]
  refine congrArg Except.ok (Prod.ext ?_ ?_)
  · apply List.map_congr_left
    intro k hk
    have hk1 : k < nn.m_weights.length := by simpa using hk
    have e1 : nn.m_weights.length - 1 - k = nn.m_weights.length - (k + 1) := by omega
    have e2 : nn.m_weights.length - 1 - (nn.m_weights.length - (k + 1)) = k := by omega
    simp only [spec_delta, e1, e2]
  · apply List.map_congr_left
    intro k hk
    have e1 : nn.m_weights.length - 1 - k = nn.m_weights.length - (k + 1) := by omega
    simp only [spec_delta, e1]

end backward

/-! ## Claims on the forward pass and on backpropagation -/

section claims_gradient

theorem matrix_scale_eq_smul {α : Type} [Field α] (m : matrix α) (s : α) :
    m.scale s = matrix.smul s m := by
  simp only [matrix.scale, matrix.smul, mul_comm]

theorem vector_scale_eq_smul {α : Type} [Field α] (v : vector α) (s : α) :
    v.scale s = vector.smul s v := by
  simp only [vector.scale, vector.smul, mul_comm]

/-- C1: on a well-shaped network with at least one weight layer, an input of
length `topology[0]` and a desired output of length `topology[last]`,
`get_delta_weights_and_biases` returns one pair per weight layer, first hidden
layer first, the pair of layer `l` being `(lr · delta[l] · a[l-1]^T, lr · delta[l])`
where `delta[last] = (a[last] - desired_output) ⊙ sigmoid'(z[last])` and
`delta[l] = (W[l+1]^T · delta[l+1]) ⊙ sigmoid'(z[l])` below; `z` and `a` are the
pre-activations and activations of the forward pass. -/
theorem get_delta_weights_and_biases_spec {α : Type} [Field α] (exp : α → α)
    (nn : neural_net α) (input desired_output : vector α) (learning_rate : α)
    (hws : well_shaped nn) (hL : 1 ≤ nn.m_weights.length)
    (hin : input.size = nn.m_topology.getD 0 0)
    (hout : desired_output.size = nn.m_topology.getD (nn.m_topology.length - 1) 0) :
    ∃ delta : Nat → vector α,
      delta nn.m_weights.length =
        ((spec_a exp nn input nn.m_weights.length).minus desired_output).hadamard
          ((spec_z exp nn input nn.m_weights.length).unaryExpr (d_sigmoid exp)) ∧
      (∀ l, 1 ≤ l → l < nn.m_weights.length →
        delta l = ((spec_W nn (l + 1)).transpose.apply (delta (l + 1))).hadamard
          ((spec_z exp nn input l).unaryExpr (d_sigmoid exp))) ∧
      get_delta_weights_and_biases exp nn input desired_output learning_rate =
        Except.ok
          ((List.range nn.m_weights.length).map (fun k =>
              matrix.smul learning_rate ((delta (k + 1)).outer (spec_a exp nn input k))),
            (List.range nn.m_weights.length).map (fun k =>
              vector.smul learning_rate (delta (k + 1)))) := by
  have hlast : nn.m_topology.length - 1 = nn.m_weights.length := by
    have := hws.1
    omega
  rw [hlast] at hout
  refine ⟨spec_delta exp nn input desired_output, ?_, ?_, ?_⟩
  · simp only [spec_delta, Nat.sub_self, delta_down]
  · intro l h1 hl
    obtain ⟨j, hj⟩ : ∃ j, nn.m_weights.length - l = j + 1 :=
      ⟨nn.m_weights.length - l - 1, by omega⟩
    have e1 : nn.m_weights.length - (l + 1) = j := by omega
    have e2 : nn.m_weights.length - j = l + 1 := by omega
    simp only [spec_delta, hj, e1, delta_down, e2, Nat.add_sub_cancel]
  · rw [get_delta_ok exp nn input desired_output learning_rate hws hL hin hout]
    simp only [matrix_scale_eq_smul, vector_scale_eq_smul]

/-- Witness of C1 on `sample_net`. -/
theorem get_delta_weights_and_biases_spec_witness :
    well_shaped sample_net ∧
    ∃ delta : Nat → vector ℚ,
      delta sample_net.m_weights.length =
        ((spec_a sample_exp sample_net ⟨[1, 1]⟩ sample_net.m_weights.length).minus
            ⟨[0, 1]⟩).hadamard
          ((spec_z sample_exp sample_net ⟨[1, 1]⟩ sample_net.m_weights.length).unaryExpr
            (d_sigmoid sample_exp)) ∧
      (∀ l, 1 ≤ l → l < sample_net.m_weights.length →
        delta l = ((spec_W sample_net (l + 1)).transpose.apply (delta (l + 1))).hadamard
          ((spec_z sample_exp sample_net ⟨[1, 1]⟩ l).unaryExpr (d_sigmoid sample_exp))) ∧
      get_delta_weights_and_biases sample_exp sample_net ⟨[1, 1]⟩ ⟨[0, 1]⟩ 2 =
        Except.ok
          ((List.range sample_net.m_weights.length).map (fun k =>
              matrix.smul 2 ((delta (k + 1)).outer (spec_a sample_exp sample_net ⟨[1, 1]⟩ k))),
            (List.range sample_net.m_weights.length).map (fun k =>
              vector.smul 2 (delta (k + 1)))) :=
  ⟨by decide,
    get_delta_weights_and_biases_spec sample_exp sample_net ⟨[1, 1]⟩ ⟨[0, 1]⟩ 2
      (by decide) (by decide) (by decide) (by decide)⟩

/-- C2: on a well-shaped network and an input of length `topology[0]`,
`feed_forward` returns `a[last]`, where `a[0] = input` and, layer by layer,
`a[l] = sigmoid(W[l]·a[l-1] + b[l])` coefficient-wise with
`sigmoid(x) = 1 / (1 + e^(-x))`. -/
theorem feed_forward_spec {α : Type} [Add α] [Mul α] [Div α] [Neg α] [Zero α] [One α]
    (exp : α → α) (nn : neural_net α) (input : vector α)
    (hws : well_shaped nn) (hin : input.size = nn.m_topology.getD 0 0) :
    ∃ a : Nat → vector α,
      a 0 = input ∧
      (∀ l, 1 ≤ l → l ≤ nn.m_weights.length →
        a l = (((spec_W nn l).apply (a (l - 1))).plus (spec_b nn l)).unaryExpr
          (fun x => 1 / (1 + exp (-x)))) ∧
      feed_forward exp nn input = Except.ok (a nn.m_weights.length) := by
  refine ⟨spec_a exp nn input, rfl, ?_, feed_forward_ok exp nn input hws hin⟩
  intro l h1 _
  obtain ⟨k, rfl⟩ : ∃ k, l = k + 1 := ⟨l - 1, by omega⟩
  rfl

/-- Witness of C2 on `sample_net`. -/
theorem feed_forward_spec_witness :
    well_shaped sample_net ∧
    ∃ a : Nat → vector ℚ,
      a 0 = ⟨[1, 1]⟩ ∧
      (∀ l, 1 ≤ l → l ≤ sample_net.m_weights.length →
        a l = (((spec_W sample_net l).apply (a (l - 1))).plus (spec_b sample_net l)).unaryExpr
          (fun x => 1 / (1 + sample_exp (-x)))) ∧
      feed_forward sample_exp sample_net ⟨[1, 1]⟩ = Except.ok (a sample_net.m_weights.length) :=
  ⟨by decide, feed_forward_spec sample_exp sample_net ⟨[1, 1]⟩ (by decide) (by decide)⟩

end claims_gradient

/-! ## The mini-batch update -/

section batch

variable {α : Type}

theorem set_range_map {β : Type} (n m : Nat) (F : Nat → β) (x : β) :
    ((List.range n).map F).set m x = (List.range n).map (fun l => if l = m then x else F l) := by
  apply List.ext_getElem
  · simp
  · intro i h1 h2
    simp only [List.length_set, List.length_map, List.length_range] at h1
    simp only [List.getElem_set, List.getElem_map, List.getElem_range]
    by_cases h : m = i
    · simp [h]
    · have h3 : ¬ i = m := fun e => h e.symm
      simp [h, h3]

theorem range_map_getD {β : Type} [Inhabited β] (xs : List β) :
    (List.range xs.length).map (fun l => xs.getD l default) = xs := by
  apply List.ext_getElem
  · simp
  · intro i h1 h2
    simp only [List.getElem_map, List.getElem_range]
    exact List.getD_eq_getElem _ _ h2

theorem range_map_getD_of_length {β : Type} [Inhabited β] (xs : List β) (n : Nat)
    (h : xs.length = n) : (List.range n).map (fun l => xs.getD l default) = xs := by
  subst h
  exact range_map_getD xs

theorem at_index_range_map {β : Type} (n i : Nat) (F : Nat → β) (h : i < n) :
    at_index ((List.range n).map F) i = Except.ok (F i) := by
  rw [at_index_ok_get _ _ (by simpa using h)]
  simp

theorem set_index_range_map {β : Type} (n m : Nat) (F : Nat → β) (x : β) (h : m < n) :
    set_index ((List.range n).map F) m x =
      Except.ok ((List.range n).map (fun l => if l = m then x else F l)) := by
  rw [set_index_ok _ _ _ (by simpa using h), set_range_map]

theorem range_map_congr {β : Type} (n : Nat) (F G : Nat → β) (h : ∀ l, l < n → F l = G l) :
    (List.range n).map F = (List.range n).map G := by
  apply List.map_congr_left
  intro l hl
  exact h l (by simpa using hl)

/-- The first loop of `propagate_batch` builds zero sums of the shapes of the
layers. -/
theorem zero_sums_ok [Zero α] (nn : neural_net α) (hb : nn.m_biases.length = nn.m_weights.length) :
    (List.range nn.m_weights.length).foldlM (zero_sums_step nn) ([], []) =
      Except.ok
        ((List.range nn.m_weights.length).map (fun l =>
            matrix.zeros (nn.m_weights.getD l default).rows (nn.m_weights.getD l default).cols),
          (List.range nn.m_weights.length).map (fun l =>
            vector.zeros (nn.m_biases.getD l default).size)) := by
  obtain ⟨s, hs, hP⟩ := range_loop (zero_sums_step nn) nn.m_weights.length
    (fun k s => s = ((List.range k).map (fun l =>
            matrix.zeros (nn.m_weights.getD l default).rows (nn.m_weights.getD l default).cols),
          (List.range k).map (fun l => vector.zeros (nn.m_biases.getD l default).size)))
    ([], []) rfl (by
      intro k hk s hP
      subst hP
      refine ⟨_, by
        simp only [zero_sums_step, at_index_ok _ _ hk, at_index_ok _ _ (hb ▸ hk), ok_bind,
          pure_eq_ok]; rfl, ?_⟩
      beta_reduce
      rw [range_map_succ k, range_map_succ k])
  rw [hs, hP]

/-- The inner loop of `propagate_batch` adds the changes of every layer to the
sums. -/
theorem accumulate_ok [Add α] (n : Nat) (SW GW : Nat → matrix α) (SB GB : Nat → vector α)
    (hW : ∀ l, l < n → (SW l).rows = (GW l).rows ∧ (SW l).cols = (GW l).cols)
    (hB : ∀ l, l < n → (SB l).size = (GB l).size) :
    (List.range n).foldlM (accumulate_step ((List.range n).map GW, (List.range n).map GB))
        ((List.range n).map SW, (List.range n).map SB) =
      Except.ok ((List.range n).map (fun l => (SW l).plus (GW l)),
        (List.range n).map (fun l => (SB l).plus (GB l))) := by
  obtain ⟨s, hs, hP⟩ := range_loop
    (accumulate_step ((List.range n).map GW, (List.range n).map GB)) n
    (fun m s => s = ((List.range n).map (fun l => if l < m then (SW l).plus (GW l) else SW l),
        (List.range n).map (fun l => if l < m then (SB l).plus (GB l) else SB l)))
    ((List.range n).map SW, (List.range n).map SB) (by simp) (by
      intro m hm s hP
      subst hP
      have hadd : (SW m).add (GW m) = Except.ok ((SW m).plus (GW m)) := by
        simp only [matrix.add, hW m hm, and_self, if_true]
      have haddb : (SB m).add (GB m) = Except.ok ((SB m).plus (GB m)) := by
        simp only [vector.add, hB m hm, if_true]
      refine ⟨_, by
        simp only [accumulate_step, at_index_range_map _ _ _ hm, Nat.lt_irrefl, if_false,
          ok_bind, hadd, haddb, set_index_range_map _ _ _ _ hm, pure_eq_ok]; rfl, ?_⟩
      beta_reduce
      refine Prod.ext ?_ ?_
      · apply range_map_congr
        intro l _
        by_cases h1 : l = m
        · simp [h1]
        · by_cases h2 : l < m
          · simp [h1, h2, Nat.lt_succ_of_lt h2]
          · have h3 : ¬ l < m + 1 := by omega
            simp [h1, h2, h3]
      · apply range_map_congr
        intro l _
        by_cases h1 : l = m
        · simp [h1]
        · by_cases h2 : l < m
          · simp [h1, h2, Nat.lt_succ_of_lt h2]
          · have h3 : ¬ l < m + 1 := by omega
            simp [h1, h2, h3])
  rw [hs, hP]
  refine congrArg Except.ok (Prod.ext ?_ ?_)
  · apply range_map_congr
    intro l hl
    simp [hl]
  · apply range_map_congr
    intro l hl
    simp [hl]

/-- The last loop of `propagate_batch` averages the sums and subtracts them
from the parameters. -/
theorem update_ok [Sub α] [Div α] [NatCast α] (n batch_size : Nat) (topology : List Nat)
    (Wf SWf : Nat → matrix α) (Bf SBf : Nat → vector α)
    (hW : ∀ l, l < n → (Wf l).rows = (SWf l).rows ∧ (Wf l).cols = (SWf l).cols)
    (hB : ∀ l, l < n → (Bf l).size = (SBf l).size) :
    (List.range n).foldlM (update_step batch_size)
        ⟨⟨(List.range n).map Wf, (List.range n).map Bf, topology⟩,
          (List.range n).map SWf, (List.range n).map SBf⟩ =
      Except.ok
        ⟨⟨(List.range n).map (fun l => (Wf l).minus ((SWf l).divide (batch_size : α))),
            (List.range n).map (fun l => (Bf l).minus ((SBf l).divide (batch_size : α))),
            topology⟩,
          (List.range n).map (fun l => (SWf l).divide (batch_size : α)),
          (List.range n).map (fun l => (SBf l).divide (batch_size : α))⟩ := by
  obtain ⟨s, hs, hP⟩ := range_loop (update_step (α := α) batch_size) n
    (fun m s => s =
      ⟨⟨(List.range n).map (fun l =>
            if l < m then (Wf l).minus ((SWf l).divide (batch_size : α)) else Wf l),
          (List.range n).map (fun l =>
            if l < m then (Bf l).minus ((SBf l).divide (batch_size : α)) else Bf l),
          topology⟩,
        (List.range n).map (fun l => if l < m then (SWf l).divide (batch_size : α) else SWf l),
        (List.range n).map (fun l => if l < m then (SBf l).divide (batch_size : α) else SBf l)⟩)
    ⟨⟨(List.range n).map Wf, (List.range n).map Bf, topology⟩,
      (List.range n).map SWf, (List.range n).map SBf⟩ (by simp) (by
      intro m hm s hP
      subst hP
      have hsub : (Wf m).sub ((SWf m).divide (batch_size : α)) =
          Except.ok ((Wf m).minus ((SWf m).divide (batch_size : α))) := by
        simp only [matrix.sub, matrix.divide, hW m hm, and_self, if_true]
      have hsubb : (Bf m).sub ((SBf m).divide (batch_size : α)) =
          Except.ok ((Bf m).minus ((SBf m).divide (batch_size : α))) := by
        simp only [vector.sub, vector.divide, vector.size, List.length_map]
        have := hB m hm
        simp only [vector.size] at this
        simp only [this, if_true]
      have hstep : ∀ {β : Type} (F G : Nat → β),
          (List.range n).map (fun l => if l = m then G m else if l < m then G l else F l) =
          (List.range n).map (fun l => if l < m + 1 then G l else F l) := by
        intro β F G
        apply range_map_congr
        intro l _
        by_cases h1 : l = m
        · simp [h1]
        · by_cases h2 : l < m
          · simp [h1, h2, Nat.lt_succ_of_lt h2]
          · have h3 : ¬ l < m + 1 := by omega
            simp [h1, h2, h3]
      refine ⟨_, by
        simp only [update_step, at_index_range_map _ _ _ hm, Nat.lt_irrefl, if_false,
          ok_bind, hsub, hsubb, set_index_range_map _ _ _ _ hm, pure_eq_ok]; rfl, ?_⟩
      beta_reduce
      rw [← hstep Wf (fun l => (Wf l).minus ((SWf l).divide (batch_size : α))),
        ← hstep Bf (fun l => (Bf l).minus ((SBf l).divide (batch_size : α))),
        ← hstep SWf (fun l => (SWf l).divide (batch_size : α)),
        ← hstep SBf (fun l => (SBf l).divide (batch_size : α))])
  rw [hs, hP]
  have hfin : ∀ {β : Type} (F G : Nat → β),
      (List.range n).map (fun l => if l < n then G l else F l) = (List.range n).map G := by
    intro β F G
    apply range_map_congr
    intro l hl
    simp [hl]
  rw [hfin, hfin, hfin, hfin]

@[simp] theorem matrix.sum_rows [Add α] [Zero α] (r c : Nat) (ms : List (matrix α)) :
    (matrix.sum r c ms).rows = r := by
  have h : ∀ (ms : List (matrix α)) (z : matrix α), (ms.foldl matrix.plus z).rows = z.rows := by
    intro ms
    induction ms with
    | nil => intro z; rfl
    | cons m ms ih => intro z; rw [List.foldl_cons, ih]; rfl
  exact h ms _

@[simp] theorem matrix.sum_cols [Add α] [Zero α] (r c : Nat) (ms : List (matrix α)) :
    (matrix.sum r c ms).cols = c := by
  have h : ∀ (ms : List (matrix α)) (z : matrix α), (ms.foldl matrix.plus z).cols = z.cols := by
    intro ms
    induction ms with
    | nil => intro z; rfl
    | cons m ms ih => intro z; rw [List.foldl_cons, ih]; rfl
  exact h ms _

theorem matrix_sum_concat [Add α] [Zero α] (r c : Nat) (ms : List (matrix α)) (m : matrix α) :
    matrix.sum r c (ms ++ [m]) = (matrix.sum r c ms).plus m := by
  simp only [matrix.sum, List.foldl_append, List.foldl_cons, List.foldl_nil]

theorem vector_sum_concat [Add α] [Zero α] (n : Nat) (vs : List (vector α)) (v : vector α) :
    vector.sum n (vs ++ [v]) = (vector.sum n vs).plus v := by
  simp only [vector.sum, List.foldl_append, List.foldl_cons, List.foldl_nil]

theorem vector.sum_size [Add α] [Zero α] (n : Nat) (vs : List (vector α))
    (h : ∀ v ∈ vs, v.size = n) : (vector.sum n vs).size = n := by
  have key : ∀ (vs : List (vector α)) (z : vector α), z.size = n → (∀ v ∈ vs, v.size = n) →
      (vs.foldl vector.plus z).size = n := by
    intro vs
    induction vs with
    | nil => intro z hz _; exact hz
    | cons v vs ih =>
      intro z hz hv
      rw [List.foldl_cons]
      apply ih
      · rw [vector.size_plus, hz, hv v (List.mem_cons_self _ _), Nat.min_self]
      · intro w hw
        exact hv w (List.mem_cons_of_mem _ hw)
  exact key vs _ (by simp [vector.zeros, vector.size]) h

end batch

section batch_gradients

variable {α : Type} [Add α] [Sub α] [Mul α] [Div α] [Neg α] [Zero α] [One α]

theorem get_delta_eq_grads (exp : α → α) (nn : neural_net α) (p : Instance α)
    (learning_rate : α) (hws : well_shaped nn) (hL : 1 ≤ nn.m_weights.length)
    (hin : p.input.size = nn.m_topology.getD 0 0)
    (hout : p.output.size = nn.m_topology.getD (nn.m_topology.length - 1) 0) :
    get_delta_weights_and_biases exp nn p.input p.output learning_rate =
      Except.ok ((List.range nn.m_weights.length).map (spec_grad_W exp nn learning_rate p),
        (List.range nn.m_weights.length).map (spec_grad_b exp nn learning_rate p)) := by
  have hlast : nn.m_topology.length - 1 = nn.m_weights.length := by
    have := hws.1
    omega
  rw [hlast] at hout
  rw [get_delta_ok exp nn p.input p.output learning_rate hws hL hin hout]
  rfl

theorem spec_delta_size (exp : α → α) (nn : neural_net α) (p : Instance α)
    (hws : well_shaped nn) (hL : 1 ≤ nn.m_weights.length)
    (hin : p.input.size = nn.m_topology.getD 0 0)
    (hout : p.output.size = nn.m_topology.getD (nn.m_topology.length - 1) 0)
    (l : Nat) (hl : l < nn.m_weights.length) :
    (spec_delta exp nn p.input p.output (l + 1)).size = nn.m_topology.getD (l + 1) 0 := by
  have hlast : nn.m_topology.length - 1 = nn.m_weights.length := by
    have := hws.1
    omega
  rw [hlast] at hout
  have h := delta_down_size exp nn p.input p.output hws hL hin hout
    (nn.m_weights.length - (l + 1)) (by omega)
  have e : nn.m_weights.length - (nn.m_weights.length - (l + 1)) = l + 1 := by omega
  rw [e] at h
  exact h

theorem grad_W_shape (exp : α → α) (nn : neural_net α) (p : Instance α) (learning_rate : α)
    (hws : well_shaped nn) (hL : 1 ≤ nn.m_weights.length)
    (hin : p.input.size = nn.m_topology.getD 0 0)
    (hout : p.output.size = nn.m_topology.getD (nn.m_topology.length - 1) 0)
    (l : Nat) (hl : l < nn.m_weights.length) :
    (spec_grad_W exp nn learning_rate p l).rows = (nn.m_weights.getD l default).rows ∧
    (spec_grad_W exp nn learning_rate p l).cols = (nn.m_weights.getD l default).cols := by
  obtain ⟨hr, hc, _, _⟩ := hws.2.2 l hl
  rw [hr, hc]
  constructor
  · exact spec_delta_size exp nn p hws hL hin hout l hl
  · exact spec_a_size exp nn p.input hws hin l (Nat.le_of_lt hl)

theorem grad_b_size (exp : α → α) (nn : neural_net α) (p : Instance α) (learning_rate : α)
    (hws : well_shaped nn) (hL : 1 ≤ nn.m_weights.length)
    (hin : p.input.size = nn.m_topology.getD 0 0)
    (hout : p.output.size = nn.m_topology.getD (nn.m_topology.length - 1) 0)
    (l : Nat) (hl : l < nn.m_weights.length) :
    (spec_grad_b exp nn learning_rate p l).size = (nn.m_biases.getD l default).size := by
  obtain ⟨_, _, _, hb⟩ := hws.2.2 l hl
  rw [hb, spec_grad_b, vector.size_scale]
  exact spec_delta_size exp nn p hws hL hin hout l hl

/-- The sums after the loop over the instances `start, ..., start + k - 1`. -/
theorem instances_ok (exp : α → α) (nn : neural_net α) (training_set : data_set α)
    (learning_rate : α) (hws : well_shaped nn) (hL : 1 ≤ nn.m_weights.length)
    (hds : valid_data_set nn training_set) (start k : Nat)
    (hwin : start + k ≤ training_set.length) :
    (List.range' start k).foldlM (instance_step exp nn training_set learning_rate)
        ((List.range nn.m_weights.length).map (fun l =>
            matrix.zeros (nn.m_weights.getD l default).rows (nn.m_weights.getD l default).cols),
          (List.range nn.m_weights.length).map (fun l =>
            vector.zeros (nn.m_biases.getD l default).size)) =
      Except.ok
        ((List.range nn.m_weights.length).map (fun l =>
            matrix.sum (nn.m_weights.getD l default).rows (nn.m_weights.getD l default).cols
              ((List.range' start k).map (fun i =>
                spec_grad_W exp nn learning_rate (training_set.getD i default) l))),
          (List.range nn.m_weights.length).map (fun l =>
            vector.sum (nn.m_biases.getD l default).size
              ((List.range' start k).map (fun i =>
                spec_grad_b exp nn learning_rate (training_set.getD i default) l)))) := by
  obtain ⟨s, hs, hP⟩ := foldlM_invariant (instance_step exp nn training_set learning_rate)
    (List.range' start k)
    (fun j s => s =
        ((List.range nn.m_weights.length).map (fun l =>
            matrix.sum (nn.m_weights.getD l default).rows (nn.m_weights.getD l default).cols
              ((List.range' start j).map (fun i =>
                spec_grad_W exp nn learning_rate (training_set.getD i default) l))),
          (List.range nn.m_weights.length).map (fun l =>
            vector.sum (nn.m_biases.getD l default).size
              ((List.range' start j).map (fun i =>
                spec_grad_b exp nn learning_rate (training_set.getD i default) l)))))
    _ rfl (by
      intro j hj s hP
      subst hP
      have hj1 : j < k := by simpa using hj
      have hget : (List.range' start k).get ⟨j, hj⟩ = start + j := by
        simp [List.getElem_range']
      have hi : start + j < training_set.length := by omega
      have hmem : training_set.getD (start + j) default ∈ training_set := by
        rw [List.getD_eq_getElem _ _ hi]
        exact List.getElem_mem _
      obtain ⟨hin, hout⟩ := hds _ hmem
      have hsizes : ∀ l, l < nn.m_weights.length →
          (vector.sum (nn.m_biases.getD l default).size
            ((List.range' start j).map (fun i =>
              spec_grad_b exp nn learning_rate (training_set.getD i default) l))).size =
            (nn.m_biases.getD l default).size := by
        intro l hl
        apply vector.sum_size
        intro v hv
        obtain ⟨i, hi1, rfl⟩ := List.mem_map.mp hv
        have hi2 : i < training_set.length := by
          have := (List.mem_range'_1.mp hi1).2
          omega
        have hmem2 : training_set.getD i default ∈ training_set := by
          rw [List.getD_eq_getElem _ _ hi2]
          exact List.getElem_mem _
        exact grad_b_size exp nn _ learning_rate hws hL (hds _ hmem2).1 (hds _ hmem2).2 l hl
      rw [hget]
      refine ⟨_, by
        simp only [instance_step, at_index_ok _ _ hi, ok_bind,
          get_delta_eq_grads exp nn _ learning_rate hws hL hin hout]
        exact accumulate_ok _ _ _ _ _ (by
          intro l hl
          have := grad_W_shape exp nn (training_set.getD (start + j) default) learning_rate
            hws hL hin hout l hl
          simp only [matrix.sum_rows, matrix.sum_cols, this, and_self]) (by
          intro l hl
          rw [hsizes l hl, grad_b_size exp nn _ learning_rate hws hL hin hout l hl]), ?_⟩
      beta_reduce
      simp only [List.range'_concat, List.map_append, List.map_singleton, matrix_sum_concat,
        vector_sum_concat, Nat.one_mul])
  rw [hP] at hs
  simp only [List.length_range'] at hs
  exact hs

/-- The call `propagate_batch` on a well-shaped network and a fitting data
set, whenever the window it reads lies inside the data set: with `c` the
adjusted batch size and `k` the number of instances read, every parameter
loses the sum of the scaled gradients of the `k` instances, divided by `c`. -/
theorem propagate_batch_ok [NatCast α] (exp : α → α) (nn : neural_net α)
    (training_set : data_set α) (learning_rate : α) (hws : well_shaped nn)
    (hL : 1 ≤ nn.m_weights.length) (hds : valid_data_set nn training_set)
    (start_index batch_size c k : Nat)
    (hc : clipped_batch_size training_set.length start_index batch_size = c)
    (hk : batch_indices start_index c = List.range' start_index k)
    (hwin : start_index + k ≤ training_set.length) :
    propagate_batch exp nn training_set start_index batch_size learning_rate =
      Except.ok
        ⟨(List.range nn.m_weights.length).map (fun l =>
            (nn.m_weights.getD l default).minus
              ((matrix.sum (nn.m_weights.getD l default).rows (nn.m_weights.getD l default).cols
                ((List.range' start_index k).map (fun i =>
                  spec_grad_W exp nn learning_rate (training_set.getD i default) l))).divide
                (c : α))),
          (List.range nn.m_weights.length).map (fun l =>
            (nn.m_biases.getD l default).minus
              ((vector.sum (nn.m_biases.getD l default).size
                ((List.range' start_index k).map (fun i =>
                  spec_grad_b exp nn learning_rate (training_set.getD i default) l))).divide
                (c : α))),
          nn.m_topology⟩ := by
  have hb : nn.m_biases.length = nn.m_weights.length := by
    have := hws.1
    have := hws.2.1
    omega
  have key := update_ok nn.m_weights.length c nn.m_topology
    (fun l => nn.m_weights.getD l default)
    (fun l => matrix.sum (nn.m_weights.getD l default).rows (nn.m_weights.getD l default).cols
      ((List.range' start_index k).map (fun i =>
        spec_grad_W exp nn learning_rate (training_set.getD i default) l)))
    (fun l => nn.m_biases.getD l default)
    (fun l => vector.sum (nn.m_biases.getD l default).size
      ((List.range' start_index k).map (fun i =>
        spec_grad_b exp nn learning_rate (training_set.getD i default) l)))
    (by intro l _; simp only [matrix.sum_rows, matrix.sum_cols, and_self])
    (by
      intro l hl
      symm
      apply vector.sum_size
      intro v hv
      obtain ⟨i, hi1, rfl⟩ := List.mem_map.mp hv
      have hi2 : i < training_set.length := by
        have := (List.mem_range'_1.mp hi1).2
        omega
      have hmem2 : training_set.getD i default ∈ training_set := by
        rw [List.getD_eq_getElem _ _ hi2]
        exact List.getElem_mem _
      exact grad_b_size exp nn _ learning_rate hws hL (hds _ hmem2).1 (hds _ hmem2).2 l hl)
  rw [range_map_getD nn.m_weights, range_map_getD_of_length nn.m_biases _ hb] at key
  have key2 : (List.range nn.m_weights.length).foldlM (update_step (α := α) c)
      ⟨nn, _, _⟩ = _ := key
  simp only [propagate_batch, zero_sums_ok nn hb, ok_bind, hc, hk,
    instances_ok exp nn training_set learning_rate hws hL hds start_index k hwin, key2,
    pure_eq_ok]

end batch_gradients

/-! ## Claims on the mini-batch update -/

section claims_batch

theorem matrix_divide_eq_smul {α : Type} [Field α] (m : matrix α) (s : α) :
    m.divide s = matrix.smul (1 / s) m := by
  simp only [matrix.divide, matrix.smul]
  congr 1
  apply List.map_congr_left
  intro x _
  rw [div_eq_mul_inv, one_div, mul_comm]

theorem vector_divide_eq_smul {α : Type} [Field α] (v : vector α) (s : α) :
    v.divide s = vector.smul (1 / s) v := by
  simp only [vector.divide, vector.smul]
  congr 1
  apply List.map_congr_left
  intro x _
  rw [div_eq_mul_inv, one_div, mul_comm]

theorem clipped_batch_size_fits (size start_index batch_size : Nat)
    (hwin : start_index + batch_size ≤ size) (hsz : size < 2 ^ 32) :
    clipped_batch_size size start_index batch_size = batch_size := by
  have h : (start_index + batch_size) % 2 ^ 32 = start_index + batch_size :=
    Nat.mod_eq_of_lt (by omega)
  simp only [clipped_batch_size, h]
  rw [if_neg (by omega)]

theorem batch_indices_fits (start_index batch_size : Nat)
    (h : start_index + batch_size < 2 ^ 32) :
    batch_indices start_index batch_size = List.range' start_index batch_size := by
  simp only [batch_indices, Nat.mod_eq_of_lt h, Nat.add_sub_cancel_left]

/-- C3: for a well-shaped network with at least one weight layer, a fitting
data set of fewer than `2^32` instances, `batch_size ≥ 1` and
`start_index + batch_size ≤ dataset.size()`, `propagate_batch` replaces every
`W[l]` by `W[l] - (1/batch_size) · Σ_i gW_i[l]` and every `b[l]` by
`b[l] - (1/batch_size) · Σ_i gb_i[l]`, the sums ranging over the instances
`i` of the window and `(gW_i, gb_i)` being what
`get_delta_weights_and_biases` returns for instance `i` on the network as it
was before the call. -/
theorem propagate_batch_spec {α : Type} [Field α] (exp : α → α) (nn : neural_net α)
    (training_set : data_set α) (learning_rate : α) (start_index batch_size : Nat)
    (hws : well_shaped nn) (hL : 1 ≤ nn.m_weights.length)
    (hds : valid_data_set nn training_set) (_hb : 1 ≤ batch_size)
    (hwin : start_index + batch_size ≤ training_set.length)
    (hsz : training_set.length < 2 ^ 32) :
    ∃ g : Nat → List (matrix α) × List (vector α),
      (∀ i, start_index ≤ i → i < start_index + batch_size →
        get_delta_weights_and_biases exp nn (training_set.getD i default).input
          (training_set.getD i default).output learning_rate = Except.ok (g i)) ∧
      propagate_batch exp nn training_set start_index batch_size learning_rate =
        Except.ok
          ⟨(List.range nn.m_weights.length).map (fun l =>
              (nn.m_weights.getD l default).minus
                (matrix.smul (1 / (batch_size : α))
                  (matrix.sum (nn.m_weights.getD l default).rows
                    (nn.m_weights.getD l default).cols
                    ((List.range' start_index batch_size).map (fun i =>
                      (g i).1.getD l default))))),
            (List.range nn.m_weights.length).map (fun l =>
              (nn.m_biases.getD l default).minus
                (vector.smul (1 / (batch_size : α))
                  (vector.sum (nn.m_biases.getD l default).size
                    ((List.range' start_index batch_size).map (fun i =>
                      (g i).2.getD l default))))),
            nn.m_topology⟩ := by
  refine ⟨fun i =>
    ((List.range nn.m_weights.length).map
        (spec_grad_W exp nn learning_rate (training_set.getD i default)),
      (List.range nn.m_weights.length).map
        (spec_grad_b exp nn learning_rate (training_set.getD i default))), ?_, ?_⟩
  · intro i _ hi
    have hi2 : i < training_set.length := by omega
    have hmem : training_set.getD i default ∈ training_set := by
      rw [List.getD_eq_getElem _ _ hi2]
      exact List.getElem_mem _
    exact get_delta_eq_grads exp nn _ learning_rate hws hL (hds _ hmem).1 (hds _ hmem).2
  · rw [propagate_batch_ok exp nn training_set learning_rate hws hL hds start_index batch_size
      batch_size batch_size (clipped_batch_size_fits _ _ _ hwin hsz)
      (batch_indices_fits _ _ (by omega)) hwin]
    refine congrArg Except.ok ?_
    congr 1
    · apply range_map_congr
      intro l hl
      rw [matrix_divide_eq_smul]
      congr 3
      apply List.map_congr_left
      intro i _
      exact (getD_range_map _ _ _ hl).symm
    · apply range_map_congr
      intro l hl
      rw [vector_divide_eq_smul]
      congr 3
      apply List.map_congr_left
      intro i _
      exact (getD_range_map _ _ _ hl).symm

/-- Witness of C3 on `sample_net` and `sample_set`, window `[1, 3)`. -/
theorem propagate_batch_spec_witness :
    (well_shaped sample_net ∧ valid_data_set sample_net sample_set) ∧
    ∃ g : Nat → List (matrix ℚ) × List (vector ℚ),
      (∀ i, 1 ≤ i → i < 1 + 2 →
        get_delta_weights_and_biases sample_exp sample_net (sample_set.getD i default).input
          (sample_set.getD i default).output 3 = Except.ok (g i)) ∧
      propagate_batch sample_exp sample_net sample_set 1 2 3 =
        Except.ok
          ⟨(List.range sample_net.m_weights.length).map (fun l =>
              (sample_net.m_weights.getD l default).minus
                (matrix.smul (1 / ((2 : Nat) : ℚ))
                  (matrix.sum (sample_net.m_weights.getD l default).rows
                    (sample_net.m_weights.getD l default).cols
                    ((List.range' 1 2).map (fun i => (g i).1.getD l default))))),
            (List.range sample_net.m_weights.length).map (fun l =>
              (sample_net.m_biases.getD l default).minus
                (vector.smul (1 / ((2 : Nat) : ℚ))
                  (vector.sum (sample_net.m_biases.getD l default).size
                    ((List.range' 1 2).map (fun i => (g i).2.getD l default))))),
            sample_net.m_topology⟩ :=
  ⟨⟨by decide, by decide⟩,
    propagate_batch_spec sample_exp sample_net sample_set 3 1 2 (by decide) (by decide)
      (by decide) (by decide) (by decide) (by decide)⟩

/-- C4: the adjustment of `batch_size` at the two inputs of the claim.  For a
data set of size 5 and a requested batch of 10, start index 3 gives batch size
1 and reads index 3 only; start index 4 gives batch size 0 and reads nothing,
the sums are divided by 0, and every weight and bias becomes NaN. -/
theorem clipped_batch_size_examples :
    clipped_batch_size 5 3 10 = 1 ∧ batch_indices 3 (clipped_batch_size 5 3 10) = [3] ∧
    clipped_batch_size 5 4 10 = 0 ∧ batch_indices 4 (clipped_batch_size 5 4 10) = [] ∧
    propagate_batch sample_flt_exp sample_flt_net sample_flt_set5 4 10 (flt.val 1) =
      Except.ok nan_net := by
  refine ⟨by decide, by decide, by decide, by decide, rfl⟩

/-- C5, as stated, fails: on a data set of size 3, start index 2 and batch size
2 the batch size after the adjustment is 0, and `propagate_batch` returns
normally with every weight and bias NaN. -/
theorem propagate_batch_empty_batch_example :
    clipped_batch_size sample_flt_set.length 2 2 = 0 ∧
    propagate_batch sample_flt_exp sample_flt_net sample_flt_set 2 2 (flt.val 1) =
      Except.ok nan_net ∧
    nan_net ≠ sample_flt_net := by
  refine ⟨by decide, rfl, by decide⟩

/-- C5, amended: on a well-shaped network with at least one weight layer and a
fitting data set, whenever the batch size is 0 after the adjustment,
`propagate_batch` reads no instance of the data set and returns normally, with
the topology unchanged; no error is raised. -/
theorem propagate_batch_empty_batch_returns {α : Type} [Add α] [Sub α] [Mul α] [Div α] [Neg α]
    [Zero α] [One α] [NatCast α] (exp : α → α) (nn : neural_net α)
    (training_set : data_set α) (learning_rate : α) (start_index batch_size : Nat)
    (hws : well_shaped nn) (hL : 1 ≤ nn.m_weights.length)
    (hds : valid_data_set nn training_set) (hstart : start_index < training_set.length)
    (hzero : clipped_batch_size training_set.length start_index batch_size = 0) :
    batch_indices start_index
        (clipped_batch_size training_set.length start_index batch_size) = [] ∧
    ∃ nn1, propagate_batch exp nn training_set start_index batch_size learning_rate =
        Except.ok nn1 ∧ nn1.m_topology = nn.m_topology := by
  have hk : batch_indices start_index 0 = List.range' start_index 0 := by
    have h : (start_index + 0) % 2 ^ 32 - start_index = 0 :=
      Nat.sub_eq_zero_of_le (Nat.mod_le _ _)
    simp only [batch_indices, h]
  refine ⟨by rw [hzero, hk]; rfl, _, propagate_batch_ok exp nn training_set learning_rate hws hL
    hds start_index batch_size 0 0 hzero hk (by omega), rfl⟩

/-- Witness of the amended C5: data set of size 3, start index 2, batch size 2. -/
theorem propagate_batch_empty_batch_returns_witness :
    (well_shaped sample_flt_net ∧ valid_data_set sample_flt_net sample_flt_set ∧
      clipped_batch_size sample_flt_set.length 2 2 = 0) ∧
    (batch_indices 2 (clipped_batch_size sample_flt_set.length 2 2) = [] ∧
      ∃ nn1, propagate_batch sample_flt_exp sample_flt_net sample_flt_set 2 2 (flt.val 1) =
        Except.ok nn1 ∧ nn1.m_topology = sample_flt_net.m_topology) :=
  ⟨⟨by decide, by decide, by decide⟩,
    propagate_batch_empty_batch_returns sample_flt_exp sample_flt_net sample_flt_set (flt.val 1)
      2 2 (by decide) (by decide) (by decide) (by decide) (by decide)⟩

end claims_batch

/-! ## Claims on the gradient itself -/

section claims_calculus

/-- C6: for the network of topology `[1, 1]` with weight `w` and bias `0`, input
`x = 1` and desired output `y`, the weight change returned by
`get_delta_weights_and_biases` is, for learning rate 1, the gradient
`(sigmoid(w) - y) * sigmoid(w) * (1 - sigmoid(w)) * x`, and for learning rate
`lr` it is `lr` times that value. -/
theorem single_weight_gradient {α : Type} [Field α] (exp : α → α) (w y lr : α) :
    (get_delta_weights_and_biases exp ⟨[⟨1, 1, [w]⟩], [⟨[0]⟩], [1, 1]⟩ ⟨[1]⟩ ⟨[y]⟩ 1).map
        (fun d => d.1) =
      Except.ok [⟨1, 1,
        [(sigmoid exp w - y) * sigmoid exp w * (1 - sigmoid exp w) * 1]⟩] ∧
    (get_delta_weights_and_biases exp ⟨[⟨1, 1, [w]⟩], [⟨[0]⟩], [1, 1]⟩ ⟨[1]⟩ ⟨[y]⟩ lr).map
        (fun d => d.1) =
      Except.ok [⟨1, 1,
        [lr * ((sigmoid exp w - y) * sigmoid exp w * (1 - sigmoid exp w) * 1)]⟩] := by
  have key : ∀ r : α,
      get_delta_weights_and_biases exp ⟨[⟨1, 1, [w]⟩], [⟨[0]⟩], [1, 1]⟩ ⟨[1]⟩ ⟨[y]⟩ r =
        Except.ok ([⟨1, 1, [(sigmoid exp w - y) * d_sigmoid exp w * 1 * r]⟩],
          [⟨[(sigmoid exp w - y) * d_sigmoid exp w * r]⟩]) := by
    intro r
    simp [get_delta_weights_and_biases, forward_step, at_index, back, matrix.mul_vec,
      matrix.apply, matrix.coeff, vector.coeff, vector.size, vector.add, vector.plus,
      vector.unaryExpr, vector.sub, vector.minus, vector.cwiseProduct, vector.hadamard,
      vector.outer, matrix.scale, vector.scale, List.range_succ]
  constructor
  · rw [key]
    simp only [Except.map, d_sigmoid]
    have e : (sigmoid exp w - y) * (sigmoid exp w * (1 - sigmoid exp w)) * 1 * 1 =
        (sigmoid exp w - y) * sigmoid exp w * (1 - sigmoid exp w) * 1 := by ring
    rw [e]
  · rw [key]
    simp only [Except.map, d_sigmoid]
    have e : (sigmoid exp w - y) * (sigmoid exp w * (1 - sigmoid exp w)) * 1 * lr =
        lr * ((sigmoid exp w - y) * sigmoid exp w * (1 - sigmoid exp w) * 1) := by ring
    rw [e]

theorem sigmoid_hasDerivAt (x : ℝ) :
    HasDerivAt (sigmoid Real.exp) (d_sigmoid Real.exp x) x := by
  have h1 : HasDerivAt (fun t : ℝ => -t) (-1) x := (hasDerivAt_id x).neg
  have h2 : HasDerivAt (fun t : ℝ => Real.exp (-t)) (Real.exp (-x) * -1) x := h1.exp
  have h3 : HasDerivAt (fun t : ℝ => 1 + Real.exp (-t)) (Real.exp (-x) * -1) x :=
    h2.const_add 1
  have hne : (1 + Real.exp (-x)) ≠ 0 := by positivity
  have h4 := h3.inv hne
  have hfun : sigmoid Real.exp = fun t : ℝ => (1 + Real.exp (-t))⁻¹ := by
    funext t
    simp only [sigmoid, one_div]
  rw [hfun]
  convert h4 using 1
  simp only [d_sigmoid, sigmoid]
  field_simp
  ring

/-- Partial derivative of the loss `(1/2) · Σ_k (sigmoid(z_k) - y_k)^2` with
respect to `z_j`, on coefficient lists. -/
theorem loss_hasDerivAt (z ys : List ℝ) :
    ∀ (j : Nat), j < z.length → j < ys.length →
      HasDerivAt
        (fun t => (1 / 2 : ℝ) * ((List.zipWith (fun x y => x - y)
          ((z.set j t).map (sigmoid Real.exp)) ys).map (fun x => x * x)).sum)
        ((List.zipWith (fun x y => x * y)
          (List.zipWith (fun x y => x - y) (z.map (sigmoid Real.exp)) ys)
          (z.map (d_sigmoid Real.exp))).getD j 0)
        (z.getD j 0) := by
  induction z generalizing ys with
  | nil => intro j hj; simp at hj
  | cons a z ih =>
    intro j hj hy
    cases ys with
    | nil => simp at hy
    | cons b ys =>
      cases j with
      | zero =>
        simp only [List.set_cons_zero, List.map_cons, List.zipWith_cons_cons, List.sum_cons,
          List.getD_cons_zero]
        have hs := sigmoid_hasDerivAt a
        have h1 : HasDerivAt (fun t => sigmoid Real.exp t - b) (d_sigmoid Real.exp a) a :=
          hs.sub_const b
        have h2 := (h1.mul h1).add_const
          ((List.zipWith (fun x y => x - y) (z.map (sigmoid Real.exp)) ys).map
            (fun x => x * x)).sum
        have h3 := h2.const_mul (1 / 2 : ℝ)
        convert h3 using 1
        ring
      | succ j =>
        simp only [List.set_cons_succ, List.map_cons, List.zipWith_cons_cons, List.sum_cons,
          List.getD_cons_succ]
        have h := ih ys j (by simpa using hj) (by simpa using hy)
        have h2 := h.const_add ((1 / 2 : ℝ) * ((sigmoid Real.exp a - b) *
          (sigmoid Real.exp a - b)))
        convert h2 using 1
        funext t
        ring

/-- C7: over the real numbers `d_sigmoid` is the derivative of `sigmoid`, and
the output-layer error that `get_delta_weights_and_biases` computes (returned,
for learning rate 1, as the bias change of the last layer) is the gradient of
the loss `(1/2) · ‖sigmoid(z) - desired_output‖²` in the last layer's
pre-activation `z`, at `z = z[last]`: component `j` is the partial derivative
in `z_j`. -/
theorem output_error_is_loss_gradient (nn : neural_net ℝ) (input desired_output : vector ℝ)
    (hws : well_shaped nn) (hL : 1 ≤ nn.m_weights.length)
    (hin : input.size = nn.m_topology.getD 0 0)
    (hout : desired_output.size = nn.m_topology.getD (nn.m_topology.length - 1) 0) :
    (∀ x : ℝ, HasDerivAt (sigmoid Real.exp) (d_sigmoid Real.exp x) x) ∧
    ∃ d, get_delta_weights_and_biases Real.exp nn input desired_output 1 = Except.ok d ∧
      ∀ j, j < desired_output.size →
        HasDerivAt
          (fun t => (1 / 2 : ℝ) *
            (((vector.mk ((spec_z Real.exp nn input nn.m_weights.length).data.set j t)).unaryExpr
              (sigmoid Real.exp)).minus desired_output).squaredNorm)
          ((d.2.getD (nn.m_weights.length - 1) default).coeff j)
          ((spec_z Real.exp nn input nn.m_weights.length).coeff j) := by
  refine ⟨sigmoid_hasDerivAt, _, get_delta_eq_grads Real.exp nn ⟨input, desired_output⟩ 1 hws hL
    hin hout, ?_⟩
  intro j hj
  have hlast : nn.m_topology.length - 1 = nn.m_weights.length := by
    have := hws.1
    omega
  rw [hlast] at hout
  have hz : (spec_z Real.exp nn input nn.m_weights.length).data.length =
      nn.m_topology.getD nn.m_weights.length 0 :=
    spec_z_size Real.exp nn input hws _ hL (Nat.le_refl _)
  have hjz : j < (spec_z Real.exp nn input nn.m_weights.length).data.length := by
    rw [hz, ← hout]
    exact hj
  have h := loss_hasDerivAt (spec_z Real.exp nn input nn.m_weights.length).data
    desired_output.data j hjz hj
  obtain ⟨n, hn⟩ : ∃ n, nn.m_weights.length = n + 1 := ⟨nn.m_weights.length - 1, by omega⟩
  have hcoeff : (((List.range nn.m_weights.length).map
      (spec_grad_b Real.exp nn 1 ⟨input, desired_output⟩)).getD (nn.m_weights.length - 1)
        default).coeff j =
      (List.zipWith (fun x y => x * y)
        (List.zipWith (fun x y => x - y)
          ((spec_z Real.exp nn input nn.m_weights.length).data.map (sigmoid Real.exp))
          desired_output.data)
        ((spec_z Real.exp nn input nn.m_weights.length).data.map (d_sigmoid Real.exp))).getD
        j 0 := by
    rw [getD_range_map _ _ _ (by omega)]
    have e : nn.m_weights.length - 1 + 1 = nn.m_weights.length := by omega
    simp only [spec_grad_b, e, spec_delta, Nat.sub_self, delta_down, vector.scale, vector.coeff,
      mul_one, List.map_id', vector.hadamard, vector.minus, vector.unaryExpr]
    rw [hn, spec_a_succ]
    rfl
  rw [hcoeff]
  exact h

/-- Witness of C7 on the network of topology `[1, 1]` with weight 1, bias 0. -/
theorem output_error_is_loss_gradient_witness :
    well_shaped (unit_net ℝ) ∧
    ((∀ x : ℝ, HasDerivAt (sigmoid Real.exp) (d_sigmoid Real.exp x) x) ∧
    ∃ d, get_delta_weights_and_biases Real.exp (unit_net ℝ) ⟨[1]⟩ ⟨[0]⟩ 1 = Except.ok d ∧
      ∀ j, j < (vector.mk [(0 : ℝ)]).size →
        HasDerivAt
          (fun t => (1 / 2 : ℝ) *
            (((vector.mk ((spec_z Real.exp (unit_net ℝ) ⟨[1]⟩
                (unit_net ℝ).m_weights.length).data.set j t)).unaryExpr
              (sigmoid Real.exp)).minus ⟨[0]⟩).squaredNorm)
          ((d.2.getD ((unit_net ℝ).m_weights.length - 1) default).coeff j)
          ((spec_z Real.exp (unit_net ℝ) ⟨[1]⟩ (unit_net ℝ).m_weights.length).coeff j)) :=
  ⟨by decide, output_error_is_loss_gradient (unit_net ℝ) ⟨[1]⟩ ⟨[0]⟩ (by decide) (by decide)
    (by decide) (by decide)⟩

end claims_calculus

/-! ## The training loop -/

section training

variable {α : Type} [Add α] [Sub α] [Mul α] [Div α] [Neg α] [Zero α] [One α] [NatCast α]

theorem lt_batches_iff (size b m : Nat) (hb : 1 ≤ b) :
    m < (size + b - 1) / b ↔ m * b < size := by
  rw [Nat.lt_iff_add_one_le, Nat.le_div_iff_mul_le (by omega), Nat.add_mul, Nat.one_mul]
  omega

/-- The inner loop of `train`, entered at the start index of batch `m`, runs
the remaining batches of the pass in order. -/
theorem train_batches_from (exp : α → α) (training_set : data_set α) (b : Nat)
    (learning_rate : α) (hb : 1 ≤ b)
    (hsz : (training_set.length + b - 1) / b * b < 2 ^ 32) :
    ∀ (k m fuel : Nat) (nn : neural_net α),
      m + k = (training_set.length + b - 1) / b → k ≤ fuel →
      train_batches exp training_set b learning_rate fuel (m * b) nn =
        some (((List.range' m k).map (fun j => j * b)).foldlM
          (fun net i => propagate_batch exp net training_set i b learning_rate) nn) := by
  intro k
  induction k with
  | zero =>
    intro m fuel nn hm _
    have hnot : ¬ m * b < training_set.length := by
      rw [← lt_batches_iff _ _ _ hb]
      omega
    cases fuel with
    | zero => simp [train_batches, hnot]
    | succ fuel => simp [train_batches, hnot]
  | succ k ih =>
    intro m fuel nn hm hfuel
    have hlt : m * b < training_set.length := by
      rw [← lt_batches_iff _ _ _ hb]
      omega
    obtain ⟨f, rfl⟩ : ∃ f, fuel = f + 1 := ⟨fuel - 1, by omega⟩
    have hle : (m + 1) * b ≤ (training_set.length + b - 1) / b * b :=
      Nat.mul_le_mul_right b (by omega)
    have hnext : (m * b + b) % 2 ^ 32 = (m + 1) * b := by
      rw [Nat.add_mul, Nat.one_mul] at hle
      rw [Nat.mod_eq_of_lt (by omega), Nat.add_mul, Nat.one_mul]
    rw [train_batches, if_pos hlt, List.range'_succ, List.map_cons, List.foldlM_cons]
    cases hp : propagate_batch exp nn training_set (m * b) b learning_rate with
    | error e => rfl
    | ok nn1 =>
      simp only [hnext, ok_bind]
      exact ih (m + 1) f nn1 (by omega) (by omega)

/-- The function `train` with enough fuel for one pass: `epochs` passes, each
running the batches `0, b, 2b, ...` in order. -/
theorem train_eq_schedule (exp : α → α) (training_set : data_set α) (b : Nat)
    (learning_rate : α) (fuel : Nat) (hb : 1 ≤ b)
    (hsz : (training_set.length + b - 1) / b * b < 2 ^ 32)
    (hfuel : (training_set.length + b - 1) / b ≤ fuel) :
    ∀ (epochs : Nat) (nn : neural_net α),
      train exp fuel training_set b learning_rate epochs nn =
        some ((schedule training_set.length b epochs).foldlM
          (fun net i => propagate_batch exp net training_set i b learning_rate) nn) := by
  intro epochs
  induction epochs with
  | zero => intro nn; rfl
  | succ e ih =>
    intro nn
    have h0 := train_batches_from exp training_set b learning_rate hb hsz
      ((training_set.length + b - 1) / b) 0 fuel nn (by omega) hfuel
    rw [Nat.zero_mul] at h0
    have hsched : schedule training_set.length b (e + 1) =
        batch_starts training_set.length b ++ schedule training_set.length b e := by
      simp only [schedule, List.replicate_succ, List.flatten_cons]
    have hstarts : batch_starts training_set.length b =
        (List.range' 0 ((training_set.length + b - 1) / b)).map (fun j => j * b) := by
      simp only [batch_starts, List.range_eq_range']
    rw [train, h0, hsched, List.foldlM_append, hstarts]
    cases hp : ((List.range' 0 ((training_set.length + b - 1) / b)).map
        (fun j => j * b)).foldlM
        (fun net i => propagate_batch exp net training_set i b learning_rate) nn with
    | error e => rfl
    | ok nn1 =>
      simp only [ok_bind]
      exact ih nn1

theorem schedule_length (size b epochs : Nat) :
    (schedule size b epochs).length = epochs * ((size + b - 1) / b) := by
  induction epochs with
  | zero => simp [schedule]
  | succ e ih =>
    have hsched : schedule size b (e + 1) = batch_starts size b ++ schedule size b e := by
      simp only [schedule, List.replicate_succ, List.flatten_cons]
    rw [hsched, List.length_append, ih]
    simp only [batch_starts, List.length_map, List.length_range]
    rw [Nat.add_mul, Nat.one_mul, Nat.add_comm]

theorem mem_batch_starts (size b i : Nat) (hb : 1 ≤ b) :
    i ∈ batch_starts size b ↔ ∃ m, i = m * b ∧ i < size := by
  simp only [batch_starts, List.mem_map, List.mem_range]
  constructor
  · rintro ⟨m, hm, rfl⟩
    exact ⟨m, rfl, (lt_batches_iff size b m hb).mp hm⟩
  · rintro ⟨m, rfl, hm⟩
    exact ⟨m, (lt_batches_iff size b m hb).mpr hm, rfl⟩

theorem batch_starts_increasing (size b : Nat) (hb : 1 ≤ b) :
    (batch_starts size b).Pairwise (fun i j => i < j) := by
  simp only [batch_starts, List.pairwise_map]
  exact (List.pairwise_lt_range _).imp (fun h => Nat.mul_lt_mul_of_pos_right h (by omega))

theorem nan_net_loops (fuel : Nat) :
    train_batches sample_flt_exp sample_flt_set 0 (flt.val 1) fuel 0 nan_net = none := by
  induction fuel with
  | zero => rfl
  | succ fuel ih =>
    have hp : propagate_batch sample_flt_exp nan_net sample_flt_set 0 0 (flt.val 1) =
        Except.ok nan_net := rfl
    have hlt : 0 < sample_flt_set.length := by decide
    rw [train_batches, if_pos hlt, hp]
    exact ih

end training

section claims_training

/-- C8, as stated, fails for `batch_size = 0`: on a data set of three
instances, one epoch of `train` never ends, whatever the fuel (the start index
stays 0 and every call divides by the batch size 0). -/
theorem train_zero_batch_size_diverges :
    ¬ ∃ fuel, (train sample_flt_exp fuel sample_flt_set 0 (flt.val 1) 1 sample_flt_net).isSome
        = true := by
  rintro ⟨fuel, h⟩
  have hp : propagate_batch sample_flt_exp sample_flt_net sample_flt_set 0 0 (flt.val 1) =
      Except.ok nan_net := rfl
  have hlt : 0 < sample_flt_set.length := by decide
  cases fuel with
  | zero => simp [train, train_batches, hlt] at h
  | succ fuel =>
    have h1 : train_batches sample_flt_exp sample_flt_set 0 (flt.val 1) (fuel + 1) 0
        sample_flt_net = none := by
      rw [train_batches, if_pos hlt, hp]
      exact nan_net_loops fuel
    simp [train, h1] at h

/-- C8, amended: for `batch_size ≥ 1`, and start indices that fit `unsigned`
(`⌈size / batch_size⌉ · batch_size < 2^32`, true whenever `size ≤ 2^31`),
`train` terminates (any fuel of at least `⌈size / batch_size⌉` suffices) and
equals the calls of `propagate_batch`, in order, on the start indices of
`epochs` passes; each pass lists the indices `0, batch_size, 2·batch_size, ...`
below `dataset.size()` in increasing order, so there are
`epochs · ⌈size / batch_size⌉` calls. -/
theorem train_terminates {α : Type} [Add α] [Sub α] [Mul α] [Div α] [Neg α] [Zero α] [One α]
    [NatCast α] (exp : α → α) (training_set : data_set α) (epochs batch_size : Nat)
    (learning_rate : α) (nn : neural_net α) (hb : 1 ≤ batch_size)
    (hsz : (training_set.length + batch_size - 1) / batch_size * batch_size < 2 ^ 32) :
    (∀ fuel, (training_set.length + batch_size - 1) / batch_size ≤ fuel →
      train exp fuel training_set batch_size learning_rate epochs nn =
        some ((schedule training_set.length batch_size epochs).foldlM
          (fun net i => propagate_batch exp net training_set i batch_size learning_rate) nn)) ∧
    schedule training_set.length batch_size epochs =
      (List.replicate epochs (batch_starts training_set.length batch_size)).flatten ∧
    (∀ i, i ∈ batch_starts training_set.length batch_size ↔
      ∃ m, i = m * batch_size ∧ i < training_set.length) ∧
    (batch_starts training_set.length batch_size).Pairwise (fun i j => i < j) ∧
    (schedule training_set.length batch_size epochs).length =
      epochs * ((training_set.length + batch_size - 1) / batch_size) :=
  ⟨fun fuel hfuel =>
      train_eq_schedule exp training_set batch_size learning_rate fuel hb hsz hfuel epochs nn,
    rfl, fun i => mem_batch_starts _ _ i hb, batch_starts_increasing _ _ hb,
    schedule_length _ _ _⟩

/-- Witness of the amended C8: `sample_set` (three instances), two epochs,
batches of two. -/
theorem train_terminates_witness :
    (1 ≤ 2 ∧ (sample_set.length + 2 - 1) / 2 * 2 < 2 ^ 32) ∧
    ((∀ fuel, (sample_set.length + 2 - 1) / 2 ≤ fuel →
      train sample_exp fuel sample_set 2 3 2 sample_net =
        some ((schedule sample_set.length 2 2).foldlM
          (fun net i => propagate_batch sample_exp net sample_set i 2 3) sample_net)) ∧
    schedule sample_set.length 2 2 =
      (List.replicate 2 (batch_starts sample_set.length 2)).flatten ∧
    (∀ i, i ∈ batch_starts sample_set.length 2 ↔ ∃ m, i = m * 2 ∧ i < sample_set.length) ∧
    (batch_starts sample_set.length 2).Pairwise (fun i j => i < j) ∧
    (schedule sample_set.length 2 2).length = 2 * ((sample_set.length + 2 - 1) / 2)) :=
  ⟨⟨by decide, by decide⟩,
    train_terminates sample_exp sample_set 2 2 3 sample_net (by decide) (by decide)⟩

end claims_training

/-! ## Construction -/

section construction

variable {α : Type}

theorem getD_concat_lt {β : Type} (xs : List β) (x d : β) (i : Nat) (h : i < xs.length) :
    (xs ++ [x]).getD i d = xs.getD i d := by
  rw [List.getD_eq_getElem _ _ (by simp; omega), List.getD_eq_getElem _ _ h,
    List.getElem_append_left h]

theorem getD_concat_length {β : Type} (xs : List β) (x d : β) :
    (xs ++ [x]).getD xs.length d = x := by
  rw [List.getD_eq_getElem _ _ (by simp)]
  simp

/-- The constructor never faults; its result has the given topology and one
weight matrix and bias vector per layer transition, of the shapes given by
adjacent topology entries. -/
theorem ctor_ok (g : Nat → α) (pos : Nat) (topology : List Nat) :
    ∃ nn, neural_net.ctor g pos topology = Except.ok nn ∧
      nn.m_topology = topology ∧
      nn.m_weights.length = topology.length - 1 ∧
      nn.m_biases.length = topology.length - 1 ∧
      ∀ i, i < topology.length - 1 →
        (nn.m_weights.getD i default).rows = topology.getD (i + 1) 0 ∧
        (nn.m_weights.getD i default).cols = topology.getD i 0 ∧
        (nn.m_weights.getD i default).data.length =
          (nn.m_weights.getD i default).rows * (nn.m_weights.getD i default).cols ∧
        (nn.m_biases.getD i default).size = topology.getD (i + 1) 0 := by
  obtain ⟨st, hst, hP⟩ := foldlM_invariant (ctor_step g topology)
    (List.range' 1 (topology.length - 1))
    (fun k st => st.m_weights.length = k ∧ st.m_biases.length = k ∧
      ∀ i, i < k →
        (st.m_weights.getD i default).rows = topology.getD (i + 1) 0 ∧
        (st.m_weights.getD i default).cols = topology.getD i 0 ∧
        (st.m_weights.getD i default).data.length =
          (st.m_weights.getD i default).rows * (st.m_weights.getD i default).cols ∧
        (st.m_biases.getD i default).size = topology.getD (i + 1) 0)
    ⟨[], [], pos⟩ ⟨rfl, rfl, fun i hi => absurd hi (Nat.not_lt_zero i)⟩ (by
      intro k hk st hP
      obtain ⟨hw, hb, hshape⟩ := hP
      have hk1 : k < topology.length - 1 := by simpa using hk
      have hget : (List.range' 1 (topology.length - 1)).get ⟨k, hk⟩ = k + 1 := by
        simp [List.getElem_range', Nat.add_comm]
      rw [hget]
      have h1 : at_index topology (k + 1) = Except.ok (topology.getD (k + 1) 0) :=
        at_index_ok _ _ (by omega)
      have h2 : at_index topology (k + 1 - 1) = Except.ok (topology.getD k 0) :=
        at_index_ok _ _ (by omega)
      refine ⟨_, by simp only [ctor_step, h1, h2, ok_bind, pure_eq_ok]; rfl, ?_, ?_, ?_⟩
      · simp [hw]
      · simp [hb]
      · intro i hi
        by_cases hik : i < k
        · rw [getD_concat_lt _ _ _ _ (by omega), getD_concat_lt _ _ _ _ (by omega)]
          exact hshape i hik
        · have hik2 : i = k := by omega
          subst hik2
          have e1 := getD_concat_length st.m_weights
            (matrix.Random g (vector.Random g st.pos (topology.getD (i + 1) 0)).2
              (topology.getD (i + 1) 0) (topology.getD i 0)).1 default
          have e2 := getD_concat_length st.m_biases
            (vector.Random g st.pos (topology.getD (i + 1) 0)).1 default
          rw [hw] at e1
          rw [hb] at e2
          rw [e1, e2]
          simp [matrix.Random, vector.Random, vector.size])
  simp only [List.length_range'] at hP
  refine ⟨⟨st.m_weights, st.m_biases, topology⟩, ?_, rfl, hP.1, hP.2.1, hP.2.2⟩
  simp only [neural_net.ctor, hst, ok_bind, pure_eq_ok]

theorem ctor_well_shaped (g : Nat → α) (pos : Nat) (topology : List Nat)
    (h : 1 ≤ topology.length) :
    ∃ nn, neural_net.ctor g pos topology = Except.ok nn ∧ nn.m_topology = topology ∧
      well_shaped nn := by
  obtain ⟨nn, hnn, htop, hw, hb, hshape⟩ := ctor_ok g pos topology
  refine ⟨nn, hnn, htop, ?_, ?_, ?_⟩
  · rw [htop, hw]
    omega
  · rw [htop, hb]
    omega
  · intro l hl
    rw [htop]
    exact hshape l (by omega)

end construction

section claims_construction

/-- C9: the constructor returns a network with exactly `len(topology) - 1`
weight matrices and `len(topology) - 1` bias vectors, weight matrix `i` having
`topology[i+1]` rows and `topology[i]` columns and bias vector `i` length
`topology[i+1]`, and `get_topology()` returns the given topology; this holds
for every topology, in particular for those whose entries are all positive. -/
theorem ctor_shapes {α : Type} (g : Nat → α) (pos : Nat) (topology : List Nat) :
    ∃ nn, neural_net.ctor g pos topology = Except.ok nn ∧
      nn.get_weights.length = topology.length - 1 ∧
      nn.get_biases.length = topology.length - 1 ∧
      (∀ i, i < topology.length - 1 →
        (nn.get_weights.getD i default).rows = topology.getD (i + 1) 0 ∧
        (nn.get_weights.getD i default).cols = topology.getD i 0 ∧
        (nn.get_biases.getD i default).size = topology.getD (i + 1) 0) ∧
      nn.get_topology = topology := by
  obtain ⟨nn, hnn, htop, hw, hb, hshape⟩ := ctor_ok g pos topology
  exact ⟨nn, hnn, hw, hb,
    fun i hi => ⟨(hshape i hi).1, (hshape i hi).2.1, (hshape i hi).2.2.2⟩, htop⟩

/-- C10, as stated, fails: the constructor succeeds on the empty topology, on a
one-element topology and on a topology with a zero entry, producing networks
with these topologies. -/
theorem ctor_accepts_invalid_topologies :
    neural_net.ctor sample_gen 0 [] = Except.ok ⟨[], [], []⟩ ∧
    neural_net.ctor sample_gen 0 [3] = Except.ok ⟨[], [], [3]⟩ ∧
    neural_net.ctor sample_gen 0 [1, 0] = Except.ok ⟨[⟨0, 1, []⟩], [⟨[]⟩], [1, 0]⟩ := by
  refine ⟨rfl, rfl, rfl⟩

/-- C10, amended: constructing a network never fails, whatever the topology
(also with fewer than two entries or with a zero entry): the constructor
returns a network holding the given topology, with no weight layer when the
topology has fewer than two entries. -/
theorem ctor_never_fails {α : Type} (g : Nat → α) (pos : Nat) (topology : List Nat) :
    (∀ e, neural_net.ctor g pos topology ≠ Except.error e) ∧
    ∃ nn, neural_net.ctor g pos topology = Except.ok nn ∧ nn.m_topology = topology ∧
      (topology.length < 2 → nn.m_weights = [] ∧ nn.m_biases = []) := by
  obtain ⟨nn, hnn, htop, hw, hb, _⟩ := ctor_ok g pos topology
  refine ⟨fun e he => ?_, nn, hnn, htop, fun hlt => ⟨?_, ?_⟩⟩
  · rw [hnn] at he
    cases he
  · exact List.length_eq_zero.mp (by omega)
  · exact List.length_eq_zero.mp (by omega)

end claims_construction

/-! ## Inputs of the wrong length -/

section claims_wrong_length

/-- C11, as stated, fails: the constructor builds a network of topology `[3]`
(no weight layer), and `feed_forward` returns an input of length 2 unchanged. -/
theorem feed_forward_returns_on_wrong_length :
    neural_net.ctor sample_gen 0 [3] = Except.ok ⟨[], [], [3]⟩ ∧
    (vector.mk [(1 : ℚ), 2]).size ≠ (3 : Nat) ∧
    feed_forward sample_exp ⟨[], [], [3]⟩ ⟨[1, 2]⟩ = Except.ok ⟨[1, 2]⟩ := by
  refine ⟨rfl, by decide, rfl⟩

/-- C11, amended: on a well-shaped network with at least one weight layer and
an input whose length differs from `topology[0]`, `feed_forward` returns no
value: the product of the first layer fails Eigen's size assertion (there is
no `DimensionMismatchError`); the command `feed` checks the length before the
call and exits with status 1. -/
theorem feed_forward_wrong_length {α : Type} [Add α] [Mul α] [Div α] [Neg α] [Zero α] [One α]
    (exp : α → α) (nn : neural_net α) (input : vector α)
    (hws : well_shaped nn) (hL : 1 ≤ nn.m_weights.length)
    (hlen : input.size ≠ nn.m_topology.getD 0 0) :
    feed_forward exp nn input = Except.error Fault.dimension ∧
    feed exp nn input = Except.ok feed_outcome.exit_1 := by
  constructor
  · obtain ⟨n, hn⟩ : ∃ n, nn.m_weights.length = n + 1 := ⟨nn.m_weights.length - 1, by omega⟩
    have hc := spec_W_cols nn hws 0 (by omega)
    have hstep : feed_forward_step exp nn input 0 = Except.error Fault.dimension := by
      have hw : at_index nn.m_weights 0 = Except.ok (spec_W nn (0 + 1)) :=
        at_index_ok _ _ (by omega)
      have hm : (spec_W nn (0 + 1)).mul_vec input = Except.error Fault.dimension := by
        simp only [matrix.mul_vec, hc]
        rw [if_neg (fun h => hlen h.symm)]
      simp only [feed_forward_step, hw, ok_bind, hm, error_bind]
    rw [feed_forward, hn, List.range_succ_eq_map, List.foldlM_cons, hstep]
    rfl
  · have hfront : at_index nn.get_topology 0 = Except.ok (nn.m_topology.getD 0 0) :=
      at_index_ok _ _ (by have := hws.1; simp only [neural_net.get_topology]; omega)
    simp only [feed, hfront, ok_bind]
    rw [if_pos hlen]
    rfl

/-- Witness of the amended C11: `sample_net` (topology `[2, 1, 2]`) and an input
of length 1. -/
theorem feed_forward_wrong_length_witness :
    (well_shaped sample_net ∧ (vector.mk [(1 : ℚ)]).size ≠ sample_net.m_topology.getD 0 0) ∧
    (feed_forward sample_exp sample_net ⟨[1]⟩ = Except.error Fault.dimension ∧
      feed sample_exp sample_net ⟨[1]⟩ = Except.ok feed_outcome.exit_1) :=
  ⟨⟨by decide, by decide⟩,
    feed_forward_wrong_length sample_exp sample_net ⟨[1]⟩ (by decide) (by decide) (by decide)⟩

end claims_wrong_length

/-! ## The diagnostic `mean_squared_error` -/

section mse

variable {α : Type}

@[simp] theorem flt_val_add [Add α] (x y : α) : flt.val x + flt.val y = flt.val (x + y) := rfl

@[simp] theorem flt_val_sub [Sub α] (x y : α) : flt.val x - flt.val y = flt.val (x - y) := rfl

@[simp] theorem flt_val_mul [Mul α] (x y : α) : flt.val x * flt.val y = flt.val (x * y) := rfl

@[simp] theorem flt_val_neg [Neg α] (x : α) : -flt.val x = flt.val (-x) := rfl

@[simp] theorem flt_val_div [Div α] [Zero α] [DecidableEq α] (x y : α) :
    flt.val x / flt.val y = if y = 0 then flt.nan else flt.val (x / y) := rfl

@[simp] theorem flt_zero [Zero α] : (0 : flt α) = flt.val 0 := rfl

@[simp] theorem flt_one [One α] : (1 : flt α) = flt.val 1 := rfl

theorem flt_squaredNorm_minus_self [Field α] (l : List (flt α)) (h : ∀ x ∈ l, x ≠ flt.nan) :
    ((List.zipWith (fun x y => x - y) l l).map (fun x => x * x)).sum = flt.val 0 := by
  induction l with
  | nil => rfl
  | cons a l ih =>
    have hl := ih (fun x hx => h x (List.mem_cons_of_mem _ hx))
    cases a with
    | nan => exact absurd rfl (h flt.nan (List.mem_cons_self _ _))
    | val x =>
      simp only [List.zipWith_cons_cons, List.map_cons, List.sum_cons, hl]
      show flt.val ((x - x) * (x - x) + 0) = flt.val 0
      simp

theorem mean_squared_error_step_zero [Field α] [DecidableEq α] (exp : flt α → flt α)
    (nn : neural_net (flt α))
    (p : Instance (flt α)) (hfin : p.output.finite)
    (hfit : feed_forward exp nn p.input = Except.ok p.output) :
    mean_squared_error_step exp nn (flt.val 0) p = Except.ok (flt.val 0) := by
  have hsub : p.output.sub p.output = Except.ok (p.output.minus p.output) := by
    simp only [vector.sub, if_true]
  have hn : (p.output.minus p.output).squaredNorm = flt.val 0 :=
    flt_squaredNorm_minus_self p.output.data hfin
  simp only [mean_squared_error_step, hfit, ok_bind, hsub, hn, pure_eq_ok]
  show Except.ok (flt.val ((0 : α) + 0)) = Except.ok (flt.val 0)
  simp

end mse

section claims_mse

/-- C13, as stated, fails on the empty data set, where the hypothesis holds
vacuously: `mean_squared_error` divides the sum `0` by `0` and returns NaN. -/
theorem mean_squared_error_empty :
    mean_squared_error sample_flt_exp sample_flt_net [] = Except.ok flt.nan ∧
    flt.nan ≠ (0 : flt ℚ) := by
  refine ⟨rfl, by decide⟩

/-- C13, amended: for every network and every non-empty data set in which
`feed_forward(input)` equals the desired output for every instance (the outputs
being numbers, as an equality of floats requires), `mean_squared_error`
returns `0`. -/
theorem mean_squared_error_zero {α : Type} [Field α] [DecidableEq α] [CharZero α]
    (exp : flt α → flt α) (nn : neural_net (flt α)) (test_set : data_set (flt α))
    (hne : test_set ≠ [])
    (hfin : ∀ p ∈ test_set, p.output.finite)
    (hfit : ∀ p ∈ test_set, feed_forward exp nn p.input = Except.ok p.output) :
    mean_squared_error exp nn test_set = Except.ok 0 := by
  obtain ⟨s, hs, hP⟩ := foldlM_invariant (mean_squared_error_step exp nn) test_set
    (fun _ s => s = flt.val 0) (0 : flt α) rfl (by
      intro k hk s hP
      subst hP
      exact ⟨_, mean_squared_error_step_zero exp nn _ (hfin _ (List.get_mem _ _ _))
        (hfit _ (List.get_mem _ _ _)), rfl⟩)
  subst hP
  simp only [mean_squared_error, hs, ok_bind, pure_eq_ok]
  have hlen : ((test_set.length * 2 : Nat) : α) ≠ 0 := by
    have : test_set.length ≠ 0 := fun h => hne (List.length_eq_zero.mp h)
    exact Nat.cast_ne_zero.mpr (by omega)
  show Except.ok (if ((test_set.length * 2 : Nat) : α) = 0 then flt.nan
    else flt.val ((0 : α) / ((test_set.length * 2 : Nat) : α))) = Except.ok (flt.val 0)
  rw [if_neg hlen, zero_div]

/-- Witness of the amended C13: on `sample_flt_net` (weight 2, bias 0) with
`exp x = x² + 1`, the input 1 gives the output 1/6. -/
theorem mean_squared_error_zero_witness :
    (([⟨⟨[flt.val 1]⟩, ⟨[flt.val (1 / 6)]⟩⟩] : data_set (flt ℚ)) ≠ [] ∧
      feed_forward sample_flt_exp sample_flt_net ⟨[flt.val 1]⟩ =
        Except.ok ⟨[flt.val (1 / 6)]⟩) ∧
    mean_squared_error sample_flt_exp sample_flt_net [⟨⟨[flt.val 1]⟩, ⟨[flt.val (1 / 6)]⟩⟩] =
      Except.ok 0 := by
  have hff : feed_forward sample_flt_exp sample_flt_net ⟨[flt.val 1]⟩ =
      Except.ok ⟨[flt.val (1 / 6)]⟩ := by
    simp [feed_forward, feed_forward_step, sample_flt_net, sample_flt_exp, at_index,
      matrix.mul_vec, matrix.apply, matrix.coeff, vector.coeff, vector.size, vector.add,
      vector.plus, vector.unaryExpr, sigmoid, List.range_succ]
    norm_num
  exact ⟨⟨by simp, hff⟩,
    mean_squared_error_zero sample_flt_exp sample_flt_net _ (by simp)
      (by intro p hp; simp only [List.mem_singleton] at hp; subst hp; decide)
      (by intro p hp; simp only [List.mem_singleton] at hp; subst hp; exact hff)⟩

end claims_mse

/-! ## The forward pass inside backpropagation -/

section trace

variable {α : Type}

/-- Loop rule without termination: an invariant that every successful
iteration re-establishes holds of the state the loop returns, if it returns. -/
theorem foldlM_partial {σ ι : Type} (f : σ → ι → Res σ) (xs : List ι) :
    ∀ (P : Nat → σ → Prop) (s0 : σ), P 0 s0 →
      (∀ (k : Nat) (hk : k < xs.length) (s s1 : σ), P k s →
        f s (xs.get ⟨k, hk⟩) = Except.ok s1 → P (k + 1) s1) →
      ∀ s, xs.foldlM f s0 = Except.ok s → P xs.length s := by
  induction xs with
  | nil =>
    intro P s0 h0 _ s hs
    cases hs
    exact h0
  | cons x xs ih =>
    intro P s0 h0 hstep s hs
    rw [List.foldlM_cons] at hs
    cases hx : f s0 x with
    | error e => rw [hx] at hs; cases hs
    | ok s1 =>
      rw [hx, ok_bind] at hs
      have h1 : P 1 s1 := hstep 0 (by simp) s0 s1 h0 (by simpa using hx)
      have := ih (fun k s => P (k + 1) s) s1 h1 (by
        intro k hk s s2 hP hf
        exact hstep (k + 1) (by simpa using hk) s s2 hP (by simpa using hf)) s hs
      simpa using this

theorem at_index_eq_ok {β : Type} [Inhabited β] (xs : List β) (i : Nat) (x : β)
    (h : at_index xs i = Except.ok x) : i < xs.length ∧ x = xs.getD i default := by
  by_cases hi : i < xs.length
  · rw [at_index_ok _ _ hi] at h
    cases h
    exact ⟨hi, rfl⟩
  · rw [at_index_fault _ _ (by omega)] at h
    cases h

/-- What a successful iteration of the forward loop has computed. -/
theorem forward_step_eq_ok [Add α] [Mul α] [Div α] [Neg α] [Zero α] [One α] (exp : α → α)
    (nn : neural_net α) (st st1 : forward_state α) (l : Nat)
    (h : forward_step exp nn st l = Except.ok st1) :
    st1 = ⟨st.outputs ++ [(((spec_W nn (l + 1)).apply st.output).plus
          (spec_b nn (l + 1))).unaryExpr (sigmoid exp)],
        st.sums ++ [((spec_W nn (l + 1)).apply st.output).plus (spec_b nn (l + 1))],
        (((spec_W nn (l + 1)).apply st.output).plus (spec_b nn (l + 1))).unaryExpr
          (sigmoid exp)⟩ := by
  simp only [forward_step] at h
  cases hw : at_index nn.m_weights l with
  | error e => rw [hw] at h; cases h
  | ok w =>
    rw [hw, ok_bind] at h
    have hw2 : w = spec_W nn (l + 1) := (at_index_eq_ok _ _ _ hw).2
    subst hw2
    cases hm : (spec_W nn (l + 1)).mul_vec st.output with
    | error e => rw [hm] at h; cases h
    | ok wx =>
      rw [hm, ok_bind] at h
      have hwx : wx = (spec_W nn (l + 1)).apply st.output := by
        simp only [matrix.mul_vec] at hm
        split at hm
        · cases hm; rfl
        · cases hm
      subst hwx
      cases hb : at_index nn.m_biases l with
      | error e => rw [hb] at h; cases h
      | ok b =>
        rw [hb, ok_bind] at h
        have hb2 : b = spec_b nn (l + 1) := (at_index_eq_ok _ _ _ hb).2
        subst hb2
        cases ha : ((spec_W nn (l + 1)).apply st.output).add (spec_b nn (l + 1)) with
        | error e => rw [ha] at h; cases h
        | ok z =>
          rw [ha, ok_bind] at h
          have hz : z = ((spec_W nn (l + 1)).apply st.output).plus (spec_b nn (l + 1)) := by
            simp only [vector.add] at ha
            split at ha
            · cases ha; rfl
            · cases ha
          subst hz
          cases h
          rfl

/-- Each iteration of the loop of `feed_forward` is the iteration of the
forward loop of `get_delta_weights_and_biases`, without the bookkeeping. -/
theorem feed_forward_step_eq [Add α] [Mul α] [Div α] [Neg α] [Zero α] [One α] (exp : α → α)
    (nn : neural_net α) (st : forward_state α) (l : Nat) :
    feed_forward_step exp nn st.output l =
      (forward_step exp nn st l).map (fun s => s.output) := by
  simp only [feed_forward_step, forward_step]
  cases at_index nn.m_weights l with
  | error e => rfl
  | ok w =>
    simp only [ok_bind]
    cases w.mul_vec st.output with
    | error e => rfl
    | ok wx =>
      simp only [ok_bind]
      cases at_index nn.m_biases l with
      | error e => rfl
      | ok b =>
        simp only [ok_bind]
        cases wx.add b with
        | error e => rfl
        | ok z => rfl

theorem feed_forward_loop_eq [Add α] [Mul α] [Div α] [Neg α] [Zero α] [One α] (exp : α → α)
    (nn : neural_net α) (xs : List Nat) :
    ∀ st : forward_state α,
      xs.foldlM (feed_forward_step exp nn) st.output =
        (xs.foldlM (forward_step exp nn) st).map (fun s => s.output) := by
  induction xs with
  | nil => intro st; rfl
  | cons x xs ih =>
    intro st
    rw [List.foldlM_cons, List.foldlM_cons, feed_forward_step_eq]
    cases forward_step exp nn st x with
    | error e => rfl
    | ok st1 => exact ih st1

/-- The shape of the trace the forward loop returns, whenever it returns. -/
theorem forward_trace_shape [Add α] [Mul α] [Div α] [Neg α] [Zero α] [One α] (exp : α → α)
    (nn : neural_net α) (input : vector α) (fwd : forward_state α)
    (h : forward_trace exp nn input = Except.ok fwd) :
    fwd.outputs.length = nn.m_weights.length + 1 ∧
    fwd.sums.length = nn.m_weights.length ∧
    fwd.outputs.getD 0 default = input ∧
    (∀ l, 1 ≤ l → l ≤ nn.m_weights.length →
      fwd.sums.getD (l - 1) default =
        ((spec_W nn l).apply (fwd.outputs.getD (l - 1) default)).plus (spec_b nn l) ∧
      fwd.outputs.getD l default = (fwd.sums.getD (l - 1) default).unaryExpr (sigmoid exp)) ∧
    fwd.output = fwd.outputs.getD nn.m_weights.length default := by
  have key := foldlM_partial (forward_step exp nn) (List.range nn.m_weights.length)
    (fun k st =>
      st.outputs.length = k + 1 ∧ st.sums.length = k ∧ st.outputs.getD 0 default = input ∧
      (∀ l, 1 ≤ l → l ≤ k →
        st.sums.getD (l - 1) default =
          ((spec_W nn l).apply (st.outputs.getD (l - 1) default)).plus (spec_b nn l) ∧
        st.outputs.getD l default = (st.sums.getD (l - 1) default).unaryExpr (sigmoid exp)) ∧
      st.output = st.outputs.getD k default)
    ⟨[input], [], input⟩
    ⟨rfl, rfl, rfl, fun l h1 h2 => absurd h1 (by omega), rfl⟩ (by
      intro k hk st st1 hP hstep
      obtain ⟨ho, hs, h0, hl, hout⟩ := hP
      have hget : (List.range nn.m_weights.length).get ⟨k, hk⟩ = k := by simp
      rw [hget] at hstep
      have hst1 := forward_step_eq_ok exp nn st st1 k hstep
      subst hst1
      refine ⟨by simp [ho], by simp [hs], ?_, ?_, ?_⟩
      · rw [getD_concat_lt _ _ _ _ (by omega)]
        exact h0
      · intro l h1 h2
        by_cases hlk : l ≤ k
        · rw [getD_concat_lt _ _ _ _ (by omega), getD_concat_lt _ _ _ _ (by omega),
            getD_concat_lt _ _ _ _ (by omega)]
          exact hl l h1 hlk
        · have e : l = k + 1 := by omega
          subst e
          have e1 := getD_concat_length st.sums
            (((spec_W nn (k + 1)).apply st.output).plus (spec_b nn (k + 1))) default
          have e2 := getD_concat_length st.outputs
            ((((spec_W nn (k + 1)).apply st.output).plus (spec_b nn (k + 1))).unaryExpr
              (sigmoid exp)) default
          rw [hs] at e1
          rw [ho] at e2
          simp only [Nat.add_sub_cancel]
          rw [e1, e2, getD_concat_lt _ _ _ _ (by omega), ← hout]
          exact ⟨rfl, rfl⟩
      · have e2 := getD_concat_length st.outputs
          ((((spec_W nn (k + 1)).apply st.output).plus (spec_b nn (k + 1))).unaryExpr
            (sigmoid exp)) default
        rw [ho] at e2
        exact e2.symm)
    fwd h
  simpa using key

end trace

section claims_trace

/-- C17: the forward loop of `get_delta_weights_and_biases` agrees with
`feed_forward`.  The function is its forward loop followed by the gradient
computation; `feed_forward` is that loop with the trace dropped; a trace the
loop returns has `a[0] = input`, one `z[l] = W[l]·a[l-1] + b[l]` and one
`a[l] = sigmoid(z[l])` per weight layer, and its last activation is the value
of `feed_forward`; on a well-shaped network and an input of length
`topology[0]` the loop does return a trace. -/
theorem forward_trace_agrees {α : Type} [Add α] [Sub α] [Mul α] [Div α] [Neg α] [Zero α]
    [One α] (exp : α → α) (nn : neural_net α) (input : vector α) :
    (∀ desired_output learning_rate,
      get_delta_weights_and_biases exp nn input desired_output learning_rate =
        forward_trace exp nn input >>=
          gradients_from_trace exp nn desired_output learning_rate) ∧
    feed_forward exp nn input = (forward_trace exp nn input).map (fun fwd => fwd.output) ∧
    (∀ fwd, forward_trace exp nn input = Except.ok fwd →
      fwd.outputs.length = nn.m_weights.length + 1 ∧
      fwd.sums.length = nn.m_weights.length ∧
      fwd.outputs.getD 0 default = input ∧
      (∀ l, 1 ≤ l → l ≤ nn.m_weights.length →
        fwd.sums.getD (l - 1) default =
          ((spec_W nn l).apply (fwd.outputs.getD (l - 1) default)).plus (spec_b nn l) ∧
        fwd.outputs.getD l default =
          (fwd.sums.getD (l - 1) default).unaryExpr (sigmoid exp)) ∧
      fwd.outputs.getD nn.m_weights.length default = fwd.output ∧
      feed_forward exp nn input = Except.ok fwd.output) ∧
    (well_shaped nn → input.size = nn.m_topology.getD 0 0 →
      ∃ fwd, forward_trace exp nn input = Except.ok fwd) := by
  have hff : feed_forward exp nn input =
      (forward_trace exp nn input).map (fun fwd => fwd.output) :=
    feed_forward_loop_eq exp nn (List.range nn.m_weights.length) ⟨[input], [], input⟩
  refine ⟨fun _ _ => rfl, hff, ?_, ?_⟩
  · intro fwd h
    obtain ⟨h1, h2, h3, h4, h5⟩ := forward_trace_shape exp nn input fwd h
    refine ⟨h1, h2, h3, h4, h5.symm, ?_⟩
    rw [hff, h]
    rfl
  · intro hws hin
    exact ⟨_, forward_loop_ok exp nn input hws hin⟩

/-- Witness of C17: on `sample_net` and an input of length 2 the forward loop
returns a trace. -/
theorem forward_trace_agrees_witness :
    (well_shaped sample_net ∧ (vector.mk [(1 : ℚ), 1]).size = sample_net.m_topology.getD 0 0) ∧
    ∃ fwd, forward_trace sample_exp sample_net ⟨[1, 1]⟩ = Except.ok fwd ∧
      fwd.outputs.length = sample_net.m_weights.length + 1 ∧
      feed_forward sample_exp sample_net ⟨[1, 1]⟩ = Except.ok fwd.output := by
  have h := forward_trace_agrees sample_exp sample_net ⟨[1, 1]⟩
  obtain ⟨fwd, hfwd⟩ := h.2.2.2 (by decide) (by decide)
  exact ⟨⟨by decide, by decide⟩, fwd, hfwd, (h.2.2.1 fwd hfwd).1, (h.2.2.1 fwd hfwd).2.2.2.2.2⟩

end claims_trace

/-! ## Epochs -/

section epochs

variable {α : Type} [Add α] [Sub α] [Mul α] [Div α] [Neg α] [Zero α] [One α] [NatCast α]

theorem train_succ (exp : α → α) (fuel : Nat) (training_set : data_set α) (b : Nat)
    (learning_rate : α) (e : Nat) (nn : neural_net α) :
    train exp fuel training_set b learning_rate (e + 1) nn =
      train_seq (train_batches exp training_set b learning_rate fuel 0 nn)
        (train exp fuel training_set b learning_rate e) := by
  rw [train]
  cases train_batches exp training_set b learning_rate fuel 0 nn with
  | none => rfl
  | some r =>
    cases r with
    | error e => rfl
    | ok nn1 => rfl

theorem train_pass_iterate_stuck (exp : α → α) (fuel : Nat) (training_set : data_set α)
    (b : Nat) (learning_rate : α) (e : Nat) (r : Option (Res (neural_net α)))
    (h : ∀ nn, r ≠ some (Except.ok nn)) :
    (train_pass exp fuel training_set b learning_rate)^[e] r = r := by
  induction e with
  | zero => rfl
  | succ e ih =>
    rw [Function.iterate_succ_apply]
    have hr : train_pass exp fuel training_set b learning_rate r = r := by
      cases r with
      | none => rfl
      | some x =>
        cases x with
        | error e => rfl
        | ok nn => exact absurd rfl (h nn)
    rw [hr, ih]

theorem train_eq_iterate (exp : α → α) (fuel : Nat) (training_set : data_set α) (b : Nat)
    (learning_rate : α) :
    ∀ (e : Nat) (nn : neural_net α),
      train exp fuel training_set b learning_rate e nn =
        (train_pass exp fuel training_set b learning_rate)^[e] (some (Except.ok nn)) := by
  intro e
  induction e with
  | zero => intro nn; rfl
  | succ e ih =>
    intro nn
    rw [train_succ, Function.iterate_succ_apply]
    have hp : train_pass exp fuel training_set b learning_rate (some (Except.ok nn)) =
        train_batches exp training_set b learning_rate fuel 0 nn := rfl
    rw [hp]
    cases hr : train_batches exp training_set b learning_rate fuel 0 nn with
    | none =>
      rw [train_pass_iterate_stuck _ _ _ _ _ _ _ (by intro nn h; cases h)]
      rfl
    | some x =>
      cases x with
      | error err =>
        rw [train_pass_iterate_stuck _ _ _ _ _ _ _ (by intro nn h; cases h)]
        rfl
      | ok nn1 => exact ih nn1

theorem train_add (exp : α → α) (fuel : Nat) (training_set : data_set α) (b : Nat)
    (learning_rate : α) (e2 : Nat) :
    ∀ (e1 : Nat) (nn : neural_net α),
      train exp fuel training_set b learning_rate (e1 + e2) nn =
        train_seq (train exp fuel training_set b learning_rate e1 nn)
          (train exp fuel training_set b learning_rate e2) := by
  intro e1
  induction e1 with
  | zero =>
    intro nn
    rw [Nat.zero_add]
    rfl
  | succ e1 ih =>
    intro nn
    have e : e1 + 1 + e2 = (e1 + e2) + 1 := by omega
    rw [e, train_succ, train_succ]
    cases train_batches exp training_set b learning_rate fuel 0 nn with
    | none => rfl
    | some x =>
      cases x with
      | error err => rfl
      | ok nn1 => exact ih nn1

end epochs

section claims_epochs

/-- C15: for `batch_size ≥ 1` (start indices fitting `unsigned`) and fuel for
one pass, `train` terminates and is the `e`-fold application of one and the
same single-epoch pass, the inner loop from start index 0; so `train` with
`e1 + e2` epochs is `train` with `e1` epochs followed by `train` with `e2`
epochs on the result, and `train` with 0 epochs returns the network unchanged. -/
theorem train_epochs_compose {α : Type} [Add α] [Sub α] [Mul α] [Div α] [Neg α] [Zero α]
    [One α] [NatCast α] (exp : α → α) (fuel : Nat) (training_set : data_set α)
    (batch_size : Nat) (learning_rate : α) (nn : neural_net α) (e1 e2 : Nat)
    (hb : 1 ≤ batch_size)
    (hsz : (training_set.length + batch_size - 1) / batch_size * batch_size < 2 ^ 32)
    (hfuel : (training_set.length + batch_size - 1) / batch_size ≤ fuel) :
    train exp fuel training_set batch_size learning_rate (e1 + e2) nn ≠ none ∧
    train exp fuel training_set batch_size learning_rate 0 nn = some (Except.ok nn) ∧
    train exp fuel training_set batch_size learning_rate e1 nn =
      (train_pass exp fuel training_set batch_size learning_rate)^[e1] (some (Except.ok nn)) ∧
    train exp fuel training_set batch_size learning_rate (e1 + e2) nn =
      train_seq (train exp fuel training_set batch_size learning_rate e1 nn)
        (train exp fuel training_set batch_size learning_rate e2) := by
  refine ⟨?_, rfl, train_eq_iterate exp fuel training_set batch_size learning_rate e1 nn,
    train_add exp fuel training_set batch_size learning_rate e2 e1 nn⟩
  rw [train_eq_schedule exp training_set batch_size learning_rate fuel hb hsz hfuel]
  exact Option.some_ne_none _

/-- Witness of C15: `sample_set`, batches of two, one epoch then two. -/
theorem train_epochs_compose_witness :
    (1 ≤ 2 ∧ (sample_set.length + 2 - 1) / 2 * 2 < 2 ^ 32 ∧ (sample_set.length + 2 - 1) / 2 ≤ 5) ∧
    (train sample_exp 5 sample_set 2 3 (1 + 2) sample_net ≠ none ∧
    train sample_exp 5 sample_set 2 3 0 sample_net = some (Except.ok sample_net) ∧
    train sample_exp 5 sample_set 2 3 1 sample_net =
      (train_pass sample_exp 5 sample_set 2 3)^[1] (some (Except.ok sample_net)) ∧
    train sample_exp 5 sample_set 2 3 (1 + 2) sample_net =
      train_seq (train sample_exp 5 sample_set 2 3 1 sample_net)
        (train sample_exp 5 sample_set 2 3 2)) :=
  ⟨⟨by decide, by decide, by decide⟩,
    train_epochs_compose sample_exp 5 sample_set 2 3 sample_net 1 2 (by decide) (by decide)
      (by decide)⟩

end claims_epochs

/-! ## The adjusted batch -/

section clipping

theorem clipped_batch_size_clips (size start_index batch_size : Nat)
    (hstart : start_index < size) (hover : size < start_index + batch_size)
    (hfit : start_index + batch_size < 2 ^ 32) :
    clipped_batch_size size start_index batch_size = size - start_index - 1 := by
  have h : (start_index + batch_size) % 2 ^ 32 = start_index + batch_size :=
    Nat.mod_eq_of_lt hfit
  simp only [clipped_batch_size, h]
  rw [if_pos hover]
  have e : size + 2 ^ 64 - start_index - 1 = (size - start_index - 1) + 2 ^ 64 := by omega
  rw [e, Nat.add_mod_right, Nat.mod_eq_of_lt (by omega), Nat.mod_eq_of_lt (by omega)]

theorem clipped_batch_size_unclipped (size start_index batch_size : Nat)
    (hwin : start_index + batch_size ≤ size) (hfit : start_index + batch_size < 2 ^ 32) :
    clipped_batch_size size start_index batch_size = batch_size := by
  simp only [clipped_batch_size, Nat.mod_eq_of_lt hfit]
  rw [if_neg (by omega)]

theorem batch_indices_clipped (size start_index : Nat) (hstart : start_index < size)
    (hsz : size < 2 ^ 32) :
    batch_indices start_index (size - start_index - 1) =
      List.range' start_index (size - start_index - 1) := by
  have e : start_index + (size - start_index - 1) = size - 1 := by omega
  have e2 : size - 1 - start_index = size - start_index - 1 := by omega
  simp only [batch_indices, e, Nat.mod_eq_of_lt (show size - 1 < 2 ^ 32 by omega), e2]

/-- Whatever the requested batch size, a call with `start_index` inside the
data set reads a window of instances that lies inside the data set. -/
theorem batch_window_inside (size start_index batch_size : Nat) (hstart : start_index < size) :
    ∃ k, batch_indices start_index (clipped_batch_size size start_index batch_size) =
        List.range' start_index k ∧ start_index + k ≤ size := by
  refine ⟨(start_index + clipped_batch_size size start_index batch_size) % 2 ^ 32 - start_index,
    rfl, ?_⟩
  unfold clipped_batch_size
  split
  · rename_i hc
    have hlt : (start_index + batch_size) % 2 ^ 32 < 2 ^ 32 := Nat.mod_lt _ (by decide)
    have hsz : size < 2 ^ 32 := by omega
    have e : size + 2 ^ 64 - start_index - 1 = (size - start_index - 1) + 2 ^ 64 := by omega
    rw [e, Nat.add_mod_right, Nat.mod_eq_of_lt (show size - start_index - 1 < 2 ^ 64 by omega),
      Nat.mod_eq_of_lt (show size - start_index - 1 < 2 ^ 32 by omega)]
    have e2 : start_index + (size - start_index - 1) = size - 1 := by omega
    rw [e2, Nat.mod_eq_of_lt (show size - 1 < 2 ^ 32 by omega)]
    omega
  · rename_i hc
    omega

end clipping

section claims_clipping

/-- C16: when `start_index < dataset.size()` and
`start_index + batch_size > dataset.size()` (an `unsigned` sum, below `2^32`),
`propagate_batch` sets the batch size to `dataset.size() - start_index - 1`: it
reads exactly the indices `start_index .. dataset.size() - 2`, never the last
instance, and every parameter loses the sum of the changes
`get_delta_weights_and_biases` returns for these instances, divided by
`dataset.size() - start_index - 1`. -/
theorem propagate_batch_clipped {α : Type} [Add α] [Sub α] [Mul α] [Div α] [Neg α] [Zero α]
    [One α] [NatCast α] (exp : α → α) (nn : neural_net α) (training_set : data_set α)
    (learning_rate : α) (start_index batch_size : Nat)
    (hws : well_shaped nn) (hL : 1 ≤ nn.m_weights.length)
    (hds : valid_data_set nn training_set)
    (hstart : start_index < training_set.length)
    (hover : training_set.length < start_index + batch_size)
    (hfit : start_index + batch_size < 2 ^ 32) :
    clipped_batch_size training_set.length start_index batch_size =
      training_set.length - start_index - 1 ∧
    batch_indices start_index (clipped_batch_size training_set.length start_index batch_size) =
      List.range' start_index (training_set.length - start_index - 1) ∧
    (∀ i, i ∈ batch_indices start_index
        (clipped_batch_size training_set.length start_index batch_size) ↔
      start_index ≤ i ∧ i + 2 ≤ training_set.length) ∧
    ∃ g : Nat → List (matrix α) × List (vector α),
      (∀ i, start_index ≤ i → i + 2 ≤ training_set.length →
        get_delta_weights_and_biases exp nn (training_set.getD i default).input
          (training_set.getD i default).output learning_rate = Except.ok (g i)) ∧
      propagate_batch exp nn training_set start_index batch_size learning_rate =
        Except.ok
          ⟨(List.range nn.m_weights.length).map (fun l =>
              (nn.m_weights.getD l default).minus
                ((matrix.sum (nn.m_weights.getD l default).rows
                    (nn.m_weights.getD l default).cols
                    ((List.range' start_index (training_set.length - start_index - 1)).map
                      (fun i => (g i).1.getD l default))).divide
                  ((training_set.length - start_index - 1 : Nat) : α))),
            (List.range nn.m_weights.length).map (fun l =>
              (nn.m_biases.getD l default).minus
                ((vector.sum (nn.m_biases.getD l default).size
                    ((List.range' start_index (training_set.length - start_index - 1)).map
                      (fun i => (g i).2.getD l default))).divide
                  ((training_set.length - start_index - 1 : Nat) : α))),
            nn.m_topology⟩ := by
  have hc := clipped_batch_size_clips training_set.length start_index batch_size hstart hover
    hfit
  have hk := batch_indices_clipped training_set.length start_index hstart (by omega)
  refine ⟨hc, by rw [hc, hk], ?_, fun i =>
    ((List.range nn.m_weights.length).map
        (spec_grad_W exp nn learning_rate (training_set.getD i default)),
      (List.range nn.m_weights.length).map
        (spec_grad_b exp nn learning_rate (training_set.getD i default))), ?_, ?_⟩
  · intro i
    rw [hc, hk, List.mem_range'_1]
    omega
  · intro i _ hi
    have hi2 : i < training_set.length := by omega
    have hmem : training_set.getD i default ∈ training_set := by
      rw [List.getD_eq_getElem _ _ hi2]
      exact List.getElem_mem _
    exact get_delta_eq_grads exp nn _ learning_rate hws hL (hds _ hmem).1 (hds _ hmem).2
  · rw [propagate_batch_ok exp nn training_set learning_rate hws hL hds start_index batch_size
      (training_set.length - start_index - 1) (training_set.length - start_index - 1) hc hk
      (by omega)]
    refine congrArg Except.ok ?_
    congr 1
    · apply range_map_congr
      intro l hl
      congr 3
      apply List.map_congr_left
      intro i _
      exact (getD_range_map _ _ _ hl).symm
    · apply range_map_congr
      intro l hl
      congr 3
      apply List.map_congr_left
      intro i _
      exact (getD_range_map _ _ _ hl).symm

/-- Witness of C16: `sample_set` (size 3), start index 0 and batch size 5: the
batch size becomes 2 and the instances 0 and 1 are read. -/
theorem propagate_batch_clipped_witness :
    (well_shaped sample_net ∧ valid_data_set sample_net sample_set ∧
      0 < sample_set.length ∧ sample_set.length < 0 + 5) ∧
    clipped_batch_size sample_set.length 0 5 = sample_set.length - 0 - 1 ∧
    batch_indices 0 (clipped_batch_size sample_set.length 0 5) =
      List.range' 0 (sample_set.length - 0 - 1) ∧
    (∀ i, i ∈ batch_indices 0 (clipped_batch_size sample_set.length 0 5) ↔
      0 ≤ i ∧ i + 2 ≤ sample_set.length) ∧
    ∃ g : Nat → List (matrix ℚ) × List (vector ℚ),
      (∀ i, 0 ≤ i → i + 2 ≤ sample_set.length →
        get_delta_weights_and_biases sample_exp sample_net (sample_set.getD i default).input
          (sample_set.getD i default).output 3 = Except.ok (g i)) ∧
      propagate_batch sample_exp sample_net sample_set 0 5 3 =
        Except.ok
          ⟨(List.range sample_net.m_weights.length).map (fun l =>
              (sample_net.m_weights.getD l default).minus
                ((matrix.sum (sample_net.m_weights.getD l default).rows
                    (sample_net.m_weights.getD l default).cols
                    ((List.range' 0 (sample_set.length - 0 - 1)).map
                      (fun i => (g i).1.getD l default))).divide
                  ((sample_set.length - 0 - 1 : Nat) : ℚ))),
            (List.range sample_net.m_weights.length).map (fun l =>
              (sample_net.m_biases.getD l default).minus
                ((vector.sum (sample_net.m_biases.getD l default).size
                    ((List.range' 0 (sample_set.length - 0 - 1)).map
                      (fun i => (g i).2.getD l default))).divide
                  ((sample_set.length - 0 - 1 : Nat) : ℚ))),
            sample_net.m_topology⟩ :=
  ⟨⟨by decide, by decide, by decide, by decide⟩,
    propagate_batch_clipped sample_exp sample_net sample_set 3 0 5 (by decide) (by decide)
      (by decide) (by decide) (by decide) (by decide)⟩

end claims_clipping

/-! ## The shape invariant -/

section invariant

variable {α : Type}

theorem matrix.sum_data_length [Add α] [Zero α] (r c : Nat) (ms : List (matrix α))
    (h : ∀ m ∈ ms, m.data.length = r * c) : (matrix.sum r c ms).data.length = r * c := by
  have key : ∀ (ms : List (matrix α)) (z : matrix α), z.data.length = r * c →
      (∀ m ∈ ms, m.data.length = r * c) → (ms.foldl matrix.plus z).data.length = r * c := by
    intro ms
    induction ms with
    | nil => intro z hz _; exact hz
    | cons m ms ih =>
      intro z hz hm
      rw [List.foldl_cons]
      apply ih
      · simp only [matrix.plus, List.length_zipWith, hz, hm m (List.mem_cons_self _ _),
          Nat.min_self]
      · intro w hw
        exact hm w (List.mem_cons_of_mem _ hw)
  exact key ms _ (by simp [matrix.zeros]) h

theorem vector.size_divide [Div α] (v : vector α) (s : α) : (v.divide s).size = v.size := by
  simp only [vector.divide, vector.size, List.length_map]

theorem vector.outer_data_length [Mul α] (u v : vector α) :
    (u.outer v).data.length = u.size * v.size := by
  simp only [vector.outer, vector.size]
  induction v.data with
  | nil => simp
  | cons y ys ih =>
    rw [List.flatMap_cons, List.length_append, ih, List.length_map, List.length_cons,
      Nat.mul_succ, Nat.add_comm]

end invariant

section invariant_gradient

variable {α : Type} [Add α] [Sub α] [Mul α] [Div α] [Neg α] [Zero α] [One α]

theorem spec_grad_W_data_length (exp : α → α) (nn : neural_net α) (p : Instance α)
    (learning_rate : α) (hws : well_shaped nn) (hL : 1 ≤ nn.m_weights.length)
    (hin : p.input.size = nn.m_topology.getD 0 0)
    (hout : p.output.size = nn.m_topology.getD (nn.m_topology.length - 1) 0)
    (l : Nat) (hl : l < nn.m_weights.length) :
    (spec_grad_W exp nn learning_rate p l).data.length =
      (nn.m_weights.getD l default).rows * (nn.m_weights.getD l default).cols := by
  obtain ⟨hr, hc, _, _⟩ := hws.2.2 l hl
  rw [hr, hc]
  simp only [spec_grad_W, matrix.scale, List.length_map, vector.outer_data_length]
  rw [spec_delta_size exp nn p hws hL hin hout l hl,
    spec_a_size exp nn p.input hws hin l (Nat.le_of_lt hl)]

end invariant_gradient

section invariant_batch

variable {α : Type} [Add α] [Sub α] [Mul α] [Div α] [Neg α] [Zero α] [One α] [NatCast α]

/-- A call of `propagate_batch` with the start index inside the data set
returns, and keeps the topology and the shape invariant. -/
theorem propagate_batch_keeps_shape (exp : α → α) (nn : neural_net α)
    (training_set : data_set α) (learning_rate : α) (start_index batch_size : Nat)
    (hws : well_shaped nn) (hL : 1 ≤ nn.m_weights.length)
    (hds : valid_data_set nn training_set) (hstart : start_index < training_set.length) :
    ∃ nn1, propagate_batch exp nn training_set start_index batch_size learning_rate =
        Except.ok nn1 ∧ nn1.m_topology = nn.m_topology ∧ well_shaped nn1 := by
  obtain ⟨k, hk, hwin⟩ := batch_window_inside training_set.length start_index batch_size hstart
  have hmemts : ∀ i, i ∈ List.range' start_index k →
      training_set.getD i default ∈ training_set := by
    intro i hi
    have hi2 : i < training_set.length := by
      have := (List.mem_range'_1.mp hi).2
      omega
    rw [List.getD_eq_getElem _ _ hi2]
    exact List.getElem_mem _
  refine ⟨_, propagate_batch_ok exp nn training_set learning_rate hws hL hds start_index
    batch_size _ k rfl hk hwin, rfl, ?_, ?_, ?_⟩
  · simp only [List.length_map, List.length_range]
    exact hws.1
  · simp only [List.length_map, List.length_range]
    exact hws.1
  · intro l hl
    simp only [List.length_map, List.length_range] at hl
    obtain ⟨hr, hc, hd, hb⟩ := hws.2.2 l hl
    rw [getD_range_map _ _ _ hl, getD_range_map _ _ _ hl]
    refine ⟨hr, hc, ?_, ?_⟩
    · simp only [matrix.minus, matrix.divide, List.length_zipWith, List.length_map]
      rw [matrix.sum_data_length _ _ _ (by
        intro m hm
        obtain ⟨i, hi, rfl⟩ := List.mem_map.mp hm
        exact spec_grad_W_data_length exp nn _ learning_rate hws hL (hds _ (hmemts i hi)).1
          (hds _ (hmemts i hi)).2 l hl), hd, Nat.min_self]
    · rw [vector.size_minus, vector.size_divide, vector.sum_size _ _ (by
        intro v hv
        obtain ⟨i, hi, rfl⟩ := List.mem_map.mp hv
        exact grad_b_size exp nn _ learning_rate hws hL (hds _ (hmemts i hi)).1
          (hds _ (hmemts i hi)).2 l hl), Nat.min_self, hb]

theorem propagate_batch_keeps_topology_shape (exp : α → α) (training_set : data_set α)
    (learning_rate : α) (topology : List Nat) (h2 : 2 ≤ topology.length)
    (hds : ∀ p ∈ training_set, p.input.size = topology.getD 0 0 ∧
      p.output.size = topology.getD (topology.length - 1) 0)
    (nn : neural_net α) (hws : well_shaped nn) (htop : nn.m_topology = topology)
    (start_index batch_size : Nat) (hstart : start_index < training_set.length) :
    ∃ nn1, propagate_batch exp nn training_set start_index batch_size learning_rate =
        Except.ok nn1 ∧ well_shaped nn1 ∧ nn1.m_topology = topology := by
  have hL : 1 ≤ nn.m_weights.length := by
    have := hws.1
    rw [htop] at this
    omega
  have hv : valid_data_set nn training_set := by
    intro p hp
    rw [htop]
    exact hds p hp
  obtain ⟨nn1, h1, h2, h3⟩ := propagate_batch_keeps_shape exp nn training_set learning_rate
    start_index batch_size hws hL hv hstart
  exact ⟨nn1, h1, h3, h2.trans htop⟩

/-- The inner loop of `train` keeps the shape invariant, whenever it ends. -/
theorem train_batches_keeps_shape (exp : α → α) (training_set : data_set α) (b : Nat)
    (learning_rate : α) (topology : List Nat) (h2 : 2 ≤ topology.length)
    (hds : ∀ p ∈ training_set, p.input.size = topology.getD 0 0 ∧
      p.output.size = topology.getD (topology.length - 1) 0) :
    ∀ (fuel i : Nat) (nn : neural_net α) (r : Res (neural_net α)),
      well_shaped nn → nn.m_topology = topology →
      train_batches exp training_set b learning_rate fuel i nn = some r →
      ∃ nn1, r = Except.ok nn1 ∧ well_shaped nn1 ∧ nn1.m_topology = topology := by
  intro fuel
  induction fuel with
  | zero =>
    intro i nn r hws htop h
    rw [train_batches] at h
    split at h
    · cases h
    · cases h
      exact ⟨nn, rfl, hws, htop⟩
  | succ fuel ih =>
    intro i nn r hws htop h
    rw [train_batches] at h
    split at h
    · rename_i hi
      obtain ⟨nn1, h1, hws1, htop1⟩ := propagate_batch_keeps_topology_shape exp training_set
        learning_rate topology h2 hds nn hws htop i b hi
      rw [h1] at h
      exact ih _ nn1 r hws1 htop1 h
    · cases h
      exact ⟨nn, rfl, hws, htop⟩

/-- The function `train` keeps the shape invariant, whenever it ends. -/
theorem train_keeps_shape (exp : α → α) (fuel : Nat) (training_set : data_set α) (b : Nat)
    (learning_rate : α) (topology : List Nat) (h2 : 2 ≤ topology.length)
    (hds : ∀ p ∈ training_set, p.input.size = topology.getD 0 0 ∧
      p.output.size = topology.getD (topology.length - 1) 0) :
    ∀ (epochs : Nat) (nn : neural_net α) (r : Res (neural_net α)),
      well_shaped nn → nn.m_topology = topology →
      train exp fuel training_set b learning_rate epochs nn = some r →
      ∃ nn1, r = Except.ok nn1 ∧ well_shaped nn1 ∧ nn1.m_topology = topology := by
  intro epochs
  induction epochs with
  | zero =>
    intro nn r hws htop h
    rw [train] at h
    cases h
    exact ⟨nn, rfl, hws, htop⟩
  | succ e ih =>
    intro nn r hws htop h
    rw [train_succ] at h
    cases hb : train_batches exp training_set b learning_rate fuel 0 nn with
    | none => rw [hb] at h; cases h
    | some x =>
      obtain ⟨nn1, hx, hws1, htop1⟩ := train_batches_keeps_shape exp training_set b
        learning_rate topology h2 hds fuel 0 nn x hws htop hb
      subst hx
      rw [hb] at h
      exact ih nn1 r hws1 htop1 h

end invariant_batch

section claims_invariant

theorem has_shape_of_well_shaped {α : Type} (nn : neural_net α) (topology : List Nat)
    (hws : well_shaped nn) (htop : nn.m_topology = topology) : has_shape nn topology := by
  obtain ⟨h1, h2, h3⟩ := hws
  rw [htop] at h1 h2
  refine ⟨htop, ?_, ?_, ?_⟩
  · simp only [neural_net.get_weights]
    omega
  · simp only [neural_net.get_biases]
    omega
  · intro l hl
    obtain ⟨hr, hc, _, hb⟩ := h3 l (by omega)
    rw [htop] at hr hc hb
    exact ⟨hr, hc, hb⟩

/-- C14: for a topology of at least two layers and a data set whose instances
have input length `topology[0]` and output length `topology[last]`, the network
the constructor builds has the shape of the topology, and so has the network
after `propagate_batch` (any start index inside the data set, any batch size)
and after `train` (any epochs, batch size and learning rate, whenever it
ends); `train` does end for `batch_size ≥ 1`, start indices fitting
`unsigned` and enough fuel. -/
theorem shape_invariant {α : Type} [Add α] [Sub α] [Mul α] [Div α] [Neg α] [Zero α] [One α]
    [NatCast α] (g : Nat → α) (pos : Nat) (topology : List Nat) (exp : α → α)
    (training_set : data_set α) (h2 : 2 ≤ topology.length)
    (hds : ∀ p ∈ training_set, p.input.size = topology.getD 0 0 ∧
      p.output.size = topology.getD (topology.length - 1) 0) :
    ∃ nn, neural_net.ctor g pos topology = Except.ok nn ∧ has_shape nn topology ∧
      (∀ start_index batch_size learning_rate, start_index < training_set.length →
        ∃ nn1, propagate_batch exp nn training_set start_index batch_size learning_rate =
          Except.ok nn1 ∧ has_shape nn1 topology) ∧
      (∀ fuel epochs batch_size learning_rate r,
        train exp fuel training_set batch_size learning_rate epochs nn = some r →
        ∃ nn1, r = Except.ok nn1 ∧ has_shape nn1 topology) ∧
      (∀ fuel epochs batch_size learning_rate, 1 ≤ batch_size →
        (training_set.length + batch_size - 1) / batch_size * batch_size < 2 ^ 32 →
        (training_set.length + batch_size - 1) / batch_size ≤ fuel →
        ∃ nn1, train exp fuel training_set batch_size learning_rate epochs nn =
          some (Except.ok nn1) ∧ has_shape nn1 topology) := by
  obtain ⟨nn, hnn, htop, hws⟩ := ctor_well_shaped g pos topology (by omega)
  refine ⟨nn, hnn, has_shape_of_well_shaped nn topology hws htop, ?_, ?_, ?_⟩
  · intro start_index batch_size learning_rate hstart
    obtain ⟨nn1, h1, hws1, htop1⟩ := propagate_batch_keeps_topology_shape exp training_set
      learning_rate topology h2 hds nn hws htop start_index batch_size hstart
    exact ⟨nn1, h1, has_shape_of_well_shaped nn1 topology hws1 htop1⟩
  · intro fuel epochs batch_size learning_rate r hr
    obtain ⟨nn1, h1, hws1, htop1⟩ := train_keeps_shape exp fuel training_set batch_size
      learning_rate topology h2 hds epochs nn r hws htop hr
    exact ⟨nn1, h1, has_shape_of_well_shaped nn1 topology hws1 htop1⟩
  · intro fuel epochs batch_size learning_rate hb hsz hfuel
    have hsome := train_eq_schedule exp training_set batch_size learning_rate fuel hb hsz hfuel
      epochs nn
    obtain ⟨nn1, h1, hws1, htop1⟩ := train_keeps_shape exp fuel training_set batch_size
      learning_rate topology h2 hds epochs nn _ hws htop hsome
    rw [h1] at hsome
    exact ⟨nn1, hsome, has_shape_of_well_shaped nn1 topology hws1 htop1⟩

/-- Witness of C14: topology `[2, 1, 2]` and `sample_set`. -/
theorem shape_invariant_witness :
    (2 ≤ [2, 1, 2].length ∧
      ∀ p ∈ sample_set, p.input.size = [2, 1, 2].getD 0 0 ∧
        p.output.size = [2, 1, 2].getD ([2, 1, 2].length - 1) 0) ∧
    ∃ nn, neural_net.ctor sample_gen 0 [2, 1, 2] = Except.ok nn ∧ has_shape nn [2, 1, 2] ∧
      (∀ start_index batch_size learning_rate, start_index < sample_set.length →
        ∃ nn1, propagate_batch sample_exp nn sample_set start_index batch_size learning_rate =
          Except.ok nn1 ∧ has_shape nn1 [2, 1, 2]) ∧
      (∀ fuel epochs batch_size learning_rate r,
        train sample_exp fuel sample_set batch_size learning_rate epochs nn = some r →
        ∃ nn1, r = Except.ok nn1 ∧ has_shape nn1 [2, 1, 2]) ∧
      (∀ fuel epochs batch_size learning_rate, 1 ≤ batch_size →
        (sample_set.length + batch_size - 1) / batch_size * batch_size < 2 ^ 32 →
        (sample_set.length + batch_size - 1) / batch_size ≤ fuel →
        ∃ nn1, train sample_exp fuel sample_set batch_size learning_rate epochs nn =
          some (Except.ok nn1) ∧ has_shape nn1 [2, 1, 2]) :=
  ⟨⟨by decide, by decide⟩,
    shape_invariant sample_gen 0 [2, 1, 2] sample_exp sample_set (by decide) (by decide)⟩

end claims_invariant

/-! ## The last instance of a data set -/

section last_instance

variable {α : Type} [Add α] [Sub α] [Mul α] [Div α] [Neg α] [Zero α] [One α] [NatCast α]

theorem foldlM_congr_mem {σ ι : Type} (f g : σ → ι → Res σ) (xs : List ι) :
    (∀ x ∈ xs, ∀ s, f s x = g s x) → ∀ s, xs.foldlM f s = xs.foldlM g s := by
  induction xs with
  | nil => intro _ s; rfl
  | cons x xs ih =>
    intro h s
    rw [List.foldlM_cons, List.foldlM_cons, h x (List.mem_cons_self _ _) s]
    cases g s x with
    | error e => rfl
    | ok s1 => exact ih (fun y hy => h y (List.mem_cons_of_mem _ hy)) s1

/-- A call of `propagate_batch` depends on the data set only through its size
and the instances at the indices of the batch. -/
theorem propagate_batch_congr (exp : α → α) (nn : neural_net α) (ts1 ts2 : data_set α)
    (learning_rate : α) (start_index batch_size : Nat) (hlen : ts1.length = ts2.length)
    (hsame : ∀ i ∈ batch_indices start_index
        (clipped_batch_size ts2.length start_index batch_size), ts1[i]? = ts2[i]?) :
    propagate_batch exp nn ts1 start_index batch_size learning_rate =
      propagate_batch exp nn ts2 start_index batch_size learning_rate := by
  have hstep : ∀ i ∈ batch_indices start_index
      (clipped_batch_size ts2.length start_index batch_size), ∀ st,
      instance_step exp nn ts1 learning_rate st i = instance_step exp nn ts2 learning_rate st i := by
    intro i hi st
    simp only [instance_step, at_index, hsame i hi]
  simp only [propagate_batch, hlen]
  cases (List.range nn.m_weights.length).foldlM (zero_sums_step nn) ([], []) with
  | error e => rfl
  | ok sums =>
    simp only [ok_bind]
    rw [foldlM_congr_mem _ _ _ hstep sums]

/-- When the size of the data set is not a multiple of the batch size, no
batch that starts at a multiple of the batch size reads the last instance. -/
theorem batch_misses_last (n b m : Nat) (hmod : n % b ≠ 0) (hm : m * b < n)
    (hfit : m * b + b < 2 ^ 32) :
    ∀ i ∈ batch_indices (m * b) (clipped_batch_size n (m * b) b), i + 1 < n := by
  have hne : m * b + b ≠ n := by
    intro h
    apply hmod
    have e : n = (m + 1) * b := by rw [Nat.add_mul, Nat.one_mul]; exact h.symm
    rw [e]
    exact Nat.mul_mod_left _ _
  intro i hi
  by_cases hover : n < m * b + b
  · rw [clipped_batch_size_clips n (m * b) b hm hover hfit,
      batch_indices_clipped n (m * b) hm (by omega), List.mem_range'_1] at hi
    omega
  · rw [clipped_batch_size_unclipped n (m * b) b (by omega) hfit,
      batch_indices_fits (m * b) b hfit, List.mem_range'_1] at hi
    omega

theorem train_batches_congr (exp : α → α) (ts1 ts2 : data_set α) (b : Nat) (learning_rate : α)
    (hb : 1 ≤ b) (hlen : ts1.length = ts2.length) (hmod : ts1.length % b ≠ 0)
    (hsame : ∀ i, i + 1 < ts1.length → ts1[i]? = ts2[i]?)
    (hsz : (ts1.length + b - 1) / b * b < 2 ^ 32) :
    ∀ (fuel m : Nat) (nn : neural_net α),
      train_batches exp ts1 b learning_rate fuel (m * b) nn =
        train_batches exp ts2 b learning_rate fuel (m * b) nn := by
  intro fuel
  induction fuel with
  | zero =>
    intro m nn
    rw [train_batches, train_batches, hlen]
  | succ fuel ih =>
    intro m nn
    rw [train_batches, train_batches, hlen]
    by_cases hi : m * b < ts2.length
    · rw [if_pos hi, if_pos hi]
      have hi1 : m * b < ts1.length := by omega
      have hlt : m < (ts1.length + b - 1) / b := (lt_batches_iff _ _ _ hb).mpr hi1
      have hle : (m + 1) * b ≤ (ts1.length + b - 1) / b * b :=
        Nat.mul_le_mul_right b (by omega)
      rw [Nat.add_mul, Nat.one_mul] at hle
      have hp := propagate_batch_congr exp nn ts1 ts2 learning_rate (m * b) b hlen (by
        intro i hmem
        rw [← hlen] at hmem
        exact hsame i (batch_misses_last ts1.length b m hmod hi1 (by omega) i hmem))
      rw [hp]
      cases propagate_batch exp nn ts2 (m * b) b learning_rate with
      | error e => rfl
      | ok nn1 =>
        have hnext : (m * b + b) % 2 ^ 32 = (m + 1) * b := by
          rw [Nat.mod_eq_of_lt (by omega), Nat.add_mul, Nat.one_mul]
        simp only [hnext]
        exact ih (m + 1) nn1
    · rw [if_neg hi, if_neg hi]

theorem train_congr (exp : α → α) (fuel : Nat) (ts1 ts2 : data_set α) (b : Nat)
    (learning_rate : α) (hb : 1 ≤ b) (hlen : ts1.length = ts2.length)
    (hmod : ts1.length % b ≠ 0) (hsame : ∀ i, i + 1 < ts1.length → ts1[i]? = ts2[i]?)
    (hsz : (ts1.length + b - 1) / b * b < 2 ^ 32) :
    ∀ (epochs : Nat) (nn : neural_net α),
      train exp fuel ts1 b learning_rate epochs nn =
        train exp fuel ts2 b learning_rate epochs nn := by
  intro epochs
  induction epochs with
  | zero => intro nn; rfl
  | succ e ih =>
    intro nn
    have h0 := train_batches_congr exp ts1 ts2 b learning_rate hb hlen hmod hsame hsz fuel 0 nn
    rw [Nat.zero_mul] at h0
    rw [train_succ, train_succ, h0]
    cases train_batches exp ts2 b learning_rate fuel 0 nn with
    | none => rfl
    | some x =>
      cases x with
      | error err => rfl
      | ok nn1 => exact ih nn1

end last_instance

section claims_last_instance

/-- C18: for `batch_size ≥ 1` (start indices fitting `unsigned`) and two data
sets of the same size `n`, `n mod batch_size ≠ 0`, that agree on every
instance but the last, `train` has the same outcome on both, whatever the
network, the epochs and the learning rate; with fuel for one pass that outcome
is a result. -/
theorem train_ignores_last_instance {α : Type} [Add α] [Sub α] [Mul α] [Div α] [Neg α]
    [Zero α] [One α] [NatCast α] (exp : α → α) (fuel : Nat) (ts1 ts2 : data_set α)
    (batch_size : Nat) (learning_rate : α) (epochs : Nat) (nn : neural_net α)
    (hb : 1 ≤ batch_size) (hlen : ts1.length = ts2.length)
    (hmod : ts1.length % batch_size ≠ 0)
    (hsame : ∀ i, i + 1 < ts1.length → ts1[i]? = ts2[i]?)
    (hsz : (ts1.length + batch_size - 1) / batch_size * batch_size < 2 ^ 32) :
    train exp fuel ts1 batch_size learning_rate epochs nn =
      train exp fuel ts2 batch_size learning_rate epochs nn ∧
    ((ts1.length + batch_size - 1) / batch_size ≤ fuel →
      train exp fuel ts1 batch_size learning_rate epochs nn ≠ none) := by
  refine ⟨train_congr exp fuel ts1 ts2 batch_size learning_rate hb hlen hmod hsame hsz epochs nn,
    fun hfuel => ?_⟩
  rw [train_eq_schedule exp ts1 batch_size learning_rate fuel hb hsz hfuel]
  exact Option.some_ne_none _

/-- Witness of C18: `sample_set` and `sample_set_alt` (size 3, different last
instances), batches of two. -/
theorem train_ignores_last_instance_witness :
    (sample_set.length = sample_set_alt.length ∧ sample_set.length % 2 ≠ 0 ∧
      sample_set.getLast? ≠ sample_set_alt.getLast? ∧
      ∀ i, i + 1 < sample_set.length → sample_set[i]? = sample_set_alt[i]?) ∧
    (train sample_exp 4 sample_set 2 3 2 sample_net =
        train sample_exp 4 sample_set_alt 2 3 2 sample_net ∧
      ((sample_set.length + 2 - 1) / 2 ≤ 4 →
        train sample_exp 4 sample_set 2 3 2 sample_net ≠ none)) := by
  have hsame : ∀ i, i + 1 < sample_set.length → sample_set[i]? = sample_set_alt[i]? := by
    intro i hi
    have hi2 : i < 2 := by
      have : sample_set.length = 3 := rfl
      omega
    interval_cases i <;> rfl
  exact ⟨⟨by decide, by decide, by decide, hsame⟩,
    train_ignores_last_instance sample_exp 4 sample_set sample_set_alt 2 3 2 sample_net
      (by decide) (by decide) (by decide) hsame (by decide)⟩

end claims_last_instance

/-! ## Zero error -/

section zero_error

variable {α : Type} [Field α]

theorem zipWith_sub_self (l : List α) :
    List.zipWith (fun x y => x - y) l l = List.replicate l.length 0 := by
  induction l with
  | nil => rfl
  | cons a l ih => simp [List.replicate_succ, ih]

theorem zipWith_mul_replicate_zero (n : Nat) (l : List α) :
    List.zipWith (fun x y => x * y) (List.replicate n (0 : α)) l =
      List.replicate (min n l.length) 0 := by
  induction l generalizing n with
  | nil => simp
  | cons a l ih =>
    cases n with
    | zero => simp
    | succ n =>
      rw [List.replicate_succ, List.zipWith_cons_cons, ih, List.length_cons,
        Nat.succ_min_succ, List.replicate_succ, zero_mul]

theorem zipWith_add_replicate_zero (n : Nat) :
    List.zipWith (fun x y => x + y) (List.replicate n (0 : α)) (List.replicate n 0) =
      List.replicate n 0 := by
  induction n with
  | zero => rfl
  | succ n ih => rw [List.replicate_succ, List.zipWith_cons_cons, ih, add_zero]

theorem zipWith_sub_replicate_zero (l : List α) :
    List.zipWith (fun x y => x - y) l (List.replicate l.length 0) = l := by
  induction l with
  | nil => rfl
  | cons a l ih =>
    rw [List.length_cons, List.replicate_succ, List.zipWith_cons_cons, ih, sub_zero]

theorem vector.minus_self (v : vector α) : v.minus v = vector.zeros v.size := by
  simp only [vector.minus, vector.zeros, vector.size, zipWith_sub_self]

theorem vector.zeros_hadamard (n : Nat) (v : vector α) :
    (vector.zeros n).hadamard v = vector.zeros (min n v.size) := by
  simp only [vector.hadamard, vector.zeros, vector.size, zipWith_mul_replicate_zero]

theorem vector.zeros_coeff (n k : Nat) : (vector.zeros n : vector α).coeff k = 0 := by
  simp only [vector.coeff, vector.zeros]
  by_cases h : k < n
  · rw [List.getD_eq_getElem _ _ (by simpa using h)]
    simp
  · rw [List.getD_eq_default _ _ (by simpa using h)]

theorem matrix.apply_zeros (m : matrix α) (n : Nat) :
    m.apply (vector.zeros n) = vector.zeros m.rows := by
  simp only [matrix.apply, vector.zeros_coeff, mul_zero]
  have hsum : ∀ k : Nat, ((List.range k).map (fun _ => (0 : α))).sum = 0 := by
    intro k
    induction k with
    | zero => rfl
    | succ k ih => rw [List.range_succ, List.map_append, List.sum_append, ih]; simp
  simp only [hsum, vector.zeros]
  congr 1
  apply List.ext_getElem
  · simp
  · intro i h1 h2
    simp

theorem vector.zeros_outer (n : Nat) (v : vector α) :
    (vector.zeros n).outer v = matrix.zeros n v.size := by
  have hdata : ∀ l : List α,
      l.flatMap (fun y => (List.replicate n (0 : α)).map (fun x => x * y)) =
        List.replicate (n * l.length) 0 := by
    intro l
    induction l with
    | nil => rfl
    | cons y ys ih =>
      rw [List.flatMap_cons, ih, List.map_replicate, zero_mul, List.length_cons, Nat.mul_succ,
        Nat.add_comm, List.replicate_add]
  simp only [vector.outer, matrix.zeros, vector.zeros, vector.size, List.length_replicate,
    hdata]

theorem matrix_zeros_scale (r c : Nat) (s : α) :
    (matrix.zeros r c : matrix α).scale s = matrix.zeros r c := by
  simp only [matrix.scale, matrix.zeros, List.map_replicate, zero_mul]

theorem vector_zeros_scale (n : Nat) (s : α) :
    (vector.zeros n : vector α).scale s = vector.zeros n := by
  simp only [vector.scale, vector.zeros, List.map_replicate, zero_mul]

theorem matrix_zeros_divide (r c : Nat) (s : α) :
    (matrix.zeros r c : matrix α).divide s = matrix.zeros r c := by
  simp only [matrix.divide, matrix.zeros, List.map_replicate, zero_div]

theorem vector_zeros_divide (n : Nat) (s : α) :
    (vector.zeros n : vector α).divide s = vector.zeros n := by
  simp only [vector.divide, vector.zeros, List.map_replicate, zero_div]

theorem matrix_sum_zeros (r c : Nat) (ms : List (matrix α))
    (h : ∀ m ∈ ms, m = matrix.zeros r c) : matrix.sum r c ms = matrix.zeros r c := by
  induction ms using List.reverseRecOn with
  | nil => rfl
  | append_singleton ms m ih =>
    rw [matrix_sum_concat, ih (fun x hx => h x (List.mem_append_left _ hx)),
      h m (List.mem_append_right _ (List.mem_singleton_self m))]
    simp only [matrix.plus, matrix.zeros, zipWith_add_replicate_zero]

theorem vector_sum_zeros (n : Nat) (vs : List (vector α))
    (h : ∀ v ∈ vs, v = vector.zeros n) : vector.sum n vs = vector.zeros n := by
  induction vs using List.reverseRecOn with
  | nil => rfl
  | append_singleton vs v ih =>
    rw [vector_sum_concat, ih (fun x hx => h x (List.mem_append_left _ hx)),
      h v (List.mem_append_right _ (List.mem_singleton_self v))]
    simp only [vector.plus, vector.zeros, zipWith_add_replicate_zero]

theorem matrix_minus_zeros (m : matrix α) (h : m.data.length = m.rows * m.cols) :
    m.minus (matrix.zeros m.rows m.cols) = m := by
  simp only [matrix.minus, matrix.zeros, ← h, zipWith_sub_replicate_zero]

theorem vector_minus_zeros (v : vector α) : v.minus (vector.zeros v.size) = v := by
  simp only [vector.minus, vector.zeros, vector.size, zipWith_sub_replicate_zero]

/-- When the output of the forward pass is the desired output, every layer
error of the specification is zero. -/
theorem delta_down_zero (exp : α → α) (nn : neural_net α) (input desired_output : vector α)
    (hws : well_shaped nn) (hL : 1 ≤ nn.m_weights.length)
    (hout : desired_output.size = nn.m_topology.getD nn.m_weights.length 0)
    (hfit : spec_a exp nn input nn.m_weights.length = desired_output) :
    ∀ j, j + 1 ≤ nn.m_weights.length →
      delta_down exp nn input desired_output j =
        vector.zeros (nn.m_topology.getD (nn.m_weights.length - j) 0) := by
  intro j
  induction j with
  | zero =>
    intro _
    simp only [delta_down, hfit, vector.minus_self, vector.zeros_hadamard,
      vector.size_unaryExpr, spec_z_size exp nn input hws _ hL (Nat.le_refl _), hout,
      Nat.min_self, Nat.sub_zero]
  | succ j ih =>
    intro hj
    obtain ⟨k, hk⟩ : ∃ k, nn.m_weights.length - j = k + 1 + 1 :=
      ⟨nn.m_weights.length - j - 2, by omega⟩
    have hk2 : nn.m_weights.length - (j + 1) = k + 1 := by omega
    simp only [delta_down, ih (by omega), matrix.apply_zeros, vector.zeros_hadamard,
      matrix.rows_transpose, vector.size_unaryExpr, hk, hk2, Nat.add_sub_cancel,
      spec_W_cols nn hws (k + 1) (by omega),
      spec_z_size exp nn input hws (k + 1) (by omega) (by omega), Nat.min_self]

theorem spec_grads_zero (exp : α → α) (nn : neural_net α) (p : Instance α) (learning_rate : α)
    (hws : well_shaped nn) (hL : 1 ≤ nn.m_weights.length)
    (hin : p.input.size = nn.m_topology.getD 0 0)
    (hout : p.output.size = nn.m_topology.getD (nn.m_topology.length - 1) 0)
    (hfit : feed_forward exp nn p.input = Except.ok p.output)
    (l : Nat) (hl : l < nn.m_weights.length) :
    spec_grad_W exp nn learning_rate p l =
      matrix.zeros (nn.m_weights.getD l default).rows (nn.m_weights.getD l default).cols ∧
    spec_grad_b exp nn learning_rate p l = vector.zeros (nn.m_biases.getD l default).size := by
  have hlast : nn.m_topology.length - 1 = nn.m_weights.length := by
    have := hws.1
    omega
  rw [hlast] at hout
  have ha : spec_a exp nn p.input nn.m_weights.length = p.output := by
    rw [feed_forward_ok exp nn p.input hws hin] at hfit
    exact Except.ok.inj hfit
  have hd := delta_down_zero exp nn p.input p.output hws hL hout ha
    (nn.m_weights.length - (l + 1)) (by omega)
  have e : nn.m_weights.length - (nn.m_weights.length - (l + 1)) = l + 1 := by omega
  rw [e] at hd
  obtain ⟨hr, hc, _, hb⟩ := hws.2.2 l hl
  constructor
  · rw [spec_grad_W, spec_delta, hd, vector.zeros_outer, matrix_zeros_scale, hr, hc,
      spec_a_size exp nn p.input hws hin l (Nat.le_of_lt hl)]
  · rw [spec_grad_b, spec_delta, hd, vector_zeros_scale, hb]

end zero_error

section claims_zero_error

/-- C19: zero error is a fixed point of training.  On a well-shaped network
with at least one weight layer and a fitting data set (fewer than `2^32`
instances), for `batch_size ≥ 1` and `start_index + batch_size ≤ dataset.size()`:
if `feed_forward` returns the desired output on every instance of the batch
window, then `get_delta_weights_and_biases` returns, for each of these
instances, zero matrices and zero vectors for every layer, and
`propagate_batch` returns the network unchanged. -/
theorem zero_error_fixed_point {α : Type} [Field α] (exp : α → α) (nn : neural_net α)
    (training_set : data_set α) (learning_rate : α) (start_index batch_size : Nat)
    (hws : well_shaped nn) (hL : 1 ≤ nn.m_weights.length)
    (hds : valid_data_set nn training_set) (_hb : 1 ≤ batch_size)
    (hwin : start_index + batch_size ≤ training_set.length)
    (hsz : training_set.length < 2 ^ 32)
    (hfit : ∀ i, start_index ≤ i → i < start_index + batch_size →
      feed_forward exp nn (training_set.getD i default).input =
        Except.ok (training_set.getD i default).output) :
    (∀ i, start_index ≤ i → i < start_index + batch_size →
      get_delta_weights_and_biases exp nn (training_set.getD i default).input
          (training_set.getD i default).output learning_rate =
        Except.ok
          ((List.range nn.m_weights.length).map (fun l =>
              matrix.zeros (nn.m_weights.getD l default).rows
                (nn.m_weights.getD l default).cols),
            (List.range nn.m_weights.length).map (fun l =>
              vector.zeros (nn.m_biases.getD l default).size))) ∧
    propagate_batch exp nn training_set start_index batch_size learning_rate =
      Except.ok nn := by
  have hmem : ∀ i, i < start_index + batch_size →
      training_set.getD i default ∈ training_set := by
    intro i hi
    have hi2 : i < training_set.length := by omega
    rw [List.getD_eq_getElem _ _ hi2]
    exact List.getElem_mem _
  have hzero : ∀ i, start_index ≤ i → i < start_index + batch_size →
      ∀ l, l < nn.m_weights.length →
      spec_grad_W exp nn learning_rate (training_set.getD i default) l =
        matrix.zeros (nn.m_weights.getD l default).rows (nn.m_weights.getD l default).cols ∧
      spec_grad_b exp nn learning_rate (training_set.getD i default) l =
        vector.zeros (nn.m_biases.getD l default).size := by
    intro i h1 h2 l hl
    exact spec_grads_zero exp nn _ learning_rate hws hL (hds _ (hmem i h2)).1
      (hds _ (hmem i h2)).2 (hfit i h1 h2) l hl
  constructor
  · intro i h1 h2
    rw [get_delta_eq_grads exp nn _ learning_rate hws hL (hds _ (hmem i h2)).1
      (hds _ (hmem i h2)).2]
    refine congrArg Except.ok (Prod.ext ?_ ?_)
    · exact range_map_congr _ _ _ (fun l hl => (hzero i h1 h2 l hl).1)
    · exact range_map_congr _ _ _ (fun l hl => (hzero i h1 h2 l hl).2)
  · rw [propagate_batch_ok exp nn training_set learning_rate hws hL hds start_index batch_size
      batch_size batch_size (clipped_batch_size_fits _ _ _ hwin hsz)
      (batch_indices_fits _ _ (by omega)) hwin]
    have hb2 : nn.m_biases.length = nn.m_weights.length := by
      have := hws.1
      have := hws.2.1
      omega
    have hW : (List.range nn.m_weights.length).map (fun l =>
        (nn.m_weights.getD l default).minus
          ((matrix.sum (nn.m_weights.getD l default).rows (nn.m_weights.getD l default).cols
            ((List.range' start_index batch_size).map (fun i =>
              spec_grad_W exp nn learning_rate (training_set.getD i default) l))).divide
            (batch_size : α))) = nn.m_weights := by
      rw [← range_map_getD nn.m_weights]
      simp only [List.length_map, List.length_range]
      apply range_map_congr
      intro l hl
      rw [range_map_getD, matrix_sum_zeros _ _ _ (by
        intro m hm
        obtain ⟨i, hi, rfl⟩ := List.mem_map.mp hm
        have hi2 := List.mem_range'_1.mp hi
        exact (hzero i hi2.1 hi2.2 l hl).1), matrix_zeros_divide,
        matrix_minus_zeros _ (hws.2.2 l hl).2.2.1]
    have hB : (List.range nn.m_weights.length).map (fun l =>
        (nn.m_biases.getD l default).minus
          ((vector.sum (nn.m_biases.getD l default).size
            ((List.range' start_index batch_size).map (fun i =>
              spec_grad_b exp nn learning_rate (training_set.getD i default) l))).divide
            (batch_size : α))) = nn.m_biases := by
      rw [← range_map_getD_of_length nn.m_biases _ hb2]
      apply range_map_congr
      intro l hl
      rw [range_map_getD_of_length nn.m_biases _ hb2, vector_sum_zeros _ _ (by
        intro v hv
        obtain ⟨i, hi, rfl⟩ := List.mem_map.mp hv
        have hi2 := List.mem_range'_1.mp hi
        exact (hzero i hi2.1 hi2.2 l hl).2), vector_zeros_divide, vector_minus_zeros]
    rw [hW, hB]

/-- Witness of C19: `unit_net ℚ` on `fitted_set`, start index 0, batch size 1. -/
theorem zero_error_fixed_point_witness :
    (well_shaped (unit_net ℚ) ∧ valid_data_set (unit_net ℚ) fitted_set ∧
      feed_forward sample_exp (unit_net ℚ) ⟨[1]⟩ = Except.ok ⟨[1 / 3]⟩) ∧
    ((∀ i, 0 ≤ i → i < 0 + 1 →
      get_delta_weights_and_biases sample_exp (unit_net ℚ) (fitted_set.getD i default).input
          (fitted_set.getD i default).output 3 =
        Except.ok
          ((List.range (unit_net ℚ).m_weights.length).map (fun l =>
              matrix.zeros ((unit_net ℚ).m_weights.getD l default).rows
                ((unit_net ℚ).m_weights.getD l default).cols),
            (List.range (unit_net ℚ).m_weights.length).map (fun l =>
              vector.zeros ((unit_net ℚ).m_biases.getD l default).size))) ∧
    propagate_batch sample_exp (unit_net ℚ) fitted_set 0 1 3 = Except.ok (unit_net ℚ)) := by
  have hff : feed_forward sample_exp (unit_net ℚ) ⟨[1]⟩ = Except.ok ⟨[1 / 3]⟩ := by
    simp [feed_forward, feed_forward_step, unit_net, sample_exp, at_index, matrix.mul_vec,
      matrix.apply, matrix.coeff, vector.coeff, vector.size, vector.add, vector.plus,
      vector.unaryExpr, sigmoid, List.range_succ]
    norm_num
  exact ⟨⟨by decide, by decide, hff⟩,
    zero_error_fixed_point sample_exp (unit_net ℚ) fitted_set 3 0 1 (by decide) (by decide)
      (by decide) (by decide) (by decide) (by decide) (by
        intro i _ hi
        have hi0 : i = 0 := by omega
        subst hi0
        exact hff)⟩

end claims_zero_error

/-! ## Serialisation round trip -/

section round_trip

variable {α β : Type}

theorem read_scalars_append (xs : List α) (rest : archive α) :
    read_scalars xs.length (xs.map token.scalar ++ rest) = Except.ok (xs, rest) := by
  induction xs with
  | nil => rfl
  | cons x xs ih =>
    show (match read_scalars xs.length (xs.map token.scalar ++ rest) with
      | Except.ok (ys, rest1) => Except.ok (x :: ys, rest1)
      | Except.error e => Except.error e) = Except.ok (x :: xs, rest)
    rw [ih]

theorem range_map_getD_take [Zero α] (l : List α) (r : Nat) (h : r ≤ l.length) :
    (List.range r).map (fun i => l.getD i 0) = l.take r := by
  apply List.ext_getElem
  · simp [h]
  · intro i h1 h2
    simp only [List.length_map, List.length_range] at h1
    simp only [List.getElem_map, List.getElem_range, List.getElem_take]
    exact List.getD_eq_getElem _ _ (by omega)

theorem getD_add_drop [Zero α] (l : List α) (r k : Nat) :
    l.getD (k + r) 0 = (l.drop r).getD k 0 := by
  simp only [List.getD_eq_getElem?_getD, List.getElem?_drop, Nat.add_comm]

/-- The coefficients of a column-major array, read column by column, are the
array itself. -/
theorem column_major_coeffs [Zero α] (r : Nat) :
    ∀ (c : Nat) (l : List α), l.length = r * c →
      (List.range c).flatMap (fun j => (List.range r).map (fun i => l.getD (i + j * r) 0)) =
        l := by
  intro c
  induction c with
  | zero =>
    intro l hl
    have : l = [] := List.length_eq_zero.mp (by simpa using hl)
    subst this
    rfl
  | succ c ih =>
    intro l hl
    rw [List.range_succ_eq_map, List.flatMap_cons, List.flatMap_map]
    have h0 : (List.range r).map (fun i => l.getD (i + 0 * r) 0) = l.take r := by
      simp only [Nat.zero_mul, Nat.add_zero]
      exact range_map_getD_take l r (by rw [hl, Nat.mul_succ]; omega)
    have hd := ih (l.drop r) (by rw [List.length_drop, hl, Nat.mul_succ]; omega)
    have hrest : (List.range c).flatMap
        (fun a => (List.range r).map (fun i => l.getD (i + a.succ * r) 0)) = l.drop r := by
      refine Eq.trans ?_ hd
      apply List.flatMap_congr
      intro j _
      apply List.map_congr_left
      intro i _
      have e : i + j.succ * r = (i + j * r) + r := by rw [Nat.succ_mul]; omega
      rw [e, getD_add_drop]
    rw [h0, hrest, List.take_append_drop]

theorem matrix_save_eq [Zero α] (m : matrix α) (h : m.data.length = m.rows * m.cols) :
    m.save = token.int m.rows :: token.int m.cols :: m.data.map token.scalar := by
  have hc := column_major_coeffs m.rows m.cols m.data h
  have e : (List.range m.cols).flatMap (fun j =>
      (List.range m.rows).map (fun i => token.scalar (m.coeff i j))) =
      m.data.map token.scalar := by
    conv_rhs => rw [← hc]
    rw [List.map_flatMap]
    simp only [List.map_map, Function.comp_def, matrix.coeff]
  simp only [matrix.save, e, List.cons_append, List.nil_append]

theorem vector_save_eq [Zero α] (v : vector α) :
    v.save = token.int v.size :: token.int 1 :: v.data.map token.scalar := by
  have e : (List.range v.size).map (fun i => token.scalar (v.coeff i)) =
      v.data.map token.scalar := by
    have h := range_map_getD_take v.data v.size (Nat.le_refl _)
    rw [vector.size, List.take_length] at h
    conv_rhs => rw [← h]
    simp only [List.map_map, Function.comp_def, vector.coeff, vector.size]
  have h1 : List.range 1 = [0] := rfl
  simp only [vector.save, h1, List.flatMap_cons, List.flatMap_nil, Nat.zero_mul,
    Nat.add_zero, List.append_nil, e, List.cons_append, List.nil_append]

/-- Loading a saved matrix gives the matrix back and leaves the rest of the
archive. -/
theorem matrix_load_save [Zero α] (m : matrix α) (h : m.data.length = m.rows * m.cols)
    (rest : archive α) : matrix.load (m.save ++ rest) = Except.ok (m, rest) := by
  rw [matrix_save_eq m h]
  simp only [matrix.load, List.cons_append, read_int, ok_bind, ← h, read_scalars_append,
    pure_eq_ok]

/-- Loading a saved vector gives the vector back and leaves the rest of the
archive. -/
theorem vector_load_save [Zero α] (v : vector α) (rest : archive α) :
    vector.load (v.save ++ rest) = Except.ok (v, rest) := by
  rw [vector_save_eq v]
  have e : v.size * 1 = v.data.length := by simp only [Nat.mul_one, vector.size]
  simp only [vector.load, List.cons_append, read_int, ok_bind, ne_eq, not_true_eq_false,
    if_false, e, read_scalars_append, pure_eq_ok]

theorem load_items_flatMap (save : β → archive α) (load : reader α β) (xs : List β)
    (h : ∀ x ∈ xs, ∀ rest, load (save x ++ rest) = Except.ok (x, rest)) :
    ∀ rest, load_items load xs.length (xs.flatMap save ++ rest) = Except.ok (xs, rest) := by
  induction xs with
  | nil => intro rest; rfl
  | cons x xs ih =>
    intro rest
    rw [List.flatMap_cons, List.append_assoc, List.length_cons, load_items,
      h x (List.mem_cons_self _ _)]
    simp only [ih (fun y hy => h y (List.mem_cons_of_mem _ hy))]

/-- Loading a saved `std::vector` gives it back. -/
theorem load_save_collection (save : β → archive α) (load : reader α β) (xs : List β)
    (h : ∀ x ∈ xs, ∀ rest, load (save x ++ rest) = Except.ok (x, rest)) (rest : archive α) :
    load_collection load (save_collection save xs ++ rest) = Except.ok (xs, rest) := by
  simp only [load_collection, save_collection, List.cons_append, read_int, ok_bind,
    load_items_flatMap save load xs h]

end round_trip

section claims_round_trip

/-- C12: reading back what was written gives the same network.  For every
network whose matrices satisfy Eigen's storage invariant, `operator>>` applied
to the output of `operator<<` (biases, weights, topology; a matrix written as
`rows`, `cols` and its coefficients column by column, read as `rows`, `cols`
and the raw column-major array) returns the network itself, topology, shapes
and parameter values, and consumes exactly what was written. -/
theorem read_write_round_trip {α : Type} [Zero α] (nn : neural_net α)
    (hwf : ∀ m ∈ nn.m_weights, m.data.length = m.rows * m.cols) (rest : archive α) :
    read_net (write_net nn ++ rest) = Except.ok (nn, rest) := by
  have hb := load_save_collection vector.save vector.load nn.m_biases
    (fun v _ r => vector_load_save v r)
  have hw := load_save_collection matrix.save matrix.load nn.m_weights
    (fun m hm r => matrix_load_save m (hwf m hm) r)
  have ht := load_save_collection (fun k => [token.int k]) (read_int (α := α)) nn.m_topology
    (fun k _ r => rfl)
  simp only [read_net, write_net, List.append_assoc, hb, hw, ht, ok_bind, pure_eq_ok]

/-- Witness of C12 on `sample_net`, with an empty rest of the archive. -/
theorem read_write_round_trip_witness :
    (∀ m ∈ sample_net.m_weights, m.data.length = m.rows * m.cols) ∧
    read_net (write_net sample_net ++ []) = Except.ok (sample_net, []) :=
  ⟨by decide, read_write_round_trip sample_net (by decide) []⟩

end claims_round_trip

end nnlib
